import Mathlib

/-!
# Order-statistics red-black tree (`rbtree.h`) and doubly linked list (`list.c`)

The first part models the red-black tree whose interface is declared in
`include/rbtree.h`; the second part embeds `src/list.c` over an explicit heap of
list nodes.
-/

namespace RBTree

/-- Modelled from the spec: the node colour of `rbtree.c` (absent from the sources),
one of RED and BLACK (spec section 3). -/
inductive Color where
  | RED : Color
  | BLACK : Color
deriving DecidableEq, Repr

/-- Modelled from the spec: the tree node of `rbtree.c` (absent from the sources). A node
stores its colour, key, value, the `size` field and owns its `left` and `right` subtrees;
`nil` is an absent child. The non-owning `parent` link is carried by the path of frames
leading to a node (see `Frame`). -/
inductive rbtree_node (K V : Type) where
  | nil : rbtree_node K V
  | node (color : Color) (left : rbtree_node K V) (key : K) (value : V) (size : Nat)
      (right : rbtree_node K V) : rbtree_node K V
deriving DecidableEq, Repr

/-- Modelled from the spec: which child of its parent a node is (the `parent` back-reference
of `rbtree.c`, absent from the sources). -/
inductive Dir where
  | L : Dir
  | R : Dir
deriving DecidableEq, Repr

/-- Modelled from the spec: one `parent` link of `rbtree.c` (absent from the sources): the
parent's own fields, the side on which the current node hangs and the parent's other
subtree. -/
structure Frame (K V : Type) where
  dir : Dir
  color : Color
  key : K
  value : V
  size : Nat
  sibling : rbtree_node K V
deriving DecidableEq, Repr

/-- Modelled from the spec: the tree handle of `rbtree.c` (absent from the sources) with its
`root`, `count` and `compare` fields (spec section 3). -/
structure rbtree (K V : Type) where
  root : rbtree_node K V
  count : Nat
  compare : K → K → Int

/-- Modelled from the spec: the cursor of `rbtree.c` (absent from the sources): the
referenced node together with the chain of parent links up to the root. -/
structure rbtree_iterator (K V : Type) where
  node : rbtree_node K V
  path : List (Frame K V)
deriving DecidableEq, Repr

variable {K V : Type}

open Color Dir rbtree_node

/-- Modelled from the spec: reading the `size` field of a node of `rbtree.c` (absent from
the sources), an absent child contributing 0. -/
def node_size : rbtree_node K V → Nat
  | nil => 0
  | node _ _ _ _ s _ => s

/-- Modelled from the spec: reading the colour of a node of `rbtree.c` (absent from the
sources), absent children being treated as BLACK leaves. -/
def color_of : rbtree_node K V → Color
  | nil => BLACK
  | node c _ _ _ _ _ => c

/-- Modelled from the spec: recolouring a node of `rbtree.c` (absent from the sources); an
absent child has no colour field and stays as it is. -/
def set_color (c : Color) : rbtree_node K V → rbtree_node K V
  | nil => nil
  | node _ l k v s r => node c l k v s r

/-- Modelled from the spec: re-attaching a node below its parent along one `parent` link of
`rbtree.c` (absent from the sources). -/
def Frame.fill (f : Frame K V) (t : rbtree_node K V) : rbtree_node K V :=
  match f.dir with
  | L => node f.color t f.key f.value f.size f.sibling
  | R => node f.color f.sibling f.key f.value f.size t

/-- Modelled from the spec: following the `parent` links of `rbtree.c` (absent from the
sources) from a node up to the root, giving the whole tree. -/
def plug : List (Frame K V) → rbtree_node K V → rbtree_node K V
  | [], t => t
  | f :: rest, t => plug rest (f.fill t)

/-- Modelled from the spec: `rotate-left` of `rbtree.c` (absent from the sources, spec
section 4.1): the right child becomes the subtree root, and `size` is recomputed first for
the node that moved down, then for the node that moved up. -/
def rotate_left : rbtree_node K V → rbtree_node K V
  | node c a k v _ (node c2 b k2 v2 _ d) =>
    let lower := node c a k v (1 + node_size a + node_size b) b
    node c2 lower k2 v2 (1 + node_size lower + node_size d) d
  | t => t

/-- Modelled from the spec: `rotate-right` of `rbtree.c` (absent from the sources, spec
section 4.1), the mirror image of `rotate_left`. -/
def rotate_right : rbtree_node K V → rbtree_node K V
  | node c (node c2 a k2 v2 _ b) k v _ d =>
    let lower := node c b k v (1 + node_size b + node_size d) d
    node c2 a k2 v2 (1 + node_size a + node_size lower) lower
  | t => t

/-- Modelled from the spec: the BST descent of `rbtree.c` (absent from the sources) used by
find, insert and erase: it stops at the node whose key compares equal, or at the absent
position where the key belongs, remembering the parent links passed on the way. -/
def descend (cmp : K → K → Int) (key : K) :
    rbtree_node K V → List (Frame K V) → List (Frame K V) × rbtree_node K V
  | nil, path => (path, nil)
  | node c l k v s r, path =>
    if cmp k key > 0 then descend cmp key l (Frame.mk L c k v s r :: path)
    else if cmp k key < 0 then descend cmp key r (Frame.mk R c k v s l :: path)
    else (path, node c l k v s r)

/-- Modelled from the spec: "increment `size` for every ancestor on the descent path"
(spec section 4.2; `rbtree.c` is absent from the sources). -/
def inc_sizes (path : List (Frame K V)) : List (Frame K V) :=
  path.map fun f => Frame.mk f.dir f.color f.key f.value (f.size + 1) f.sibling

/-- Modelled from the spec: "decrement `size` for every ancestor from the removal point to
the root" (spec section 4.3; `rbtree.c` is absent from the sources). -/
def dec_sizes (path : List (Frame K V)) : List (Frame K V) :=
  path.map fun f => Frame.mk f.dir f.color f.key f.value (f.size - 1) f.sibling

/-- Modelled from the spec: insert-fixup of `rbtree.c` (absent from the sources, spec
section 4.2). `z` is the RED node just attached (or recoloured), `path` its parent links.
A BLACK parent ends the walk; a RED uncle is the recolour-only case, which moves two levels
up; otherwise the rotate-then-recolour case applies. -/
def insert_fixup : rbtree_node K V → List (Frame K V) → rbtree_node K V
  | z, p :: g :: rest =>
    match p.color with
    | BLACK => plug (p :: g :: rest) z
    | RED =>
      match color_of g.sibling with
      | RED =>
        let parent := (Frame.mk p.dir BLACK p.key p.value p.size p.sibling).fill z
        let grand :=
          (Frame.mk g.dir RED g.key g.value g.size (set_color BLACK g.sibling)).fill parent
        insert_fixup grand rest
      | BLACK =>
        match g.dir, p.dir with
        | L, L =>
          let parent := node BLACK z p.key p.value p.size p.sibling
          plug rest (rotate_right (node RED parent g.key g.value g.size g.sibling))
        | L, R =>
          let top := rotate_left (node RED p.sibling p.key p.value p.size z)
          plug rest
            (rotate_right (node RED (set_color BLACK top) g.key g.value g.size g.sibling))
        | R, R =>
          let parent := node BLACK p.sibling p.key p.value p.size z
          plug rest (rotate_left (node RED g.sibling g.key g.value g.size parent))
        | R, L =>
          let top := rotate_right (node RED z p.key p.value p.size p.sibling)
          plug rest
            (rotate_left (node RED g.sibling g.key g.value g.size (set_color BLACK top)))
  | z, path => plug path z

/-- Modelled from the spec: `rbtree_init` of `rbtree.c` (declared in `rbtree.h`, body absent
from the sources): an empty tree with count 0 and the given compare function. The destroy
handler only releases caller-owned memory and is not modelled. -/
def rbtree_init (rcomp : K → K → Int) : rbtree K V :=
  rbtree.mk nil 0 rcomp

/-- Modelled from the spec: `rbtree_empty` of `rbtree.c` (declared in `rbtree.h`, body absent
from the sources). -/
def rbtree_empty (rb : rbtree K V) : Bool :=
  rb.count == 0

/-- Modelled from the spec: `rbtree_size` of `rbtree.c` (declared in `rbtree.h`, body absent
from the sources): the `count` field of the handle. -/
def rbtree_size (rb : rbtree K V) : Nat :=
  rb.count

/-- Modelled from the spec: `rbtree_insert` of `rbtree.c` (declared in `rbtree.h`, body absent
from the sources, spec section 4.2). An equal key keeps the stored key and replaces the
stored value without touching `count`; otherwise a RED node of size 1 is attached at the
absent position reached by the descent, every ancestor's `size` is incremented, insert-fixup
runs, the root is recoloured BLACK and `count` grows by one. -/
def rbtree_insert (rb : rbtree K V) (key : K) (value : V) : rbtree K V :=
  match descend rb.compare key rb.root [] with
  | (path, node c l k _ s r) => rbtree.mk (plug path (node c l k value s r)) rb.count rb.compare
  | (path, nil) =>
    rbtree.mk (set_color BLACK (insert_fixup (node RED nil key value 1 nil) (inc_sizes path)))
      (rb.count + 1) rb.compare

/-- Modelled from the spec: the key and value of the leftmost node of a subtree of
`rbtree.c` (absent from the sources), i.e. of the in-order successor when applied to a right
subtree; the defaults are returned for an absent subtree. -/
def min_entry : rbtree_node K V → K → V → K × V
  | nil, k0, v0 => (k0, v0)
  | node _ l k v _ _, _, _ => min_entry l k v

/-- Modelled from the spec: descending to the leftmost node of a subtree of `rbtree.c`
(absent from the sources), remembering the parent links passed on the way. -/
def descend_min : rbtree_node K V → List (Frame K V) → List (Frame K V) × rbtree_node K V
  | nil, path => (path, nil)
  | node c l k v s r, path =>
    match l with
    | nil => (path, node c nil k v s r)
    | node _ _ _ _ _ _ => descend_min l (Frame.mk L c k v s r :: path)

/-- Modelled from the spec: one round of delete-fixup of `rbtree.c` (absent from the sources,
spec section 4.3) for a deficient LEFT child `x` below a parent with fields `pc pk pv ps` and
right sibling `w`. The result is the repaired subtree and whether the deficiency moved up to
its root.
* sibling RED: recolour sibling BLACK and parent RED, rotate left at the parent, go on with
  the new sibling;
* sibling BLACK with two BLACK children (or no sibling): recolour the sibling RED and
  propagate upward;
* otherwise, if the sibling's right child is BLACK: recolour the sibling's left child BLACK,
  the sibling RED and rotate right at the sibling; then give the sibling the parent's colour,
  colour the parent and the sibling's right child BLACK and rotate left at the parent. -/
def fix_left (pc : Color) (pk : K) (pv : V) (ps : Nat) (x : rbtree_node K V) :
    rbtree_node K V → rbtree_node K V × Bool
  | nil => (node pc x pk pv ps nil, true)
  | node RED wl wk wv _ wr =>
    let ps1 := 1 + node_size x + node_size wl
    let ws1 := 1 + ps1 + node_size wr
    match fix_left RED pk pv ps1 x wl with
    | (sub, false) => (node BLACK sub wk wv ws1 wr, false)
    | (sub, true) =>
      match color_of sub with
      | RED => (node BLACK (set_color BLACK sub) wk wv ws1 wr, false)
      | BLACK => fix_left BLACK wk wv ws1 sub wr
  | node BLACK wl wk wv ws wr =>
    match color_of wl, color_of wr with
    | BLACK, BLACK => (node pc x pk pv ps (node RED wl wk wv ws wr), true)
    | RED, BLACK =>
      let w2 := rotate_right (node RED (set_color BLACK wl) wk wv ws wr)
      match w2 with
      | node _ w2l w2k w2v w2s w2r =>
        (rotate_left (node BLACK x pk pv ps (node pc w2l w2k w2v w2s (set_color BLACK w2r))),
          false)
      | nil => (node pc x pk pv ps nil, false)
    | _, RED =>
      (rotate_left (node BLACK x pk pv ps (node pc wl wk wv ws (set_color BLACK wr))), false)

/-- Modelled from the spec: the mirror image of `fix_left` for a deficient RIGHT child `x`
with left sibling `w` (delete-fixup of `rbtree.c`, absent from the sources). -/
def fix_right (pc : Color) (pk : K) (pv : V) (ps : Nat) (x : rbtree_node K V) :
    rbtree_node K V → rbtree_node K V × Bool
  | nil => (node pc nil pk pv ps x, true)
  | node RED wl wk wv _ wr =>
    let ps1 := 1 + node_size wr + node_size x
    let ws1 := 1 + node_size wl + ps1
    match fix_right RED pk pv ps1 x wr with
    | (sub, false) => (node BLACK wl wk wv ws1 sub, false)
    | (sub, true) =>
      match color_of sub with
      | RED => (node BLACK wl wk wv ws1 (set_color BLACK sub), false)
      | BLACK => fix_right BLACK wk wv ws1 sub wl
  | node BLACK wl wk wv ws wr =>
    match color_of wr, color_of wl with
    | BLACK, BLACK => (node pc (node RED wl wk wv ws wr) pk pv ps x, true)
    | RED, BLACK =>
      let w2 := rotate_left (node RED wl wk wv ws (set_color BLACK wr))
      match w2 with
      | node _ w2l w2k w2v w2s w2r =>
        (rotate_right (node BLACK (node pc (set_color BLACK w2l) w2k w2v w2s w2r) pk pv ps x),
          false)
      | nil => (node pc nil pk pv ps x, false)
    | _, RED =>
      (rotate_right (node BLACK (node pc (set_color BLACK wl) wk wv ws wr) pk pv ps x), false)

/-- Modelled from the spec: delete-fixup of `rbtree.c` (absent from the sources, spec section
4.3): starting at the node `x` that took the place of the removed BLACK node, repair the
deficiency round by round, "until the deficiency is resolved or the root is reached", and
finally colour `x` BLACK. -/
def delete_fixup : rbtree_node K V → List (Frame K V) → rbtree_node K V
  | x, [] => set_color BLACK x
  | x, p :: rest =>
    match color_of x with
    | RED => plug (p :: rest) (set_color BLACK x)
    | BLACK =>
      match (match p.dir with
        | L => fix_left p.color p.key p.value p.size x p.sibling
        | R => fix_right p.color p.key p.value p.size x p.sibling) with
      | (sub, true) => delete_fixup sub rest
      | (sub, false) => set_color BLACK (plug rest sub)

/-- Modelled from the spec: splicing a node with at most one child out of the tree of
`rbtree.c` (absent from the sources, spec section 4.3): its single child (or the absent
marker) is linked to its parent, every ancestor's `size` is decremented, and delete-fixup
runs when the removed node was BLACK. -/
def splice_out (path : List (Frame K V)) (c : Color) (l r : rbtree_node K V) :
    rbtree_node K V :=
  let x := match l with
    | nil => r
    | node _ _ _ _ _ _ => l
  match c with
  | RED => plug (dec_sizes path) x
  | BLACK => delete_fixup x (dec_sizes path)

/-- Modelled from the spec: `rbtree_erase` of `rbtree.c` (declared in `rbtree.h`, body absent
from the sources, spec section 4.3). An absent key is a no-op. A node with two children takes
the key and value of its in-order successor, and the successor node is the one removed.
`count` decreases by one. -/
def rbtree_erase (rb : rbtree K V) (key : K) : rbtree K V :=
  match descend rb.compare key rb.root [] with
  | (_, nil) => rb
  | (path, node c l k v s r) =>
    match l, r with
    | node _ _ _ _ _ _, node _ _ _ _ _ _ =>
      let succ := min_entry r k v
      match descend_min r (Frame.mk R c succ.1 succ.2 s l :: path) with
      | (path2, node c2 l2 _ _ _ r2) =>
        rbtree.mk (splice_out path2 c2 l2 r2) (rb.count - 1) rb.compare
      | (_, nil) => rb
    | _, _ => rbtree.mk (splice_out path c l r) (rb.count - 1) rb.compare

/-- Modelled from the spec: `rbtree_clear` of `rbtree.c` (declared in `rbtree.h`, body absent
from the sources): destroys all nodes and resets the tree to empty. -/
def rbtree_clear (rb : rbtree K V) : rbtree K V :=
  rbtree.mk nil 0 rb.compare

/-- Modelled from the spec: `rbtree_find` of `rbtree.c` (declared in `rbtree.h`, body absent
from the sources, spec section 4.4): BST descent; `none` is the not-found state. -/
def rbtree_find (rb : rbtree K V) (key : K) : Option (rbtree_iterator K V) :=
  match descend rb.compare key rb.root [] with
  | (_, nil) => none
  | (path, node c l k v s r) => some (rbtree_iterator.mk (node c l k v s r) path)

/-- Modelled from the spec: `rbtree_get_key` of `rbtree.c` (declared in `rbtree.h`, body
absent from the sources); a cursor that references no node has no key. -/
def rbtree_get_key (iter : rbtree_iterator K V) : Option K :=
  match iter.node with
  | nil => none
  | node _ _ k _ _ _ => some k

/-- Modelled from the spec: `rbtree_get_value` of `rbtree.c` (declared in `rbtree.h`, body
absent from the sources); a cursor that references no node has no value. -/
def rbtree_get_value (iter : rbtree_iterator K V) : Option V :=
  match iter.node with
  | nil => none
  | node _ _ _ v _ _ => some v

/-- Modelled from the spec: the descent of `rbtree_order_of_key` (spec section 4.4;
`rbtree.c` is absent from the sources): where the key compares greater than the node's key,
add `1 + size(node.left)` and go right; otherwise go left without adding. -/
def order_of_key_from (cmp : K → K → Int) (key : K) : rbtree_node K V → Nat → Nat
  | nil, acc => acc
  | node _ l k _ _ r, acc =>
    if cmp k key < 0 then order_of_key_from cmp key r (acc + (1 + node_size l))
    else order_of_key_from cmp key l acc

/-- Modelled from the spec: `rbtree_order_of_key` of `rbtree.c` (declared in `rbtree.h`, body
absent from the sources). -/
def rbtree_order_of_key (rb : rbtree K V) (key : K) : Nat :=
  order_of_key_from rb.compare key rb.root 0

/-- Modelled from the spec: the descent of `rbtree_find_by_order` (spec section 4.4;
`rbtree.c` is absent from the sources): with `r = size(node.left)`, return the node when
`k == r`, go left with unchanged `k` when `k < r`, else go right with `k - r - 1`. -/
def find_by_order_from :
    rbtree_node K V → Nat → List (Frame K V) → Option (rbtree_iterator K V)
  | nil, _, _ => none
  | node c l k v s r, order, path =>
    if order = node_size l then some (rbtree_iterator.mk (node c l k v s r) path)
    else if order < node_size l then find_by_order_from l order (Frame.mk L c k v s r :: path)
    else find_by_order_from r (order - node_size l - 1) (Frame.mk R c k v s l :: path)

/-- Modelled from the spec: `rbtree_find_by_order` of `rbtree.c` (declared in `rbtree.h`,
body absent from the sources): past-the-end (`none`) when `order >= count`. -/
def rbtree_find_by_order (rb : rbtree K V) (order : Nat) : Option (rbtree_iterator K V) :=
  if order ≥ rb.count then none else find_by_order_from rb.root order []

/-- Modelled from the spec: the descent of `rbtree_upper_bound` (spec section 4.4; `rbtree.c`
is absent from the sources), "tracking the best-so-far candidate with
`compare(node.key, key) <= 0`". -/
def upper_bound_from (cmp : K → K → Int) (key : K) :
    rbtree_node K V → List (Frame K V) → Option (rbtree_iterator K V) →
      Option (rbtree_iterator K V)
  | nil, _, best => best
  | node c l k v s r, path, best =>
    if cmp k key ≤ 0 then
      upper_bound_from cmp key r (Frame.mk R c k v s l :: path)
        (some (rbtree_iterator.mk (node c l k v s r) path))
    else upper_bound_from cmp key l (Frame.mk L c k v s r :: path) best

/-- Modelled from the spec: `rbtree_upper_bound` of `rbtree.c` (declared in `rbtree.h`, body
absent from the sources); `none` is the past-the-end result. -/
def rbtree_upper_bound (rb : rbtree K V) (key : K) : Option (rbtree_iterator K V) :=
  upper_bound_from rb.compare key rb.root [] none

/-- Modelled from the spec: `rbtree_begin` of `rbtree.c` (declared in `rbtree.h`, body absent
from the sources, spec section 4.5): the leftmost node from the root, a cursor without node
when the tree is empty. -/
def rbtree_begin (rb : rbtree K V) : rbtree_iterator K V :=
  match descend_min rb.root [] with
  | (path, n) => rbtree_iterator.mk n path

/-- Modelled from the spec: the upward part of advance-next (spec section 4.5; `rbtree.c` is
absent from the sources): "ascend via `parent` links until reaching a node that is its
parent's left child (or the root, signaling exhaustion) and move to that parent". -/
def ascend_next : rbtree_node K V → List (Frame K V) → Option (rbtree_iterator K V)
  | _, [] => none
  | t, f :: rest =>
    match f.dir with
    | L => some (rbtree_iterator.mk (f.fill t) rest)
    | R => ascend_next (f.fill t) rest

/-- Modelled from the spec: `rbtree_next` of `rbtree.c` (declared in `rbtree.h`, body absent
from the sources, spec section 4.5). With a right child the cursor moves to its leftmost
descendant; otherwise it ascends. The boolean is false, and the cursor unchanged, when there
is no successor. -/
def rbtree_next (iter : rbtree_iterator K V) : Bool × rbtree_iterator K V :=
  match iter.node with
  | nil => (false, iter)
  | node c l k v s r =>
    match r with
    | node _ _ _ _ _ _ =>
      match descend_min r (Frame.mk R c k v s l :: iter.path) with
      | (path, n) => (true, rbtree_iterator.mk n path)
    | nil =>
      match ascend_next (node c l k v s nil) iter.path with
      | some it => (true, it)
      | none => (false, iter)

/-- Modelled from the spec: the in-order walk of spec section 8 over the cursor interface of
`rbtree.c` (absent from the sources): visit the cursor's key, call `rbtree_next`, and stop
when it returns false. `fuel` bounds the number of visits; `none` means the bound was hit
before `rbtree_next` returned false. -/
def walk_keys : Nat → rbtree_iterator K V → Option (List K)
  | 0, _ => none
  | fuel + 1, iter =>
    match rbtree_get_key iter with
    | none => some []
    | some k =>
      match rbtree_next iter with
      | (true, iter2) => (walk_keys fuel iter2).map fun ks => k :: ks
      | (false, _) => some [k]

/-- The tree states reachable from `rbtree_init rcomp` by `rbtree_insert`, `rbtree_erase`
and `rbtree_clear` calls. -/
inductive Reachable (rcomp : K → K → Int) : rbtree K V → Prop where
  | init : Reachable rcomp (rbtree_init rcomp)
  | insert (rb : rbtree K V) (key : K) (value : V) :
      Reachable rcomp rb → Reachable rcomp (rbtree_insert rb key value)
  | erase (rb : rbtree K V) (key : K) :
      Reachable rcomp rb → Reachable rcomp (rbtree_erase rb key)
  | clear (rb : rbtree K V) : Reachable rcomp rb → Reachable rcomp (rbtree_clear rb)

/-- The compare function is a total order on keys, keys comparing equal being the same key:
the sign of `cmp a b` is opposite to the sign of `cmp b a`, and "compares less or equal" is
transitive. -/
structure TotalCmp (cmp : K → K → Int) : Prop where
  antisymm : ∀ a b, cmp a b < 0 ↔ 0 < cmp b a
  le_trans : ∀ a b c, cmp a b ≤ 0 → cmp b c ≤ 0 → cmp a c ≤ 0

/-- The in-order sequence of the (key, value) pairs stored in a subtree. -/
def inorder : rbtree_node K V → List (K × V)
  | nil => []
  | node _ l k v _ r => inorder l ++ (k, v) :: inorder r

/-- Every node's `size` field equals `1 + size(left) + size(right)`, an absent child
counting 0. -/
def SizeOK : rbtree_node K V → Prop
  | nil => True
  | node _ l _ _ s r => s = 1 + node_size l + node_size r ∧ SizeOK l ∧ SizeOK r

/-- The keys stored in the tree, in in-order sequence. -/
def rbtree_keys (rb : rbtree K V) : List K :=
  (inorder rb.root).map Prod.fst

/-- The (key, value) pairs that precede the hole of a path in the in-order sequence of the
whole tree. -/
def before : List (Frame K V) → List (K × V)
  | [] => []
  | f :: rest =>
    match f.dir with
    | L => before rest
    | R => before rest ++ (inorder f.sibling ++ [(f.key, f.value)])

/-- The (key, value) pairs that follow the hole of a path in the in-order sequence of the
whole tree. -/
def after : List (Frame K V) → List (K × V)
  | [] => []
  | f :: rest =>
    match f.dir with
    | L => (f.key, f.value) :: inorder f.sibling ++ after rest
    | R => after rest

/-- The `size` fields along a path are exact, given that the subtree in the hole has `n`
nodes. -/
def PathOK : List (Frame K V) → Nat → Prop
  | [], _ => True
  | f :: rest, n => SizeOK f.sibling ∧ f.size = 1 + n + node_size f.sibling ∧ PathOK rest f.size

/-- A sequence of (key, value) pairs whose keys are strictly increasing under `cmp`. -/
def KeySorted (cmp : K → K → Int) (xs : List (K × V)) : Prop :=
  xs.Pairwise fun a b => cmp a.1 b.1 < 0

/-- The tree invariant used throughout: exact `size` fields, `count` equal to the size of
the root, keys strictly increasing in-order, and the compare function fixed at `rcomp`. -/
def TreeInv (rcomp : K → K → Int) (rb : rbtree K V) : Prop :=
  SizeOK rb.root ∧ rb.count = node_size rb.root ∧ KeySorted rcomp (inorder rb.root) ∧
    rb.compare = rcomp

/-- The pairs still to be visited by an in-order walk standing at a cursor: the cursor's own
pair, its right subtree, and everything after the cursor's position further up. -/
def remaining (iter : rbtree_iterator K V) : List (K × V) :=
  match iter.node with
  | nil => []
  | node _ _ k v _ r => (k, v) :: inorder r ++ after iter.path

/-- A compare function on integer keys, used for the concrete examples. -/
def int_compare (a b : Int) : Int :=
  a - b

/-- The tree of Scenario A (spec section 8): keys 5, 3, 8, 1, 4, 7, 9 inserted in that order,
each with ten times the key as its value. -/
def scenario_tree : rbtree Int Int :=
  [5, 3, 8, 1, 4, 7, 9].foldl (fun rb k => rbtree_insert rb k (10 * k)) (rbtree_init int_compare)

end RBTree

namespace DList

/-- The ways a run of the embedded code can fail to return: a NULL pointer is dereferenced,
a pointer to a freed node is used, or a loop exceeds the step bound given to it. -/
inductive Fault where
  | null_deref : Fault
  | dangling : Fault
  | out_of_fuel : Fault
deriving DecidableEq, Repr

/-- Embedding of `struct list_node` of `list.c`: the datum and the `prev` and `next`
pointers, `none` being NULL. Pointers are addresses into the heap of list nodes. -/
structure list_node (α : Type) where
  data : α
  prev : Option Nat
  next : Option Nat
deriving DecidableEq, Repr

/-- The heap of list nodes: `cells a` is the node living at address `a` (`none` when the
address is not allocated), and `brk` is the next address `Calloc` hands out. -/
structure Heap (α : Type) where
  cells : Nat → Option (list_node α)
  brk : Nat

/-- Embedding of `list_t` of `list.c`: `size`, `front`, `back` and the comparison handler.
The free handler only releases the caller's datum and is not modelled. -/
structure list_t (α : Type) where
  size : Nat
  front : Option Nat
  back : Option Nat
  list_comp : α → α → Int

/-- Embedding of `struct __list_iterator` of `list.c`: a cursor holding a node pointer. -/
structure list_iterator where
  node : Option Nat
deriving DecidableEq, Repr

variable {α : Type}

/-- The number of values of `size_t` (64-bit), the type of the `size` field. -/
def SIZE_MODULUS : Nat :=
  2 ^ 64

/-- The effect of `size++` on a `size_t`. -/
def size_inc (n : Nat) : Nat :=
  (n + 1) % SIZE_MODULUS

/-- The effect of `size--` on a `size_t` (wrapping below zero). -/
def size_dec (n : Nat) : Nat :=
  (n + (SIZE_MODULUS - 1)) % SIZE_MODULUS

/-- A heap without any node. -/
def Heap.empty : Heap α :=
  Heap.mk (fun _ => none) 0

/-- Dereferencing a node pointer: NULL and freed addresses are faults. -/
def load (h : Heap α) (p : Option Nat) : Except Fault (list_node α) :=
  match p with
  | none => Except.error Fault.null_deref
  | some a =>
    match h.cells a with
    | none => Except.error Fault.dangling
    | some nd => Except.ok nd

/-- Overwriting the node at address `a`. -/
def store (h : Heap α) (a : Nat) (nd : list_node α) : Heap α :=
  Heap.mk (fun b => if b = a then some nd else h.cells b) h.brk

/-- The assignment `p->next = v`. -/
def set_next (h : Heap α) (p : Option Nat) (v : Option Nat) : Except Fault (Heap α) :=
  match p with
  | none => Except.error Fault.null_deref
  | some a =>
    match h.cells a with
    | none => Except.error Fault.dangling
    | some nd => Except.ok (store h a (list_node.mk nd.data nd.prev v))

/-- The assignment `p->prev = v`. -/
def set_prev (h : Heap α) (p : Option Nat) (v : Option Nat) : Except Fault (Heap α) :=
  match p with
  | none => Except.error Fault.null_deref
  | some a =>
    match h.cells a with
    | none => Except.error Fault.dangling
    | some nd => Except.ok (store h a (list_node.mk nd.data v nd.next))

/-- The call `free(a)` on a node address. -/
def release (h : Heap α) (a : Nat) : Heap α :=
  Heap.mk (fun b => if b = a then none else h.cells b) h.brk

/-- Embedding of `__list_free_node` of `list.c`: the node is freed and `list->size`
decremented. -/
def __list_free_node (h : Heap α) (list : list_t α) (node : Option Nat) :
    Except Fault (Heap α × list_t α) :=
  match node with
  | none => Except.error Fault.null_deref
  | some a =>
    match h.cells a with
    | none => Except.error Fault.dangling
    | some _ =>
      Except.ok (release h a,
        list_t.mk (size_dec list.size) list.front list.back list.list_comp)

/-- Embedding of `__alloc_node` of `list.c`: a zeroed node holding `data` at a fresh address. -/
def __alloc_node (h : Heap α) (data : α) : Heap α × Nat :=
  (Heap.mk (fun b => if b = h.brk then some (list_node.mk data none none) else h.cells b)
    (h.brk + 1), h.brk)

/-- The loop of `__list_find` of `list.c`, from the node `iter` on. -/
def find_loop (comp : α → α → Int) (data : α) (h : Heap α) :
    Nat → Option Nat → Except Fault (Option Nat)
  | _, none => Except.ok none
  | 0, some _ => Except.error Fault.out_of_fuel
  | fuel + 1, some a => do
    let nd ← load h (some a)
    if comp nd.data data = 0 then Except.ok (some a) else find_loop comp data h fuel nd.next

/-- Embedding of `__list_find` of `list.c`. -/
def __list_find (fuel : Nat) (h : Heap α) (list : list_t α) (data : α) :
    Except Fault (Option Nat) :=
  find_loop list.list_comp data h fuel list.front

/-- Embedding of `__list_insert_front` of `list.c`. -/
def __list_insert_front (h : Heap α) (list : list_t α) (node : Nat) :
    Except Fault (Heap α × list_t α) :=
  match list.front with
  | some f => do
    let h1 ← set_next h (some node) (some f)
    let h2 ← set_prev h1 (some f) (some node)
    Except.ok (h2, list_t.mk (size_inc list.size) (some node) list.back list.list_comp)
  | none =>
    Except.ok (h, list_t.mk (size_inc list.size) (some node) (some node) list.list_comp)

/-- Embedding of `__list_insert_back` of `list.c`. -/
def __list_insert_back (h : Heap α) (list : list_t α) (node : Nat) :
    Except Fault (Heap α × list_t α) :=
  match list.back with
  | some b => do
    let h1 ← set_next h (some b) (some node)
    let h2 ← set_prev h1 (some node) (some b)
    Except.ok (h2, list_t.mk (size_inc list.size) list.front (some node) list.list_comp)
  | none =>
    Except.ok (h, list_t.mk (size_inc list.size) (some node) (some node) list.list_comp)

/-- Embedding of `__list_insert_before` of `list.c`. -/
def __list_insert_before (h : Heap α) (list : list_t α) (pos node : Nat) :
    Except Fault (Heap α × list_t α) := do
  let p ← load h (some pos)
  let h1 ← set_prev h (some node) p.prev
  let h2 ← match p.prev with
    | some q => set_next h1 (some q) (some node)
    | none => Except.ok h1
  let h3 ← set_prev h2 (some pos) (some node)
  let h4 ← set_next h3 (some node) (some pos)
  let n ← load h4 (some node)
  let front := match n.prev with
    | none => some node
    | some _ => list.front
  Except.ok (h4, list_t.mk (size_inc list.size) front list.back list.list_comp)

/-- The loop of `__list_insert` of `list.c`, from the node `iter` on, followed by the
`__list_insert_back` after the loop. -/
def insert_loop (list : list_t α) (node : Nat) (d : α) :
    Nat → Heap α → Option Nat → Except Fault (Heap α × list_t α)
  | _, h, none => __list_insert_back h list node
  | 0, _, some _ => Except.error Fault.out_of_fuel
  | fuel + 1, h, some a => do
    let nd ← load h (some a)
    if list.list_comp d nd.data < 0 then __list_insert_before h list a node
    else insert_loop list node d fuel h nd.next

/-- Embedding of `__list_insert` of `list.c`. -/
def __list_insert (fuel : Nat) (h : Heap α) (list : list_t α) (node : Nat) :
    Except Fault (Heap α × list_t α) := do
  let n ← load h (some node)
  insert_loop list node n.data fuel h list.front

/-- Embedding of `__list_pop_front` of `list.c`. -/
def __list_pop_front (h : Heap α) (list : list_t α) : Except Fault (Heap α × list_t α) :=
  match list.front with
  | some f => do
    let nd ← load h (some f)
    match nd.next with
    | some g => do
      let h1 ← set_prev h (some g) none
      __list_free_node h1 (list_t.mk list.size (some g) list.back list.list_comp) (some f)
    | none => __list_free_node h (list_t.mk list.size none none list.list_comp) (some f)
  | none => Except.ok (h, list)

/-- Embedding of `__list_pop_back` of `list.c`. -/
def __list_pop_back (h : Heap α) (list : list_t α) : Except Fault (Heap α × list_t α) :=
  match list.back with
  | some b => do
    let nd ← load h (some b)
    match nd.prev with
    | some g => do
      let h1 ← set_next h (some g) none
      __list_free_node h1 (list_t.mk list.size list.front (some g) list.list_comp) (some b)
    | none => __list_free_node h (list_t.mk list.size none none list.list_comp) (some b)
  | none => Except.ok (h, list)

/-- Embedding of `__list_erase` of `list.c`. -/
def __list_erase (h : Heap α) (list : list_t α) (node : Nat) :
    Except Fault (Heap α × list_t α) := do
  let nd ← load h (some node)
  match nd.prev, nd.next with
  | some p, some n => do
    let h1 ← set_next h (some p) (some n)
    let h2 ← set_prev h1 (some n) (some p)
    __list_free_node h2 list (some node)
  | some p, none => do
    let h1 ← set_next h (some p) none
    __list_free_node h1 (list_t.mk list.size list.front (some p) list.list_comp) (some node)
  | none, some n => do
    let h1 ← set_prev h (some n) none
    __list_free_node h1 (list_t.mk list.size (some n) list.back list.list_comp) (some node)
  | none, none =>
    __list_free_node h (list_t.mk list.size none none list.list_comp) (some node)

/-- Embedding of `list_init` of `list.c`: a zeroed handle with the comparison handler set. -/
def list_init (lcomp : α → α → Int) : list_t α :=
  list_t.mk 0 none none lcomp

/-- Embedding of `list_empty` of `list.c`. -/
def list_empty (list : list_t α) : Bool :=
  list.size == 0

/-- Embedding of `list_size` of `list.c`. -/
def list_size (list : list_t α) : Nat :=
  list.size

/-- Embedding of `list_begin` of `list.c`. -/
def list_begin (list : list_t α) : list_iterator :=
  list_iterator.mk list.front

/-- Embedding of `list_end` of `list.c`. -/
def list_end (list : list_t α) : list_iterator :=
  list_iterator.mk list.back

/-- Embedding of `list_get` of `list.c`. -/
def list_get (h : Heap α) (iter : list_iterator) : Except Fault α := do
  let nd ← load h iter.node
  Except.ok nd.data

/-- Embedding of `list_next` of `list.c`: the advanced cursor and whether it still holds a
node. -/
def list_next (h : Heap α) (iter : list_iterator) : Except Fault (list_iterator × Bool) :=
  match iter.node with
  | some a => do
    let nd ← load h (some a)
    Except.ok (list_iterator.mk nd.next, nd.next.isSome)
  | none => Except.ok (iter, false)

/-- Embedding of `list_prev` of `list.c`: the moved cursor and whether it still holds a node. -/
def list_prev (h : Heap α) (iter : list_iterator) : Except Fault (list_iterator × Bool) :=
  match iter.node with
  | some a => do
    let nd ← load h (some a)
    Except.ok (list_iterator.mk nd.prev, nd.prev.isSome)
  | none => Except.ok (iter, false)

/-- Embedding of `list_push_front` of `list.c`. -/
def list_push_front (h : Heap α) (list : list_t α) (data : α) :
    Except Fault (Heap α × list_t α) :=
  __list_insert_front (__alloc_node h data).1 list (__alloc_node h data).2

/-- Embedding of `list_pop_front` of `list.c`. -/
def list_pop_front (h : Heap α) (list : list_t α) : Except Fault (Heap α × list_t α) :=
  __list_pop_front h list

/-- Embedding of `list_push_back` of `list.c`. -/
def list_push_back (h : Heap α) (list : list_t α) (data : α) :
    Except Fault (Heap α × list_t α) :=
  __list_insert_back (__alloc_node h data).1 list (__alloc_node h data).2

/-- Embedding of `list_pop_back` of `list.c`. -/
def list_pop_back (h : Heap α) (list : list_t α) : Except Fault (Heap α × list_t α) :=
  __list_pop_back h list

/-- Embedding of `list_insert_before` of `list.c`; `pos` is the iterator pointer, `none`
being NULL. -/
def list_insert_before (h : Heap α) (list : list_t α) (pos : Option list_iterator) (data : α) :
    Except Fault (Heap α × list_t α) :=
  match pos with
  | none => Except.ok (h, list)
  | some it =>
    match it.node with
    | none => Except.ok (h, list)
    | some p => __list_insert_before (__alloc_node h data).1 list p (__alloc_node h data).2

/-- Embedding of `list_find` of `list.c`; `none` is the NULL iterator. -/
def list_find (fuel : Nat) (h : Heap α) (list : list_t α) (data : α) :
    Except Fault (Option list_iterator) := do
  let node ← __list_find fuel h list data
  match node with
  | some a => Except.ok (some (list_iterator.mk (some a)))
  | none => Except.ok none

/-- Embedding of `list_insert` of `list.c`. -/
def list_insert (fuel : Nat) (h : Heap α) (list : list_t α) (data : α) :
    Except Fault (Heap α × list_t α) :=
  __list_insert fuel (__alloc_node h data).1 list (__alloc_node h data).2

/-- Embedding of `list_erase` of `list.c`. -/
def list_erase (fuel : Nat) (h : Heap α) (list : list_t α) (data : α) :
    Except Fault (Heap α × list_t α) := do
  let node ← __list_find fuel h list data
  match node with
  | some a => __list_erase h list a
  | none => Except.ok (h, list)

/-- The state of the `while` loop of `list_merge`: the heap, the list being built, the `size`
fields of the two inputs and the two cursors. At the head of the loop `_iter1 == iter1` and
`_iter2 == iter2`, so the two shadow cursors are not kept separately. -/
structure merge_state (α : Type) where
  heap : Heap α
  list : list_t α
  size1 : Nat
  size2 : Nat
  iter1 : Option Nat
  iter2 : Option Nat

/-- The `while (iter1 && iter2)` loop of `list_merge` of `list.c`. -/
def merge_loop : Nat → merge_state α → Except Fault (merge_state α)
  | fuel, st =>
    match st.iter1, st.iter2 with
    | some a1, some a2 =>
      match fuel with
      | 0 => Except.error Fault.out_of_fuel
      | fuel + 1 => do
        let n1 ← load st.heap (some a1)
        let n2 ← load st.heap (some a2)
        if st.list.list_comp n1.data n2.data < 0 then do
          let r ← __list_insert_back st.heap st.list a1
          merge_loop fuel (merge_state.mk r.1 r.2 (size_dec st.size1) st.size2 n1.next (some a2))
        else do
          let r ← __list_insert_back st.heap st.list a2
          merge_loop fuel (merge_state.mk r.1 r.2 st.size1 (size_dec st.size2) (some a1) n2.next)
    | _, _ => Except.ok st

/-- Embedding of `list_merge` of `list.c`. The two input handles are freed at the end; the
heap only holds list nodes, so this leaves it unchanged. -/
def list_merge (fuel : Nat) (h : Heap α) (list1 list2 : list_t α) :
    Except Fault (Heap α × list_t α) := do
  let list := list_init list1.list_comp
  let st ← merge_loop fuel (merge_state.mk h list list1.size list2.size list1.front list2.front)
  match st.iter1, st.iter2 with
  | some a1, _ => do
    let h1 ← set_next st.heap st.list.back (some a1)
    Except.ok (h1, list_t.mk ((st.list.size + st.size1) % SIZE_MODULUS) st.list.front list1.back
      st.list.list_comp)
  | none, some a2 => do
    let h1 ← set_next st.heap st.list.back (some a2)
    Except.ok (h1, list_t.mk ((st.list.size + st.size2) % SIZE_MODULUS) st.list.front list2.back
      st.list.list_comp)
  | none, none => Except.ok (st.heap, st.list)

/-- The `while (iter)` loop of `list_reverse` of `list.c`. -/
def reverse_loop : Nat → Heap α → list_t α → Option Nat → Except Fault (Heap α × list_t α)
  | _, h, list, none => Except.ok (h, list)
  | 0, _, _, some _ => Except.error Fault.out_of_fuel
  | fuel + 1, h, list, some a => do
    let nd ← load h (some a)
    let h1 ← set_next h (some a) none
    let h2 ← set_prev h1 (some a) none
    let r ← __list_insert_front h2 list a
    reverse_loop fuel r.1 r.2 nd.next

/-- Embedding of `list_reverse` of `list.c`. -/
def list_reverse (fuel : Nat) (h : Heap α) (list : list_t α) :
    Except Fault (Heap α × list_t α) :=
  reverse_loop fuel h (list_t.mk list.size none none list.list_comp) list.front

/-- The `while (iter && iter->next)` loop of `list_unique` of `list.c`. -/
def unique_loop : Nat → Heap α → list_t α → Option Nat → Except Fault (Heap α × list_t α)
  | _, h, list, none => Except.ok (h, list)
  | fuel, h, list, some a => do
    let nd ← load h (some a)
    match nd.next with
    | none => Except.ok (h, list)
    | some b =>
      match fuel with
      | 0 => Except.error Fault.out_of_fuel
      | fuel + 1 => do
        let nb ← load h (some b)
        if list.list_comp nd.data nb.data = 0 then do
          let r ← __list_erase h list b
          unique_loop fuel r.1 r.2 (some a)
        else unique_loop fuel h list (some b)

/-- Embedding of `list_unique` of `list.c`. -/
def list_unique (fuel : Nat) (h : Heap α) (list : list_t α) :
    Except Fault (Heap α × list_t α) :=
  unique_loop fuel h list list.front

/-- Embedding of `list_clear` of `list.c`: `while (list->front) list_pop_front(list)`. -/
def list_clear : Nat → Heap α → list_t α → Except Fault (Heap α × list_t α)
  | 0, h, list =>
    match list.front with
    | none => Except.ok (h, list)
    | some _ => Except.error Fault.out_of_fuel
  | fuel + 1, h, list =>
    match list.front with
    | none => Except.ok (h, list)
    | some _ => do
      let r ← list_pop_front h list
      list_clear fuel r.1 r.2

/-- The data met by walking `next` links from the node `p` on (the iteration
`list_begin`, `list_get`, `list_next`), at most `fuel` nodes. -/
def walk_next (h : Heap α) : Nat → Option Nat → Except Fault (List α)
  | _, none => Except.ok []
  | 0, some _ => Except.error Fault.out_of_fuel
  | fuel + 1, some a => do
    let nd ← load h (some a)
    let rest ← walk_next h fuel nd.next
    Except.ok (nd.data :: rest)

/-- The data met by walking `prev` links from the node `p` on (the iteration
`list_end`, `list_get`, `list_prev`), at most `fuel` nodes. -/
def walk_prev (h : Heap α) : Nat → Option Nat → Except Fault (List α)
  | _, none => Except.ok []
  | 0, some _ => Except.error Fault.out_of_fuel
  | fuel + 1, some a => do
    let nd ← load h (some a)
    let rest ← walk_prev h fuel nd.prev
    Except.ok (nd.data :: rest)

/-- The address of the first cell of a sequence, `q` when there is none. -/
def headOr (q : Option Nat) : List (Nat × α) → Option Nat
  | [] => q
  | c :: _ => some c.1

/-- The address of the last cell of a sequence, `p` when there is none. -/
def lastOr (p : Option Nat) : List (Nat × α) → Option Nat
  | [] => p
  | c :: rest => lastOr (some c.1) rest

/-- The addresses of a sequence of (address, datum) cells. -/
def addrs (cs : List (Nat × α)) : List Nat :=
  cs.map Prod.fst

/-- The data of a sequence of (address, datum) cells. -/
def datas (cs : List (Nat × α)) : List α :=
  cs.map Prod.snd

/-- The cells `cs` are live nodes chained by their `next` pointers, in this order, the last
one pointing to `q`. -/
def Fwd (h : Heap α) : List (Nat × α) → Option Nat → Prop
  | [], _ => True
  | c :: rest, q =>
    (∃ nd, h.cells c.1 = some nd ∧ nd.data = c.2 ∧ nd.next = headOr q rest) ∧ Fwd h rest q

/-- The cells `cs` are live nodes chained by their `prev` pointers, in this order, the first
one pointing back to `p`. -/
def Bwd (h : Heap α) : Option Nat → List (Nat × α) → Prop
  | _, [] => True
  | p, c :: rest =>
    (∃ nd, h.cells c.1 = some nd ∧ nd.data = c.2 ∧ nd.prev = p) ∧ Bwd h (some c.1) rest

/-- The allocator invariant: no node lives at or above the next address to hand out. -/
def HeapOK (h : Heap α) : Prop :=
  ∀ a, h.brk ≤ a → h.cells a = none

/-- The list `list` is a well-formed doubly linked list over the distinct nodes `cs`: walking
`next` links from `front` visits exactly `cs` and ends at NULL, `back` is the last of them,
`front->prev` is NULL and every node is the `prev` of its `next`. -/
def Repr (h : Heap α) (list : list_t α) (cs : List (Nat × α)) : Prop :=
  (addrs cs).Nodup ∧ Fwd h cs none ∧ Bwd h none cs ∧
    list.front = headOr none cs ∧ list.back = lastOr none cs

/-- The cursor reached from `iter` by `n` calls of `list_next`. -/
def iter_advance (h : Heap α) : Nat → list_iterator → Except Fault list_iterator
  | 0, iter => Except.ok iter
  | n + 1, iter => do
    let r ← list_next h iter
    iter_advance h n r.1

/-- The states (heap and handle) reachable from `list_init lcomp` by the public mutators
`list_push_front`, `list_push_back`, `list_pop_front`, `list_pop_back`, `list_insert_before`,
`list_insert`, `list_erase`, `list_reverse`, `list_unique` and `list_clear`, each run with
some step bound under which it returns. The cursor given to `list_insert_before` is NULL or
comes from `list_begin` by `list_next` calls. -/
inductive Reach (lcomp : α → α → Int) : Heap α → list_t α → Prop where
  | init (h : Heap α) : HeapOK h → Reach lcomp h (list_init lcomp)
  | push_front (h h2 : Heap α) (l l2 : list_t α) (d : α) : Reach lcomp h l →
      list_push_front h l d = Except.ok (h2, l2) → Reach lcomp h2 l2
  | push_back (h h2 : Heap α) (l l2 : list_t α) (d : α) : Reach lcomp h l →
      list_push_back h l d = Except.ok (h2, l2) → Reach lcomp h2 l2
  | pop_front (h h2 : Heap α) (l l2 : list_t α) : Reach lcomp h l →
      list_pop_front h l = Except.ok (h2, l2) → Reach lcomp h2 l2
  | pop_back (h h2 : Heap α) (l l2 : list_t α) : Reach lcomp h l →
      list_pop_back h l = Except.ok (h2, l2) → Reach lcomp h2 l2
  | insert_before_null (h h2 : Heap α) (l l2 : list_t α) (d : α) : Reach lcomp h l →
      list_insert_before h l none d = Except.ok (h2, l2) → Reach lcomp h2 l2
  | insert_before (h h2 : Heap α) (l l2 : list_t α) (n : Nat) (pos : list_iterator) (d : α) :
      Reach lcomp h l → iter_advance h n (list_begin l) = Except.ok pos →
      list_insert_before h l (some pos) d = Except.ok (h2, l2) → Reach lcomp h2 l2
  | insert (fuel : Nat) (h h2 : Heap α) (l l2 : list_t α) (d : α) : Reach lcomp h l →
      list_insert fuel h l d = Except.ok (h2, l2) → Reach lcomp h2 l2
  | erase (fuel : Nat) (h h2 : Heap α) (l l2 : list_t α) (d : α) : Reach lcomp h l →
      list_erase fuel h l d = Except.ok (h2, l2) → Reach lcomp h2 l2
  | reverse (fuel : Nat) (h h2 : Heap α) (l l2 : list_t α) : Reach lcomp h l →
      list_reverse fuel h l = Except.ok (h2, l2) → Reach lcomp h2 l2
  | unique (fuel : Nat) (h h2 : Heap α) (l l2 : list_t α) : Reach lcomp h l →
      list_unique fuel h l = Except.ok (h2, l2) → Reach lcomp h2 l2
  | clear (fuel : Nat) (h h2 : Heap α) (l l2 : list_t α) : Reach lcomp h l →
      list_clear fuel h l = Except.ok (h2, l2) → Reach lcomp h2 l2

/-- Merging one element `x` (followed by whatever `rest` produces) into `ys`: the heads of
`ys` that `x` is not strictly before go first. -/
def merge_insert {β : Type} (lt : β → β → Bool) (x : β) (rest : List β → List β) :
    List β → List β
  | [] => x :: rest []
  | y :: ys => if lt x y then x :: rest (y :: ys) else y :: merge_insert lt x rest ys

/-- The interleaving of two sequences that keeps the order within each: the head of the
first sequence is taken when it is strictly before (`lt`) the head of the second, otherwise
the head of the second is taken, so on ties the element of the second sequence comes
first. -/
def merge_by {β : Type} (lt : β → β → Bool) : List β → List β → List β
  | [], ys => ys
  | x :: xs, ys => merge_insert lt x (merge_by lt xs) ys

/-- The comparison handler is consistent: the sign of `comp a b` is opposite to the sign of
`comp b a`, and "compares less or equal" is transitive. -/
structure TotalComp (comp : α → α → Int) : Prop where
  antisymm : ∀ a b, comp a b < 0 ↔ 0 < comp b a
  le_trans : ∀ a b c, comp a b ≤ 0 → comp b c ≤ 0 → comp a c ≤ 0

/-- A sequence of data is sorted ascending under `comp`. -/
def SortedBy (comp : α → α → Int) (xs : List α) : Prop :=
  xs.Pairwise fun a b => comp a b ≤ 0

/-- A comparison handler on integers, used for the concrete examples. -/
def int_comp (a b : Int) : Int :=
  a - b

/-- What every mutator guarantees about the parts it does not own: the comparison handler
and the allocation mark stay, and the nodes at addresses outside `S` are untouched. -/
def Untouched (h : Heap α) (l : list_t α) (S : List Nat) (h2 : Heap α) (l2 : list_t α) : Prop :=
  l2.list_comp = l.list_comp ∧ h2.brk = h.brk ∧ ∀ a, a ∉ S → h2.cells a = h.cells a

/-- Dropping, from the element `x` on, every following element equal (`eq`) to the last
element kept. -/
def unique_from {β : Type} (eq : β → β → Bool) : β → List β → List β
  | _, [] => []
  | x, y :: ys => if eq x y then unique_from eq x ys else y :: unique_from eq y ys

/-- The subsequence that keeps the first element of every run of neighbours equal (`eq`) to
it. -/
def unique_by {β : Type} (eq : β → β → Bool) : List β → List β
  | [] => []
  | x :: xs => x :: unique_from eq x xs

/-- The list obtained from the handle `l` in heap `h` by one `list_push_back` call for each
datum. -/
def build_list : List α → Heap α → list_t α → Except Fault (Heap α × list_t α)
  | [], h, l => Except.ok (h, l)
  | d :: ds, h, l => do
    let r ← list_push_back h l d
    build_list ds r.1 r.2

/-- The run used as failing input for `list_merge` on non-empty lists: the lists `[1]` and
`[2]` are built by `list_push_back` and merged. -/
def merge_one_two : Except Fault (Heap Int × list_t Int) := do
  let r1 ← build_list [1] Heap.empty (list_init int_comp)
  let r2 ← build_list [2] r1.1 (list_init int_comp)
  list_merge 2 r2.1 r1.2 r2.2

/-- The run used as failing input for `list_merge` with one empty list: an empty list is
merged with the list `[1]` built by `list_push_back`. -/
def merge_empty_one : Except Fault (Heap Int × list_t Int) := do
  let r2 ← build_list [1] Heap.empty (list_init int_comp)
  list_merge 2 r2.1 (list_init int_comp) r2.2

/-- The run used as failing input for `list_size`: the list `[1, 2, 3]` is built by
`list_push_back` and reversed. -/
def reverse_one_two_three : Except Fault (Heap Int × list_t Int) := do
  let r ← build_list [1, 2, 3] Heap.empty (list_init int_comp)
  list_reverse 3 r.1 r.2

/-- The run used as failing input for `list_empty`: the list `[1]` is built by
`list_push_back`, reversed, and its only node popped. -/
def reverse_then_pop : Except Fault (Heap Int × list_t Int) := do
  let r ← build_list [1] Heap.empty (list_init int_comp)
  let r2 ← list_reverse 1 r.1 r.2
  list_pop_front r2.1 r2.2

/-- A heap holding the nodes of the two lists `[1, 5]` (addresses 0 and 1) and `[2, 3]`
(addresses 2 and 3). -/
def sample_heap : Heap Int :=
  Heap.mk (fun a =>
    match a with
    | 0 => some (list_node.mk 1 none (some 1))
    | 1 => some (list_node.mk 5 (some 0) none)
    | 2 => some (list_node.mk 2 none (some 3))
    | 3 => some (list_node.mk 3 (some 2) none)
    | _ => none) 4

/-- The handle of the list `[1, 5]` in `sample_heap`. -/
def sample_list1 : list_t Int :=
  list_t.mk 2 (some 0) (some 1) int_comp

/-- The handle of the list `[2, 3]` in `sample_heap`. -/
def sample_list2 : list_t Int :=
  list_t.mk 2 (some 2) (some 3) int_comp

/-- The heap after `list_push_back` of the datum 7 on an empty list in an empty heap. -/
def one_node_heap : Heap Int :=
  Heap.mk (fun a => if a = 0 then some (list_node.mk 7 none none) else none) 1

/-- The handle after `list_push_back` of the datum 7 on an empty list in an empty heap. -/
def one_node_list : list_t Int :=
  list_t.mk 1 (some 0) (some 0) int_comp

/-- The inputs on which the size of the result of `list_merge` is not the sum of the input
sizes: the list `[1]`, built by `list_push_back` and then reversed by `list_reverse`, and the
list `[2]`, built by `list_push_back`, with the heap that holds both. -/
def reversed_one_and_two : Except Fault (Heap Int × list_t Int × list_t Int) := do
  let r1 ← build_list [1] Heap.empty (list_init int_comp)
  let r1r ← list_reverse 1 r1.1 r1.2
  let r2 ← build_list [2] r1r.1 (list_init int_comp)
  Except.ok (r2.1, r1r.2, r2.2)

/-- A run through most of the mutators, from the empty list: `list_push_back` 7,
`list_push_front` 3, `list_reverse`, `list_insert_before` the second node of 5, `list_insert`
of 6, `list_push_back` 3, `list_erase` of 7, `list_pop_front`, `list_pop_back`,
`list_push_back` 9 and `list_push_front` 2. It ends with the four nodes 2, 5, 3, 9. -/
def mutator_run : Except Fault (Heap Int × list_t Int) := do
  let r1 ← list_push_back Heap.empty (list_init int_comp) 7
  let r2 ← list_push_front r1.1 r1.2 3
  let r3 ← list_reverse 2 r2.1 r2.2
  let pos ← iter_advance r3.1 1 (list_begin r3.2)
  let r4 ← list_insert_before r3.1 r3.2 (some pos) 5
  let r5 ← list_insert 3 r4.1 r4.2 6
  let r6 ← list_push_back r5.1 r5.2 3
  let r7 ← list_erase 5 r6.1 r6.2 7
  let r8 ← list_pop_front r7.1 r7.2
  let r9 ← list_pop_back r8.1 r8.2
  let r10 ← list_push_back r9.1 r9.2 9
  list_push_front r10.1 r10.2 2

/-- A heap holding the nodes of the list `[1, 1, 2]` at the addresses 0, 1 and 2. -/
def dup_heap : Heap Int :=
  Heap.mk (fun a =>
    match a with
    | 0 => some (list_node.mk 1 none (some 1))
    | 1 => some (list_node.mk 1 (some 0) (some 2))
    | 2 => some (list_node.mk 2 (some 1) none)
    | _ => none) 3

/-- The handle of the list `[1, 1, 2]` of `dup_heap`. -/
def dup_list : list_t Int :=
  list_t.mk 3 (some 0) (some 2) int_comp

end DList

namespace RBTree

open Color Dir rbtree_node

variable {K V : Type}

/-! ## In-order sequence and size bookkeeping of the structural primitives -/

@[simp] theorem node_size_nil : node_size (nil : rbtree_node K V) = 0 := rfl

@[simp] theorem node_size_node (c : Color) (l : rbtree_node K V) (k : K) (v : V) (s : Nat)
    (r : rbtree_node K V) : node_size (node c l k v s r) = s := rfl

@[simp] theorem inorder_set_color (c : Color) (t : rbtree_node K V) :
    inorder (set_color c t) = inorder t := by
  cases t <;> rfl

@[simp] theorem node_size_set_color (c : Color) (t : rbtree_node K V) :
    node_size (set_color c t) = node_size t := by
  cases t <;> rfl

@[simp] theorem sizeOK_set_color (c : Color) (t : rbtree_node K V) :
    SizeOK (set_color c t) ↔ SizeOK t := by
  cases t <;> simp [set_color, SizeOK]

@[simp] theorem inorder_rotate_left (t : rbtree_node K V) :
    inorder (rotate_left t) = inorder t := by
  unfold rotate_left
  split <;> simp [inorder]

@[simp] theorem inorder_rotate_right (t : rbtree_node K V) :
    inorder (rotate_right t) = inorder t := by
  unfold rotate_right
  split <;> simp [inorder]

theorem sizeOK_rotate_left (t : rbtree_node K V) (h : SizeOK t) :
    SizeOK (rotate_left t) ∧ node_size (rotate_left t) = node_size t := by
  unfold rotate_left
  split
  · simp only [SizeOK, node_size_node] at h ⊢
    obtain ⟨h1, ha, h2, hb, hd⟩ := h
    subst h1 h2
    exact ⟨⟨trivial, ⟨trivial, ha, hb⟩, hd⟩, by omega⟩
  · exact ⟨h, rfl⟩

theorem sizeOK_rotate_right (t : rbtree_node K V) (h : SizeOK t) :
    SizeOK (rotate_right t) ∧ node_size (rotate_right t) = node_size t := by
  unfold rotate_right
  split
  · simp only [SizeOK, node_size_node] at h ⊢
    obtain ⟨h1, ⟨h2, ha, hb⟩, hd⟩ := h
    subst h1 h2
    exact ⟨⟨trivial, ha, trivial, hb, hd⟩, by omega⟩
  · exact ⟨h, rfl⟩

theorem size_eq_length (t : rbtree_node K V) (h : SizeOK t) :
    node_size t = (inorder t).length := by
  induction t with
  | nil => rfl
  | node c l k v s r ihl ihr =>
    simp only [SizeOK] at h
    simp only [node_size_node, inorder, List.length_append, List.length_cons]
    have := ihl h.2.1
    have := ihr h.2.2
    omega

theorem inorder_plug (path : List (Frame K V)) (t : rbtree_node K V) :
    inorder (plug path t) = before path ++ inorder t ++ after path := by
  induction path generalizing t with
  | nil => simp [plug, before, after]
  | cons f rest ih =>
    obtain ⟨d, c, k, v, s, sib⟩ := f
    cases d <;> simp [plug, before, after, Frame.fill, ih, inorder]

theorem sizeOK_plug (path : List (Frame K V)) (t : rbtree_node K V)
    (ht : SizeOK t) (hp : PathOK path (node_size t)) : SizeOK (plug path t) := by
  induction path generalizing t with
  | nil => simpa [plug] using ht
  | cons f rest ih =>
    obtain ⟨d, c, k, v, s, sib⟩ := f
    simp only [PathOK] at hp
    cases d
    · refine ih _ ?_ ?_
      · simp only [Frame.fill, SizeOK]; exact ⟨hp.2.1, ht, hp.1⟩
      · simpa [Frame.fill, node_size] using hp.2.2
    · refine ih _ ?_ ?_
      · simp only [Frame.fill, SizeOK]; exact ⟨by omega, hp.1, ht⟩
      · simpa [Frame.fill, node_size] using hp.2.2

@[simp] theorem before_inc_sizes (path : List (Frame K V)) :
    before (inc_sizes path) = before path := by
  induction path with
  | nil => rfl
  | cons f rest ih =>
    obtain ⟨d, c, k, v, s, sib⟩ := f
    cases d <;> simp_all [inc_sizes, before]

@[simp] theorem after_inc_sizes (path : List (Frame K V)) :
    after (inc_sizes path) = after path := by
  induction path with
  | nil => rfl
  | cons f rest ih =>
    obtain ⟨d, c, k, v, s, sib⟩ := f
    cases d <;> simp_all [inc_sizes, after]

@[simp] theorem before_dec_sizes (path : List (Frame K V)) :
    before (dec_sizes path) = before path := by
  induction path with
  | nil => rfl
  | cons f rest ih =>
    obtain ⟨d, c, k, v, s, sib⟩ := f
    cases d <;> simp_all [dec_sizes, before]

@[simp] theorem after_dec_sizes (path : List (Frame K V)) :
    after (dec_sizes path) = after path := by
  induction path with
  | nil => rfl
  | cons f rest ih =>
    obtain ⟨d, c, k, v, s, sib⟩ := f
    cases d <;> simp_all [dec_sizes, after]

theorem pathOK_inc_sizes (path : List (Frame K V)) (n : Nat) (h : PathOK path n) :
    PathOK (inc_sizes path) (n + 1) := by
  induction path generalizing n with
  | nil => trivial
  | cons f rest ih =>
    obtain ⟨d, c, k, v, s, sib⟩ := f
    simp only [PathOK] at h
    simp only [inc_sizes, List.map_cons, PathOK]
    exact ⟨h.1, by omega, ih _ h.2.2⟩

theorem pathOK_dec_sizes (path : List (Frame K V)) (n : Nat) (h : PathOK path (n + 1)) :
    PathOK (dec_sizes path) n := by
  induction path generalizing n with
  | nil => trivial
  | cons f rest ih =>
    obtain ⟨d, c, k, v, s, sib⟩ := f
    simp only [PathOK] at h
    simp only [dec_sizes, List.map_cons, PathOK]
    refine ⟨h.1, by omega, ?_⟩
    have hs : s - 1 + 1 = s := by omega
    exact ih _ (by rw [hs]; exact h.2.2)

end RBTree

namespace RBTree
open Color Dir rbtree_node
variable {K V : Type}

/-! ## Insert-fixup keeps the in-order sequence and the size fields -/

theorem inorder_insert_fixup (z : rbtree_node K V) (path : List (Frame K V)) :
    inorder (insert_fixup z path) = inorder (plug path z) := by
  induction z, path using insert_fixup.induct with
  | case1 z p g rest hp => simp [insert_fixup, hp]
  | case2 z p g rest hp hu parent grand ih =>
    rw [insert_fixup]
    simp only [hp, hu]
    rw [ih]
    obtain ⟨pd, pc, pk, pv, ps, psib⟩ := p
    obtain ⟨gd, gc, gk, gv, gs, gsib⟩ := g
    cases pd <;> cases gd <;>
      simp [parent, grand, plug, Frame.fill, inorder_plug, inorder]
  | case3 z p g rest hp hu hpd hgd =>
    obtain ⟨pd, pc, pk, pv, ps, psib⟩ := p
    obtain ⟨gd, gc, gk, gv, gs, gsib⟩ := g
    simp only at hp hu hpd hgd
    subst hp hpd hgd
    simp [insert_fixup, hu, plug, Frame.fill, inorder_plug, inorder]
  | case4 z p g rest hp hu hpd hgd =>
    obtain ⟨pd, pc, pk, pv, ps, psib⟩ := p
    obtain ⟨gd, gc, gk, gv, gs, gsib⟩ := g
    simp only at hp hu hpd hgd
    subst hp hpd hgd
    simp [insert_fixup, hu, plug, Frame.fill, inorder_plug, inorder]
  | case5 z p g rest hp hu hpd hgd =>
    obtain ⟨pd, pc, pk, pv, ps, psib⟩ := p
    obtain ⟨gd, gc, gk, gv, gs, gsib⟩ := g
    simp only at hp hu hpd hgd
    subst hp hpd hgd
    simp [insert_fixup, hu, plug, Frame.fill, inorder_plug, inorder]
  | case6 z p g rest hp hu hpd hgd =>
    obtain ⟨pd, pc, pk, pv, ps, psib⟩ := p
    obtain ⟨gd, gc, gk, gv, gs, gsib⟩ := g
    simp only at hp hu hpd hgd
    subst hp hpd hgd
    simp [insert_fixup, hu, plug, Frame.fill, inorder_plug, inorder]
  | case7 z path hne =>
    rw [insert_fixup]
    intro p g rest h
    exact hne p g rest h

theorem sizeOK_insert_fixup (z : rbtree_node K V) (path : List (Frame K V))
    (hz : SizeOK z) (hp : PathOK path (node_size z)) : SizeOK (insert_fixup z path) := by
  induction z, path using insert_fixup.induct with
  | case1 z p g rest hc =>
    simp only [insert_fixup, hc]
    exact sizeOK_plug _ _ hz hp
  | case2 z p g rest hc hu parent grand ih =>
    rw [insert_fixup]
    simp only [hc, hu]
    obtain ⟨pd, pc, pk, pv, ps, psib⟩ := p
    obtain ⟨gd, gc, gk, gv, gs, gsib⟩ := g
    simp only [PathOK] at hp
    obtain ⟨h1, h2, h3, h4, h5⟩ := hp
    apply ih
    · cases pd <;> cases gd <;>
        simp only [grand, parent, Frame.fill, SizeOK, node_size_node, sizeOK_set_color,
          node_size_set_color] <;>
        refine ⟨by omega, ?_, ?_⟩ <;> first | assumption | exact ⟨by omega, by assumption, by assumption⟩
    · cases pd <;> cases gd <;> simpa [grand, parent, Frame.fill] using h5
  | case3 z p g rest hc hu hpd hgd =>
    obtain ⟨pd, pc, pk, pv, ps, psib⟩ := p
    obtain ⟨gd, gc, gk, gv, gs, gsib⟩ := g
    simp only at hc hu hpd hgd
    subst hc hpd hgd
    simp only [PathOK] at hp
    obtain ⟨h1, h2, h3, h4, h5⟩ := hp
    simp only [insert_fixup, hu]
    have hG : SizeOK (node RED (node BLACK z pk pv ps psib) gk gv gs gsib) :=
      ⟨h4, ⟨h2, hz, h1⟩, h3⟩
    obtain ⟨r1, r2⟩ := sizeOK_rotate_right _ hG
    exact sizeOK_plug _ _ r1 (by rw [r2]; exact h5)
  | case4 z p g rest hc hu hpd hgd =>
    obtain ⟨pd, pc, pk, pv, ps, psib⟩ := p
    obtain ⟨gd, gc, gk, gv, gs, gsib⟩ := g
    simp only at hc hu hpd hgd
    subst hc hpd hgd
    simp only [PathOK] at hp
    obtain ⟨h1, h2, h3, h4, h5⟩ := hp
    simp only [insert_fixup, hu]
    have hP : SizeOK (node RED psib pk pv ps z) := ⟨by omega, h1, hz⟩
    obtain ⟨q1, q2⟩ := sizeOK_rotate_left _ hP
    have hG : SizeOK (node RED (set_color BLACK (rotate_left (node RED psib pk pv ps z)))
        gk gv gs gsib) := by
      refine ⟨?_, (sizeOK_set_color _ _).2 q1, h3⟩
      rw [node_size_set_color, q2]
      exact h4
    obtain ⟨r1, r2⟩ := sizeOK_rotate_right _ hG
    exact sizeOK_plug _ _ r1 (by rw [r2]; exact h5)
  | case5 z p g rest hc hu hpd hgd =>
    obtain ⟨pd, pc, pk, pv, ps, psib⟩ := p
    obtain ⟨gd, gc, gk, gv, gs, gsib⟩ := g
    simp only at hc hu hpd hgd
    subst hc hpd hgd
    simp only [PathOK] at hp
    obtain ⟨h1, h2, h3, h4, h5⟩ := hp
    simp only [insert_fixup, hu]
    have hG : SizeOK (node RED gsib gk gv gs (node BLACK psib pk pv ps z)) :=
      ⟨by simp only [node_size_node]; omega, h3, ⟨by omega, h1, hz⟩⟩
    obtain ⟨r1, r2⟩ := sizeOK_rotate_left _ hG
    exact sizeOK_plug _ _ r1 (by rw [r2]; exact h5)
  | case6 z p g rest hc hu hpd hgd =>
    obtain ⟨pd, pc, pk, pv, ps, psib⟩ := p
    obtain ⟨gd, gc, gk, gv, gs, gsib⟩ := g
    simp only at hc hu hpd hgd
    subst hc hpd hgd
    simp only [PathOK] at hp
    obtain ⟨h1, h2, h3, h4, h5⟩ := hp
    simp only [insert_fixup, hu]
    have hP : SizeOK (node RED z pk pv ps psib) := ⟨h2, hz, h1⟩
    obtain ⟨q1, q2⟩ := sizeOK_rotate_right _ hP
    have hG : SizeOK (node RED gsib gk gv gs
        (set_color BLACK (rotate_right (node RED z pk pv ps psib)))) := by
      refine ⟨?_, h3, (sizeOK_set_color _ _).2 q1⟩
      rw [node_size_set_color, q2]
      simp only [node_size_node]
      omega
    obtain ⟨r1, r2⟩ := sizeOK_rotate_left _ hG
    exact sizeOK_plug _ _ r1 (by rw [r2]; exact h5)
  | case7 z path hne =>
    rw [insert_fixup]
    · exact sizeOK_plug _ _ hz hp
    · intro p g rest h
      exact hne p g rest h

end RBTree

namespace RBTree
open Color Dir rbtree_node
variable {K V : Type}

/-! ## Delete-fixup keeps the in-order sequence and the size fields -/

theorem inorder_fix_left (pc : Color) (pk : K) (pv : V) (ps : Nat) (x w : rbtree_node K V) :
    inorder (fix_left pc pk pv ps x w).1 = inorder x ++ (pk, pv) :: inorder w := by
  induction pc, pk, pv, ps, x, w using fix_left.induct with
  | case1 pc pk pv ps x => simp [fix_left, inorder]
  | case2 pc pk pv ps x wl wk wv ws wr ps1 sub hsub ih =>
    rw [hsub] at ih
    simp only at ih
    rw [fix_left]
    simp only [ps1] at hsub
    simp [hsub, inorder, ih]
  | case3 pc pk pv ps x wl wk wv ws wr ps1 sub hsub hc ih =>
    rw [hsub] at ih
    simp only at ih
    rw [fix_left]
    simp only [ps1] at hsub
    simp [hsub, hc, inorder, ih]
  | case4 pc pk pv ps x wl wk wv ws wr ps1 ws1 sub hsub hc ih1 ih2 =>
    rw [hsub] at ih1
    simp only at ih1
    rw [fix_left]
    simp only [ps1] at hsub
    simp only [hsub, hc]
    simp only [ws1, ps1] at ih2
    rw [ih2, ih1]
    simp [inorder]
  | case5 pc pk pv ps x wl wk wv ws wr hr hl => simp [fix_left, hr, hl, inorder]
  | case6 pc pk pv ps x wl wk wv ws wr hr hl w2 c2 w2l w2k w2v w2s w2r hw2 =>
    cases wl with
    | nil => simp [color_of] at hl
    | node c a k v s b =>
      simp only [w2, set_color, rotate_right] at hw2
      simp [fix_left, hr, hl, inorder, set_color, rotate_right, rotate_left]
  | case7 pc pk pv ps x wl wk wv ws wr hr hl w2 hw2 =>
    cases wl with
    | nil => simp [color_of] at hl
    | node c a k v s b => simp [w2, set_color, rotate_right] at hw2
  | case8 pc pk pv ps x wl wk wv ws wr hr =>
    cases wr with
    | nil => simp [color_of] at hr
    | node c a k v s b =>
      cases hl : color_of wl <;>
        simp [fix_left, hr, hl, inorder, set_color, rotate_left]

theorem sizeOK_fix_left (pc : Color) (pk : K) (pv : V) (ps : Nat) (x w : rbtree_node K V)
    (hx : SizeOK x) (hw : SizeOK w) (hs : ps = 1 + node_size x + node_size w) :
    SizeOK (fix_left pc pk pv ps x w).1 ∧ node_size (fix_left pc pk pv ps x w).1 = ps := by
  induction pc, pk, pv, ps, x, w using fix_left.induct with
  | case1 pc pk pv ps x => simp [fix_left, SizeOK, hx, hs]
  | case2 pc pk pv ps x wl wk wv ws wr ps1 sub hsub ih =>
    simp only [SizeOK, node_size_node] at hw hs
    obtain ⟨i1, i2⟩ := ih hx hw.2.1 rfl
    rw [hsub] at i1 i2
    simp only at i1 i2
    rw [fix_left]
    simp only [ps1] at hsub i2
    simp only [hsub, SizeOK, node_size_node]
    exact ⟨⟨by omega, i1, hw.2.2⟩, by omega⟩
  | case3 pc pk pv ps x wl wk wv ws wr ps1 sub hsub hc ih =>
    simp only [SizeOK, node_size_node] at hw hs
    obtain ⟨i1, i2⟩ := ih hx hw.2.1 rfl
    rw [hsub] at i1 i2
    simp only at i1 i2
    rw [fix_left]
    simp only [ps1] at hsub i2
    simp only [hsub, hc, SizeOK, node_size_node, node_size_set_color, sizeOK_set_color]
    exact ⟨⟨by omega, i1, hw.2.2⟩, by omega⟩
  | case4 pc pk pv ps x wl wk wv ws wr ps1 ws1 sub hsub hc ih1 ih2 =>
    simp only [SizeOK, node_size_node] at hw hs
    obtain ⟨i1, i2⟩ := ih1 hx hw.2.1 rfl
    rw [hsub] at i1 i2
    simp only at i1 i2
    obtain ⟨j1, j2⟩ := ih2 i1 hw.2.2 (by simp only [ws1]; omega)
    rw [fix_left]
    simp only [ps1] at hsub
    simp only [hsub, hc]
    simp only [ws1, ps1] at j1 j2
    exact ⟨j1, by omega⟩
  | case5 pc pk pv ps x wl wk wv ws wr hr hl =>
    simp only [SizeOK, node_size_node] at hw hs
    simp only [fix_left, hr, hl, SizeOK, node_size_node]
    exact ⟨⟨hs, hx, hw⟩, trivial⟩
  | case6 pc pk pv ps x wl wk wv ws wr hr hl w2 c2 w2l w2k w2v w2s w2r hw2 =>
    cases wl with
    | nil => simp [color_of] at hl
    | node c a k v s b =>
      simp only [SizeOK, node_size_node] at hw hs
      simp only [fix_left, hr, hl, set_color, rotate_right, rotate_left, SizeOK, node_size_node,
        node_size_set_color, sizeOK_set_color]
      obtain ⟨h1, ⟨h2, h3, h4⟩, h5⟩ := hw
      split_ands <;> first | assumption | trivial | omega
  | case7 pc pk pv ps x wl wk wv ws wr hr hl w2 hw2 =>
    cases wl with
    | nil => simp [color_of] at hl
    | node c a k v s b => simp [w2, set_color, rotate_right] at hw2
  | case8 pc pk pv ps x wl wk wv ws wr hr =>
    cases wr with
    | nil => simp [color_of] at hr
    | node c a k v s b =>
      simp only [SizeOK, node_size_node] at hw hs
      obtain ⟨h1, h2, h3, h4, h5⟩ := hw
      cases hl : color_of wl <;>
        simp only [fix_left, hr, hl, set_color, rotate_left, SizeOK, node_size_node] <;>
        split_ands <;> first | assumption | trivial | omega

theorem inorder_fix_right (pc : Color) (pk : K) (pv : V) (ps : Nat) (x w : rbtree_node K V) :
    inorder (fix_right pc pk pv ps x w).1 = inorder w ++ (pk, pv) :: inorder x := by
  induction pc, pk, pv, ps, x, w using fix_right.induct with
  | case1 pc pk pv ps x => simp [fix_right, inorder]
  | case2 pc pk pv ps x wl wk wv ws wr ps1 sub hsub ih =>
    rw [hsub] at ih
    simp only at ih
    rw [fix_right]
    simp only [ps1] at hsub
    simp [hsub, inorder, ih]
  | case3 pc pk pv ps x wl wk wv ws wr ps1 sub hsub hc ih =>
    rw [hsub] at ih
    simp only at ih
    rw [fix_right]
    simp only [ps1] at hsub
    simp [hsub, hc, inorder, ih]
  | case4 pc pk pv ps x wl wk wv ws wr ps1 ws1 sub hsub hc ih1 ih2 =>
    rw [hsub] at ih1
    simp only at ih1
    rw [fix_right]
    simp only [ps1] at hsub
    simp only [hsub, hc]
    simp only [ws1, ps1] at ih2
    rw [ih2, ih1]
    simp [inorder]
  | case5 pc pk pv ps x wl wk wv ws wr hl hr => simp [fix_right, hr, hl, inorder]
  | case6 pc pk pv ps x wl wk wv ws wr hl hr w2 c2 w2l w2k w2v w2s w2r hw2 =>
    cases wr with
    | nil => simp [color_of] at hr
    | node c a k v s b =>
      simp [fix_right, hr, hl, inorder, set_color, rotate_right, rotate_left]
  | case7 pc pk pv ps x wl wk wv ws wr hl hr w2 hw2 =>
    cases wr with
    | nil => simp [color_of] at hr
    | node c a k v s b => simp [w2, set_color, rotate_left] at hw2
  | case8 pc pk pv ps x wl wk wv ws wr hl =>
    cases wl with
    | nil => simp [color_of] at hl
    | node c a k v s b =>
      cases hr : color_of wr <;>
        simp [fix_right, hr, hl, inorder, set_color, rotate_right]

theorem sizeOK_fix_right (pc : Color) (pk : K) (pv : V) (ps : Nat) (x w : rbtree_node K V)
    (hx : SizeOK x) (hw : SizeOK w) (hs : ps = 1 + node_size w + node_size x) :
    SizeOK (fix_right pc pk pv ps x w).1 ∧ node_size (fix_right pc pk pv ps x w).1 = ps := by
  induction pc, pk, pv, ps, x, w using fix_right.induct with
  | case1 pc pk pv ps x => simp [fix_right, SizeOK, hx, hs]
  | case2 pc pk pv ps x wl wk wv ws wr ps1 sub hsub ih =>
    simp only [SizeOK, node_size_node] at hw hs
    obtain ⟨i1, i2⟩ := ih hx hw.2.2 rfl
    rw [hsub] at i1 i2
    simp only at i1 i2
    rw [fix_right]
    simp only [ps1] at hsub i2
    simp only [hsub, SizeOK, node_size_node]
    exact ⟨⟨by omega, hw.2.1, i1⟩, by omega⟩
  | case3 pc pk pv ps x wl wk wv ws wr ps1 sub hsub hc ih =>
    simp only [SizeOK, node_size_node] at hw hs
    obtain ⟨i1, i2⟩ := ih hx hw.2.2 rfl
    rw [hsub] at i1 i2
    simp only at i1 i2
    rw [fix_right]
    simp only [ps1] at hsub i2
    simp only [hsub, hc, SizeOK, node_size_node, node_size_set_color, sizeOK_set_color]
    exact ⟨⟨by omega, hw.2.1, i1⟩, by omega⟩
  | case4 pc pk pv ps x wl wk wv ws wr ps1 ws1 sub hsub hc ih1 ih2 =>
    simp only [SizeOK, node_size_node] at hw hs
    obtain ⟨i1, i2⟩ := ih1 hx hw.2.2 rfl
    rw [hsub] at i1 i2
    simp only at i1 i2
    obtain ⟨j1, j2⟩ := ih2 i1 hw.2.1 (by simp only [ws1]; omega)
    rw [fix_right]
    simp only [ps1] at hsub
    simp only [hsub, hc]
    simp only [ws1, ps1] at j1 j2
    exact ⟨j1, by omega⟩
  | case5 pc pk pv ps x wl wk wv ws wr hl hr =>
    simp only [SizeOK, node_size_node] at hw hs
    simp only [fix_right, hr, hl, SizeOK, node_size_node]
    exact ⟨⟨hs, hw, hx⟩, trivial⟩
  | case6 pc pk pv ps x wl wk wv ws wr hl hr w2 c2 w2l w2k w2v w2s w2r hw2 =>
    cases wr with
    | nil => simp [color_of] at hr
    | node c a k v s b =>
      simp only [SizeOK, node_size_node] at hw hs
      simp only [fix_right, hr, hl, set_color, rotate_right, rotate_left, SizeOK,
        node_size_node, node_size_set_color, sizeOK_set_color]
      obtain ⟨h1, h2, h3, h4, h5⟩ := hw
      split_ands <;> first | assumption | trivial | omega
  | case7 pc pk pv ps x wl wk wv ws wr hl hr w2 hw2 =>
    cases wr with
    | nil => simp [color_of] at hr
    | node c a k v s b => simp [w2, set_color, rotate_left] at hw2
  | case8 pc pk pv ps x wl wk wv ws wr hl =>
    cases wl with
    | nil => simp [color_of] at hl
    | node c a k v s b =>
      simp only [SizeOK, node_size_node] at hw hs
      obtain ⟨h1, ⟨h2, h3, h4⟩, h5⟩ := hw
      cases hr : color_of wr <;>
        simp only [fix_right, hr, hl, set_color, rotate_right, SizeOK, node_size_node] <;>
        split_ands <;> first | assumption | trivial | omega

theorem inorder_delete_fixup (x : rbtree_node K V) (path : List (Frame K V)) :
    inorder (delete_fixup x path) = inorder (plug path x) := by
  induction x, path using delete_fixup.induct with
  | case1 x => simp [delete_fixup, plug]
  | case2 x p rest hc => simp [delete_fixup, hc, inorder_plug]
  | case3 x p rest hc sub hsub ih =>
    rw [delete_fixup]
    simp only [hc, hsub]
    rw [ih]
    obtain ⟨d, c, k, v, s, sib⟩ := p
    cases d
    · have := inorder_fix_left c k v s x sib
      simp only at hsub
      rw [hsub] at this
      simp [inorder_plug, plug, Frame.fill, inorder, this]
    · have := inorder_fix_right c k v s x sib
      simp only at hsub
      rw [hsub] at this
      simp [inorder_plug, plug, Frame.fill, inorder, this]
  | case4 x p rest hc sub hsub =>
    rw [delete_fixup]
    simp only [hc, hsub]
    obtain ⟨d, c, k, v, s, sib⟩ := p
    cases d
    · have := inorder_fix_left c k v s x sib
      simp only at hsub
      rw [hsub] at this
      simp [inorder_plug, plug, Frame.fill, inorder, this]
    · have := inorder_fix_right c k v s x sib
      simp only at hsub
      rw [hsub] at this
      simp [inorder_plug, plug, Frame.fill, inorder, this]

theorem sizeOK_delete_fixup (x : rbtree_node K V) (path : List (Frame K V))
    (hx : SizeOK x) (hp : PathOK path (node_size x)) : SizeOK (delete_fixup x path) := by
  induction x, path using delete_fixup.induct with
  | case1 x => simpa [delete_fixup] using hx
  | case2 x p rest hc =>
    simp only [delete_fixup, hc]
    exact sizeOK_plug _ _ ((sizeOK_set_color _ _).2 hx) (by simpa using hp)
  | case3 x p rest hc sub hsub ih =>
    rw [delete_fixup]
    simp only [hc, hsub]
    obtain ⟨d, c, k, v, s, sib⟩ := p
    simp only [PathOK] at hp
    cases d
    · have := sizeOK_fix_left c k v s x sib hx hp.1 hp.2.1
      simp only at hsub
      rw [hsub] at this
      exact ih this.1 (by rw [this.2]; exact hp.2.2)
    · have := sizeOK_fix_right c k v s x sib hx hp.1 (by omega)
      simp only at hsub
      rw [hsub] at this
      exact ih this.1 (by rw [this.2]; exact hp.2.2)
  | case4 x p rest hc sub hsub =>
    rw [delete_fixup]
    simp only [hc, hsub, sizeOK_set_color]
    obtain ⟨d, c, k, v, s, sib⟩ := p
    simp only [PathOK] at hp
    cases d
    · have := sizeOK_fix_left c k v s x sib hx hp.1 hp.2.1
      simp only at hsub
      rw [hsub] at this
      exact sizeOK_plug _ _ this.1 (by rw [this.2]; exact hp.2.2)
    · have := sizeOK_fix_right c k v s x sib hx hp.1 (by omega)
      simp only at hsub
      rw [hsub] at this
      exact sizeOK_plug _ _ this.1 (by rw [this.2]; exact hp.2.2)

end RBTree

namespace RBTree
open Color Dir rbtree_node
variable {K V : Type}

/-! ## Facts about the compare function -/

theorem TotalCmp.not_lt {cmp : K → K → Int} (hc : TotalCmp cmp) (a b : K) :
    ¬ cmp a b < 0 ↔ cmp b a ≤ 0 := by
  rw [hc.antisymm a b]
  omega

theorem TotalCmp.refl {cmp : K → K → Int} (hc : TotalCmp cmp) (a : K) : cmp a a = 0 := by
  have h1 := hc.antisymm a a
  omega

theorem TotalCmp.eq_symm {cmp : K → K → Int} (hc : TotalCmp cmp) (a b : K)
    (h : cmp a b = 0) : cmp b a = 0 := by
  have h1 := hc.antisymm a b
  have h2 := hc.antisymm b a
  omega

theorem TotalCmp.lt_of_lt_of_le {cmp : K → K → Int} (hc : TotalCmp cmp) {a b c : K}
    (h1 : cmp a b < 0) (h2 : cmp b c ≤ 0) : cmp a c < 0 := by
  by_contra hn
  have h3 : cmp c a ≤ 0 := (hc.not_lt a c).1 hn
  have h4 : cmp b a ≤ 0 := hc.le_trans b c a h2 h3
  have h5 := hc.antisymm a b
  omega

theorem TotalCmp.lt_of_le_of_lt {cmp : K → K → Int} (hc : TotalCmp cmp) {a b c : K}
    (h1 : cmp a b ≤ 0) (h2 : cmp b c < 0) : cmp a c < 0 := by
  by_contra hn
  have h3 : cmp c a ≤ 0 := (hc.not_lt a c).1 hn
  have h4 : cmp c b ≤ 0 := hc.le_trans c a b h3 h1
  have h5 := hc.antisymm b c
  omega

theorem TotalCmp.lt_trans {cmp : K → K → Int} (hc : TotalCmp cmp) {a b c : K}
    (h1 : cmp a b < 0) (h2 : cmp b c < 0) : cmp a c < 0 :=
  hc.lt_of_lt_of_le h1 (by omega)

theorem TotalCmp.gt_iff {cmp : K → K → Int} (hc : TotalCmp cmp) (a b : K) :
    cmp a b > 0 ↔ cmp b a < 0 := by
  have := hc.antisymm b a
  omega

/-! ## The descent -/

theorem descend_plug (cmp : K → K → Int) (key : K) (t : rbtree_node K V)
    (path : List (Frame K V)) :
    plug (descend cmp key t path).1 (descend cmp key t path).2 = plug path t := by
  induction t generalizing path with
  | nil => rfl
  | node c l k v s r ihl ihr =>
    simp only [descend]
    split_ifs
    · rw [ihl]; rfl
    · rw [ihr]; rfl
    · rfl

theorem descend_sizes (cmp : K → K → Int) (key : K) (t : rbtree_node K V)
    (path : List (Frame K V)) (ht : SizeOK t) (hp : PathOK path (node_size t)) :
    SizeOK (descend cmp key t path).2 ∧
      PathOK (descend cmp key t path).1 (node_size (descend cmp key t path).2) := by
  induction t generalizing path with
  | nil => exact ⟨ht, hp⟩
  | node c l k v s r ihl ihr =>
    simp only [SizeOK] at ht
    simp only [node_size_node] at hp
    simp only [descend]
    split_ifs
    · exact ihl _ ht.2.1 ⟨ht.2.2, ht.1, hp⟩
    · exact ihr _ ht.2.2 ⟨ht.2.1, by show s = 1 + node_size r + node_size l; omega, hp⟩
    · exact ⟨ht, hp⟩

theorem keySorted_node {cmp : K → K → Int} {c : Color} {l r : rbtree_node K V} {k : K} {v : V}
    {s : Nat} (h : KeySorted cmp (inorder (node c l k v s r))) :
    KeySorted cmp (inorder l) ∧ KeySorted cmp (inorder r) ∧
      (∀ x ∈ inorder l, cmp x.1 k < 0) ∧ (∀ x ∈ inorder r, cmp k x.1 < 0) := by
  simp only [KeySorted, inorder, List.pairwise_append, List.pairwise_cons] at h
  obtain ⟨h1, ⟨h2, h3⟩, h4⟩ := h
  exact ⟨h1, h3, fun x hx => h4 x hx (k, v) (List.mem_cons_self _ _), h2⟩

theorem descend_bounds {cmp : K → K → Int} (hc : TotalCmp cmp) (key : K)
    (t : rbtree_node K V) (path : List (Frame K V)) (hs : KeySorted cmp (inorder t))
    (hb : ∀ x ∈ before path, cmp x.1 key < 0) (ha : ∀ x ∈ after path, cmp key x.1 < 0) :
    (∀ x ∈ before (descend cmp key t path).1, cmp x.1 key < 0) ∧
      (∀ x ∈ after (descend cmp key t path).1, cmp key x.1 < 0) ∧
      ∀ c l k v s r, (descend cmp key t path).2 = node c l k v s r → cmp k key = 0 := by
  induction t generalizing path with
  | nil => exact ⟨hb, ha, fun _ _ _ _ _ _ h => by simp [descend] at h⟩
  | node c l k v s r ihl ihr =>
    obtain ⟨sl, sr, bl, br⟩ := keySorted_node hs
    simp only [descend]
    split_ifs with h1 h2
    · apply ihl _ sl
      · simpa [before] using hb
      · intro x hx
        have hk : cmp key k < 0 := (hc.gt_iff k key).1 h1
        simp only [after, List.mem_cons, List.mem_append] at hx
        rcases hx with (rfl | hx) | hx
        · exact hk
        · exact hc.lt_trans hk (br x hx)
        · exact ha x hx
    · apply ihr _ sr
      · intro x hx
        simp only [before, List.mem_append, List.mem_singleton] at hx
        rcases hx with hx | hx | rfl
        · exact hb x hx
        · exact hc.lt_trans (bl x hx) h2
        · exact h2
      · simpa [after] using ha
    · refine ⟨hb, ha, ?_⟩
      intro c' l' k' v' s' r' h
      cases h
      omega

theorem descend_found {cmp : K → K → Int} (hc : TotalCmp cmp) (key : K)
    (t : rbtree_node K V) (path : List (Frame K V)) (hs : KeySorted cmp (inorder t))
    (k' : K) (v' : V) (hmem : (k', v') ∈ inorder t) (heq : cmp k' key = 0) :
    ∃ c l s r, (descend cmp key t path).2 = node c l k' v' s r := by
  induction t generalizing path with
  | nil => simp [inorder] at hmem
  | node c l k v s r ihl ihr =>
    obtain ⟨sl, sr, bl, br⟩ := keySorted_node hs
    simp only [inorder, List.mem_append, List.mem_cons] at hmem
    simp only [descend]
    have hkey : cmp key k' = 0 := hc.eq_symm _ _ heq
    split_ifs with h1 h2
    · rcases hmem with hm | hm | hm
      · exact ihl _ sl hm
      · cases hm; omega
      · have h3 : cmp k key < 0 := hc.lt_of_lt_of_le (br _ hm) (le_of_eq heq)
        omega
    · rcases hmem with hm | hm | hm
      · have h3 : cmp key k < 0 := hc.lt_of_le_of_lt (le_of_eq hkey) (bl _ hm)
        have := (hc.gt_iff k key).2 h3
        omega
      · cases hm; omega
      · exact ihr _ sr hm
    · have hk0 : cmp k key = 0 := by omega
      rcases hmem with hm | hm | hm
      · have h3 : cmp k' k < 0 := bl _ hm
        have h4 : cmp k' key < 0 := hc.lt_of_lt_of_le h3 (by omega)
        omega
      · cases hm; exact ⟨c, l, s, r, rfl⟩
      · have h3 : cmp k k' < 0 := br _ hm
        have h4 : cmp key k' < 0 := hc.lt_of_le_of_lt (by have := hc.eq_symm _ _ hk0; omega) h3
        omega

theorem descend_not_found {cmp : K → K → Int} (key : K)
    (t : rbtree_node K V) (path : List (Frame K V))
    (hno : ∀ x ∈ inorder t, cmp x.1 key ≠ 0) : (descend cmp key t path).2 = nil := by
  induction t generalizing path with
  | nil => rfl
  | node c l k v s r ihl ihr =>
    simp only [inorder, List.mem_append, List.mem_cons] at hno
    simp only [descend]
    split_ifs with h1 h2
    · exact ihl _ fun x hx => hno x (Or.inl hx)
    · exact ihr _ fun x hx => hno x (Or.inr (Or.inr hx))
    · have := hno (k, v) (Or.inr (Or.inl rfl))
      simp only at this
      omega

end RBTree

namespace RBTree
open Color Dir rbtree_node
variable {K V : Type}

/-! ## `rbtree_insert` -/

theorem rbtree_insert_compare (rb : rbtree K V) (key : K) (value : V) :
    (rbtree_insert rb key value).compare = rb.compare := by
  unfold rbtree_insert
  split <;> rfl

/-- The in-order sequence after `rbtree_insert`: either the key was absent and the new pair
sits at the position reached by the descent, or an equal key was present and only its value
changed. -/
theorem rbtree_insert_inorder (rb : rbtree K V) (key : K) (value : V) :
    ∃ pre post,
      (inorder rb.root = pre ++ post ∧
          inorder (rbtree_insert rb key value).root = pre ++ (key, value) :: post ∧
          (rbtree_insert rb key value).count = rb.count + 1 ∧
          pre = before (descend rb.compare key rb.root []).1 ∧
          post = after (descend rb.compare key rb.root []).1 ∧
          (descend rb.compare key rb.root []).2 = nil) ∨
      (∃ c l k v0 s r, inorder rb.root = pre ++ (k, v0) :: post ∧
          inorder (rbtree_insert rb key value).root = pre ++ (k, value) :: post ∧
          (rbtree_insert rb key value).count = rb.count ∧
          (descend rb.compare key rb.root []).2 = node c l k v0 s r) := by
  have hp := descend_plug rb.compare key rb.root []
  unfold rbtree_insert
  rcases hd : descend rb.compare key rb.root [] with ⟨path, n⟩
  rw [hd] at hp
  simp only [plug] at hp
  cases n with
  | nil =>
    refine ⟨before path, after path, Or.inl ?_⟩
    simp only [inorder_set_color, inorder_insert_fixup, inorder_plug, before_inc_sizes,
      after_inc_sizes, inorder, ← hp]
    simp
  | node c l k v0 s r =>
    refine ⟨before path ++ inorder l, inorder r ++ after path, Or.inr ⟨c, l, k, v0, s, r, ?_⟩⟩
    simp only [inorder_plug, inorder, ← hp]
    simp

theorem rbtree_insert_sizes (rb : rbtree K V) (key : K) (value : V)
    (hs : SizeOK rb.root) (hcount : rb.count = node_size rb.root) :
    SizeOK (rbtree_insert rb key value).root ∧
      (rbtree_insert rb key value).count = node_size (rbtree_insert rb key value).root := by
  have hok : SizeOK (rbtree_insert rb key value).root := by
    have hsz := descend_sizes rb.compare key rb.root [] hs trivial
    unfold rbtree_insert
    rcases hd : descend rb.compare key rb.root [] with ⟨path, n⟩
    rw [hd] at hsz
    cases n with
    | nil =>
      simp only [sizeOK_set_color]
      apply sizeOK_insert_fixup
      · simp [SizeOK]
      · exact pathOK_inc_sizes _ _ hsz.2
    | node c l k v0 s r =>
      simp only
      apply sizeOK_plug
      · exact hsz.1
      · exact hsz.2
  refine ⟨hok, ?_⟩
  rw [size_eq_length _ hok]
  rw [size_eq_length _ hs] at hcount
  obtain ⟨pre, post, h | ⟨c, l, k, v0, s, r, h⟩⟩ := rbtree_insert_inorder rb key value
  · rw [h.2.1, h.2.2.1, hcount, h.1]
    simp
    omega
  · rw [h.2.1, h.2.2.1, hcount, h.1]
    simp

theorem rbtree_insert_sorted {cmp : K → K → Int} (hc : TotalCmp cmp) (rb : rbtree K V)
    (key : K) (value : V) (hcmp : rb.compare = cmp) (hs : KeySorted cmp (inorder rb.root)) :
    KeySorted cmp (inorder (rbtree_insert rb key value).root) ∧
      ∃ k, cmp k key = 0 ∧ (k, value) ∈ inorder (rbtree_insert rb key value).root := by
  subst hcmp
  have hb := descend_bounds hc key rb.root [] hs (by simp [before]) (by simp [after])
  obtain ⟨pre, post, h | ⟨c, l, k, v0, s, r, h⟩⟩ := rbtree_insert_inorder rb key value
  · obtain ⟨h1, h2, -, h4, h5, -⟩ := h
    rw [h2]
    refine ⟨?_, key, hc.refl key, by simp⟩
    rw [h1] at hs
    simp only [KeySorted, List.pairwise_append, List.pairwise_cons] at hs ⊢
    refine ⟨hs.1, ⟨?_, hs.2.1⟩, ?_⟩
    · intro x hx
      exact hb.2.1 x (h5 ▸ hx)
    · intro a ha b hbm
      rcases List.mem_cons.1 hbm with rfl | hbm
      · exact hb.1 a (h4 ▸ ha)
      · exact hs.2.2 a ha b hbm
  · obtain ⟨h1, h2, -, h4⟩ := h
    rw [h2]
    refine ⟨?_, k, hb.2.2 _ _ _ _ _ _ h4, by simp⟩
    rw [h1] at hs
    simp only [KeySorted, List.pairwise_append, List.pairwise_cons, List.mem_cons] at hs ⊢
    refine ⟨hs.1, hs.2.1, ?_⟩
    intro a ha b hbm
    rcases hbm with rfl | hbm
    · exact hs.2.2 a ha (k, v0) (Or.inl rfl)
    · exact hs.2.2 a ha b (Or.inr hbm)

end RBTree

namespace RBTree
open Color Dir rbtree_node
variable {K V : Type}

/-! ## `rbtree_erase` -/

theorem descend_min_node (t : rbtree_node K V) (path : List (Frame K V)) (k0 : K) (v0 : V)
    (hne : t ≠ nil) :
    ∃ c k v s r, (descend_min t path).2 = node c nil k v s r ∧ min_entry t k0 v0 = (k, v) ∧
      before (descend_min t path).1 = before path ∧
      (k, v) :: inorder r ++ after (descend_min t path).1 = inorder t ++ after path := by
  induction t generalizing path k0 v0 with
  | nil => exact absurd rfl hne
  | node c l k v s r ihl _ =>
    cases l with
    | nil => exact ⟨c, k, v, s, r, rfl, rfl, rfl, by simp [descend_min, inorder]⟩
    | node c1 l1 k1 v1 s1 r1 =>
      obtain ⟨c2, k2, v2, s2, r2, h1, h2, h3, h4⟩ :=
        ihl (Frame.mk L c k v s r :: path) k v (by simp)
      refine ⟨c2, k2, v2, s2, r2, ?_, ?_, ?_, ?_⟩
      · simpa [descend_min] using h1
      · simpa [min_entry] using h2
      · simpa [descend_min, before] using h3
      · simpa [descend_min, after, inorder] using h4

theorem descend_min_sizes (t : rbtree_node K V) (path : List (Frame K V))
    (ht : SizeOK t) (hp : PathOK path (node_size t)) :
    SizeOK (descend_min t path).2 ∧
      PathOK (descend_min t path).1 (node_size (descend_min t path).2) := by
  induction t generalizing path with
  | nil => exact ⟨ht, hp⟩
  | node c l k v s r ihl _ =>
    cases l with
    | nil => exact ⟨ht, hp⟩
    | node c1 l1 k1 v1 s1 r1 =>
      simp only [SizeOK, node_size_node] at ht hp
      simp only [descend_min]
      exact ihl _ ht.2.1 ⟨ht.2.2, ht.1, hp⟩

theorem inorder_splice_out (path : List (Frame K V)) (c : Color) (l r : rbtree_node K V)
    (h : l = nil ∨ r = nil) :
    inorder (splice_out path c l r) = before path ++ (inorder l ++ inorder r) ++ after path := by
  unfold splice_out
  rcases h with rfl | rfl
  · cases c <;> simp [inorder_plug, inorder_delete_fixup, inorder]
  · cases l <;> cases c <;> simp [inorder_plug, inorder_delete_fixup, inorder]

theorem sizeOK_splice_out (path : List (Frame K V)) (c : Color) (l r : rbtree_node K V)
    (h : l = nil ∨ r = nil) (hl : SizeOK l) (hr : SizeOK r)
    (hp : PathOK path (1 + node_size l + node_size r)) : SizeOK (splice_out path c l r) := by
  unfold splice_out
  have key : ∀ x : rbtree_node K V, SizeOK x → 1 + node_size l + node_size r = node_size x + 1 →
      SizeOK (match c with
        | RED => plug (dec_sizes path) x
        | BLACK => delete_fixup x (dec_sizes path)) := by
    intro x hx hn
    rw [hn] at hp
    cases c
    · exact sizeOK_plug _ _ hx (pathOK_dec_sizes _ _ hp)
    · exact sizeOK_delete_fixup _ _ hx (pathOK_dec_sizes _ _ hp)
  rcases h with rfl | rfl
  · exact key r hr (by simp; omega)
  · cases l with
    | nil => exact key nil hr (by simp)
    | node c1 l1 k1 v1 s1 r1 => exact key _ hl (by simp; omega)

theorem rbtree_erase_compare (rb : rbtree K V) (key : K) :
    (rbtree_erase rb key).compare = rb.compare := by
  unfold rbtree_erase
  split
  · rfl
  · split
    · dsimp only
      split <;> rfl
    · rfl

/-- The in-order sequence after `rbtree_erase`: either the descent found no equal key and
nothing changed, or the pair found by the descent is removed and all others stay in place. -/
theorem rbtree_erase_inorder (rb : rbtree K V) (key : K) :
    ((descend rb.compare key rb.root []).2 = nil ∧ rbtree_erase rb key = rb) ∨
      ∃ pre post c l k v s r, (descend rb.compare key rb.root []).2 = node c l k v s r ∧
        inorder rb.root = pre ++ (k, v) :: post ∧
        inorder (rbtree_erase rb key).root = pre ++ post ∧
        (rbtree_erase rb key).count = rb.count - 1 := by
  have hp := descend_plug rb.compare key rb.root []
  unfold rbtree_erase
  rcases hd : descend rb.compare key rb.root [] with ⟨path, n⟩
  rw [hd] at hp
  simp only [plug] at hp
  cases n with
  | nil => exact Or.inl ⟨rfl, rfl⟩
  | node c l k v s r =>
    refine Or.inr ⟨before path ++ inorder l, inorder r ++ after path, c, l, k, v, s, r, rfl, ?_⟩
    have hold : inorder rb.root =
        (before path ++ inorder l) ++ (k, v) :: (inorder r ++ after path) := by
      rw [← hp, inorder_plug]
      simp [inorder]
    refine ⟨hold, ?_⟩
    cases l with
    | nil =>
      refine ⟨?_, rfl⟩
      simp [inorder_splice_out, inorder]
    | node c1 l1 k1 v1 s1 r1 =>
      cases r with
      | nil =>
        refine ⟨?_, rfl⟩
        simp [inorder_splice_out, inorder]
      | node c2 l2 k2 v2 s2 r2 =>
        simp only
        obtain ⟨c3, k3, v3, s3, r3, h1, h2, h3, h4⟩ :=
          descend_min_node (node c2 l2 k2 v2 s2 r2)
            (Frame.mk R c (min_entry (node c2 l2 k2 v2 s2 r2) k v).1
              (min_entry (node c2 l2 k2 v2 s2 r2) k v).2 s (node c1 l1 k1 v1 s1 r1) :: path)
            k v (by simp)
        rcases hm : descend_min (node c2 l2 k2 v2 s2 r2)
            (Frame.mk R c (min_entry (node c2 l2 k2 v2 s2 r2) k v).1
              (min_entry (node c2 l2 k2 v2 s2 r2) k v).2 s (node c1 l1 k1 v1 s1 r1) :: path)
          with ⟨path2, n2⟩
        rw [hm] at h1 h3 h4
        simp only at h1 h3 h4
        subst h1
        refine ⟨?_, rfl⟩
        show inorder (splice_out path2 c3 nil r3) = _
        rw [inorder_splice_out _ _ _ _ (Or.inl rfl), h3]
        simp only [before, after, h2] at h4 ⊢
        simp only [inorder, List.nil_append, List.append_assoc, List.singleton_append,
          List.cons_append] at h4 ⊢
        rw [h4]

theorem rbtree_erase_sizes (rb : rbtree K V) (key : K)
    (hs : SizeOK rb.root) (hcount : rb.count = node_size rb.root) :
    SizeOK (rbtree_erase rb key).root ∧
      (rbtree_erase rb key).count = node_size (rbtree_erase rb key).root := by
  have hok : SizeOK (rbtree_erase rb key).root := by
    have hsz := descend_sizes rb.compare key rb.root [] hs trivial
    unfold rbtree_erase
    rcases hd : descend rb.compare key rb.root [] with ⟨path, n⟩
    rw [hd] at hsz
    cases n with
    | nil => exact hs
    | node c l k v s r =>
      obtain ⟨⟨h1, h2, h3⟩, h4⟩ := hsz
      simp only [node_size_node] at h4
      cases l with
      | nil => exact sizeOK_splice_out _ _ _ _ (Or.inl rfl) h2 h3 (h1 ▸ h4)
      | node c1 l1 k1 v1 s1 r1 =>
        cases r with
        | nil => exact sizeOK_splice_out _ _ _ _ (Or.inr rfl) h2 h3 (h1 ▸ h4)
        | node c2 l2 k2 v2 s2 r2 =>
          simp only
          obtain ⟨c3, k3, v3, s3, r3, e1, -⟩ :=
            descend_min_node (node c2 l2 k2 v2 s2 r2)
              (Frame.mk R c (min_entry (node c2 l2 k2 v2 s2 r2) k v).1
                (min_entry (node c2 l2 k2 v2 s2 r2) k v).2 s (node c1 l1 k1 v1 s1 r1) :: path)
              k v (by simp)
          have hm := descend_min_sizes (node c2 l2 k2 v2 s2 r2)
              (Frame.mk R c (min_entry (node c2 l2 k2 v2 s2 r2) k v).1
                (min_entry (node c2 l2 k2 v2 s2 r2) k v).2 s (node c1 l1 k1 v1 s1 r1) :: path)
              h3 ⟨h2, by simp only [node_size_node] at h1 ⊢; omega, h4⟩
          rcases hdm : descend_min (node c2 l2 k2 v2 s2 r2)
              (Frame.mk R c (min_entry (node c2 l2 k2 v2 s2 r2) k v).1
                (min_entry (node c2 l2 k2 v2 s2 r2) k v).2 s (node c1 l1 k1 v1 s1 r1) :: path)
            with ⟨path2, n2⟩
          rw [hdm] at e1 hm
          simp only at e1 hm
          subst e1
          obtain ⟨⟨g1, g2, g3⟩, g4⟩ := hm
          simp only [node_size_node] at g4
          exact sizeOK_splice_out _ _ _ _ (Or.inl rfl) g2 g3 (g1 ▸ g4)
  refine ⟨hok, ?_⟩
  rw [size_eq_length _ hok]
  rw [size_eq_length _ hs] at hcount
  rcases rbtree_erase_inorder rb key with h | ⟨pre, post, c, l, k, v, s, r, -, h1, h2, h3⟩
  · rw [h.2]
    exact hcount
  · rw [h3, h2, hcount, h1]
    simp

theorem rbtree_erase_sorted {cmp : K → K → Int} (hc : TotalCmp cmp) (rb : rbtree K V)
    (key : K) (hcmp : rb.compare = cmp) (hs : KeySorted cmp (inorder rb.root)) :
    KeySorted cmp (inorder (rbtree_erase rb key).root) ∧
      ∀ x ∈ inorder (rbtree_erase rb key).root, cmp x.1 key ≠ 0 := by
  subst hcmp
  have hb := descend_bounds hc key rb.root [] hs (by simp [before]) (by simp [after])
  rcases rbtree_erase_inorder rb key with h | ⟨pre, post, c, l, k, v, s, r, h0, h1, h2, -⟩
  · rw [h.2]
    refine ⟨hs, ?_⟩
    intro x hx heq
    obtain ⟨c, l, s, r, hf⟩ := descend_found hc key rb.root [] hs x.1 x.2 hx heq
    rw [h.1] at hf
    cases hf
  · have hk : rb.compare k key = 0 := hb.2.2 _ _ _ _ _ _ h0
    rw [h2]
    rw [h1] at hs
    simp only [KeySorted, List.pairwise_append, List.pairwise_cons, List.mem_cons] at hs ⊢
    obtain ⟨s1, ⟨s2, s3⟩, s4⟩ := hs
    refine ⟨⟨s1, s3, fun a ha b hb => s4 a ha b (Or.inr hb)⟩, ?_⟩
    intro x hx
    rcases List.mem_append.1 hx with hx | hx
    · have h3 : rb.compare x.1 k < 0 := s4 x hx (k, v) (Or.inl rfl)
      have h4 := hc.lt_of_lt_of_le h3 (le_of_eq hk)
      omega
    · have h3 : rb.compare k x.1 < 0 := s2 x hx
      have h4 := hc.lt_of_le_of_lt (le_of_eq (hc.eq_symm _ _ hk)) h3
      have h5 := hc.antisymm key x.1
      omega

/-! ## The invariant of reachable trees -/

theorem treeInv_of_reachable {rcomp : K → K → Int} (hc : TotalCmp rcomp) (rb : rbtree K V)
    (hr : Reachable rcomp rb) : TreeInv rcomp rb := by
  induction hr with
  | init => exact ⟨trivial, rfl, List.Pairwise.nil, rfl⟩
  | insert rb key value _ ih =>
    obtain ⟨h1, h2, h3, h4⟩ := ih
    obtain ⟨a, b⟩ := rbtree_insert_sizes rb key value h1 h2
    exact ⟨a, b, (rbtree_insert_sorted hc rb key value h4 h3).1,
      (rbtree_insert_compare rb key value).trans h4⟩
  | erase rb key _ ih =>
    obtain ⟨h1, h2, h3, h4⟩ := ih
    obtain ⟨a, b⟩ := rbtree_erase_sizes rb key h1 h2
    exact ⟨a, b, (rbtree_erase_sorted hc rb key h4 h3).1,
      (rbtree_erase_compare rb key).trans h4⟩
  | clear rb _ ih => exact ⟨trivial, rfl, List.Pairwise.nil, ih.2.2.2⟩

theorem sizes_of_reachable {rcomp : K → K → Int} (rb : rbtree K V)
    (hr : Reachable rcomp rb) : SizeOK rb.root ∧ rb.count = node_size rb.root := by
  induction hr with
  | init => exact ⟨trivial, rfl⟩
  | insert rb key value _ ih => exact rbtree_insert_sizes rb key value ih.1 ih.2
  | erase rb key _ ih => exact rbtree_erase_sizes rb key ih.1 ih.2
  | clear rb _ _ => exact ⟨trivial, rfl⟩

end RBTree

namespace RBTree
open Color Dir rbtree_node
variable {K V : Type}

/-! ## Rank and selection -/

theorem order_of_key_from_all_lt (cmp : K → K → Int) (key : K) (t : rbtree_node K V)
    (acc : Nat) (hs : SizeOK t) (h : ∀ x ∈ inorder t, cmp x.1 key < 0) :
    order_of_key_from cmp key t acc = acc + node_size t := by
  induction t generalizing acc with
  | nil => rfl
  | node c l k v s r _ ihr =>
    simp only [inorder, List.mem_append, List.mem_cons] at h
    simp only [SizeOK] at hs
    have hk : cmp k key < 0 := h (k, v) (Or.inr (Or.inl rfl))
    simp only [order_of_key_from, hk, if_true, node_size_node]
    rw [ihr _ hs.2.2 fun x hx => h x (Or.inr (Or.inr hx))]
    omega

theorem order_of_key_from_all_ge (cmp : K → K → Int) (key : K) (t : rbtree_node K V)
    (acc : Nat) (h : ∀ x ∈ inorder t, ¬ cmp x.1 key < 0) :
    order_of_key_from cmp key t acc = acc := by
  induction t generalizing acc with
  | nil => rfl
  | node c l k v s r ihl _ =>
    simp only [inorder, List.mem_append, List.mem_cons] at h
    have hk : ¬ cmp k key < 0 := h (k, v) (Or.inr (Or.inl rfl))
    simp only [order_of_key_from, hk, if_false]
    exact ihl _ fun x hx => h x (Or.inl hx)

theorem find_by_order_from_rank {cmp : K → K → Int} (hc : TotalCmp cmp)
    (t : rbtree_node K V) (order : Nat) (path : List (Frame K V)) (acc : Nat)
    (hs : SizeOK t) (hsort : KeySorted cmp (inorder t)) (hlt : order < node_size t) :
    ∃ it key, find_by_order_from t order path = some it ∧ rbtree_get_key it = some key ∧
      key ∈ (inorder t).map Prod.fst ∧ order_of_key_from cmp key t acc = acc + order := by
  induction t generalizing order path acc with
  | nil => simp at hlt
  | node c l k v s r ihl ihr =>
    obtain ⟨sl, sr, bl, br⟩ := keySorted_node hsort
    simp only [SizeOK] at hs
    simp only [node_size_node] at hlt
    simp only [find_by_order_from]
    split_ifs with h1 h2
    · refine ⟨_, k, rfl, rfl, by simp [inorder], ?_⟩
      have hk : ¬ cmp k k < 0 := by have := hc.refl k; omega
      simp only [order_of_key_from, hk, if_false]
      rw [order_of_key_from_all_lt cmp k l acc hs.2.1 bl, h1]
    · obtain ⟨it, key, e1, e2, e3, e4⟩ :=
        ihl order (Frame.mk L c k v s r :: path) acc hs.2.1 sl h2
      refine ⟨it, key, e1, e2, ?_, ?_⟩
      · simp only [inorder, List.map_append, List.mem_append]
        exact Or.inl e3
      · obtain ⟨x, hx, rfl⟩ := List.mem_map.1 e3
        have hk : ¬ cmp k x.1 < 0 := by
          have := bl x hx
          have := hc.antisymm x.1 k
          omega
        simp only [order_of_key_from, hk, if_false]
        exact e4
    · obtain ⟨it, key, e1, e2, e3, e4⟩ :=
        ihr (order - node_size l - 1) (Frame.mk R c k v s l :: path) (acc + (1 + node_size l))
          hs.2.2 sr (by omega)
      refine ⟨it, key, e1, e2, ?_, ?_⟩
      · simp only [inorder, List.map_append, List.mem_append, List.map_cons, List.mem_cons]
        exact Or.inr (Or.inr e3)
      · obtain ⟨x, hx, rfl⟩ := List.mem_map.1 e3
        have hk : cmp k x.1 < 0 := br x hx
        simp only [order_of_key_from, hk, if_true]
        rw [e4]
        omega

/-! ## `rbtree_upper_bound` -/

theorem upper_bound_from_spec {cmp : K → K → Int} (hc : TotalCmp cmp) (x : K)
    (t : rbtree_node K V) (path : List (Frame K V)) (best : Option (rbtree_iterator K V))
    (hsort : KeySorted cmp (inorder t)) :
    ((∀ y ∈ inorder t, ¬ cmp y.1 x ≤ 0) ∧ upper_bound_from cmp x t path best = best) ∨
      ∃ it k, upper_bound_from cmp x t path best = some it ∧ rbtree_get_key it = some k ∧
        k ∈ (inorder t).map Prod.fst ∧ cmp k x ≤ 0 ∧
        ∀ y ∈ inorder t, cmp y.1 x ≤ 0 → cmp y.1 k ≤ 0 := by
  induction t generalizing path best with
  | nil => exact Or.inl ⟨by simp [inorder], rfl⟩
  | node c l k v s r ihl ihr =>
    obtain ⟨sl, sr, bl, br⟩ := keySorted_node hsort
    simp only [upper_bound_from]
    split_ifs with h1
    · right
      rcases ihr (Frame.mk R c k v s l :: path) (some (rbtree_iterator.mk (node c l k v s r) path))
          sr with ⟨hno, he⟩ | ⟨it, k2, e1, e2, e3, e4, e5⟩
      · refine ⟨_, k, he, rfl, by simp [inorder], h1, ?_⟩
        intro y hy hyx
        simp only [inorder, List.mem_append, List.mem_cons] at hy
        rcases hy with hy | rfl | hy
        · exact le_of_lt (bl y hy)
        · exact le_of_eq (hc.refl _)
        · exact absurd hyx (hno y hy)
      · refine ⟨it, k2, e1, e2, ?_, e4, ?_⟩
        · simp only [inorder, List.map_append, List.mem_append, List.map_cons, List.mem_cons]
          exact Or.inr (Or.inr e3)
        · obtain ⟨z, hz, rfl⟩ := List.mem_map.1 e3
          have hkz : cmp k z.1 < 0 := br z hz
          intro y hy hyx
          simp only [inorder, List.mem_append, List.mem_cons] at hy
          rcases hy with hy | rfl | hy
          · exact le_of_lt (hc.lt_trans (bl y hy) hkz)
          · exact le_of_lt hkz
          · exact e5 y hy hyx
    · have hkx : cmp x k < 0 := by
        have := hc.antisymm x k
        omega
      rcases ihl (Frame.mk L c k v s r :: path) best sl with
        ⟨hno, he⟩ | ⟨it, k2, e1, e2, e3, e4, e5⟩
      · left
        refine ⟨?_, he⟩
        intro y hy
        simp only [inorder, List.mem_append, List.mem_cons] at hy
        rcases hy with hy | rfl | hy
        · exact hno y hy
        · exact h1
        · have h2 : cmp x y.1 < 0 := hc.lt_trans hkx (br y hy)
          have := hc.antisymm x y.1
          omega
      · right
        refine ⟨it, k2, e1, e2, ?_, e4, ?_⟩
        · simp only [inorder, List.map_append, List.mem_append]
          exact Or.inl e3
        · intro y hy hyx
          simp only [inorder, List.mem_append, List.mem_cons] at hy
          rcases hy with hy | rfl | hy
          · exact e5 y hy hyx
          · exact absurd hyx h1
          · have h2 : cmp x y.1 < 0 := hc.lt_trans hkx (br y hy)
            have := hc.antisymm x y.1
            omega

end RBTree

namespace RBTree
open Color Dir rbtree_node
variable {K V : Type}

/-! ## Iteration -/

theorem ascend_next_spec (t : rbtree_node K V) (path : List (Frame K V)) :
    (ascend_next t path = none ∧ after path = []) ∨
      ∃ it, ascend_next t path = some it ∧ it.node ≠ nil ∧ remaining it = after path := by
  induction path generalizing t with
  | nil => exact Or.inl ⟨rfl, rfl⟩
  | cons f rest ih =>
    obtain ⟨d, c, k, v, s, sib⟩ := f
    cases d
    · exact Or.inr ⟨_, rfl, by simp [Frame.fill], by simp [remaining, Frame.fill, after]⟩
    · simpa [ascend_next, after] using ih (Frame.fill (Frame.mk R c k v s sib) t)

theorem remaining_descend_min (t : rbtree_node K V) (path : List (Frame K V)) :
    remaining (rbtree_iterator.mk (descend_min t path).2 (descend_min t path).1) =
      match t with
      | nil => []
      | node _ _ _ _ _ _ => inorder t ++ after path := by
  cases t with
  | nil => rfl
  | node c l k v s r =>
    obtain ⟨c2, k2, v2, s2, r2, h1, -, -, h4⟩ := descend_min_node (node c l k v s r) path k v
      (by simp)
    simp only [remaining, h1]
    exact h4

theorem remaining_next (iter : rbtree_iterator K V) :
    match iter.node with
    | nil => True
    | node _ _ k v _ _ =>
      ((rbtree_next iter).1 = false ∧ remaining iter = [(k, v)]) ∨
        ((rbtree_next iter).1 = true ∧ (rbtree_next iter).2.node ≠ nil ∧
          remaining iter = (k, v) :: remaining (rbtree_next iter).2) := by
  obtain ⟨n, path⟩ := iter
  cases n with
  | nil => trivial
  | node c l k v s r =>
    cases r with
    | nil =>
      simp only [rbtree_next]
      rcases ascend_next_spec (node c l k v s nil) path with ⟨h1, h2⟩ | ⟨it, h1, h2, h3⟩
      · left
        simp [h1, remaining, h2, inorder]
      · right
        simp [h1, remaining, h2, h3, inorder]
        simpa [remaining] using h3.symm
    | node c1 l1 k1 v1 s1 r1 =>
      right
      have h := remaining_descend_min (node c1 l1 k1 v1 s1 r1) (Frame.mk R c k v s l :: path)
      obtain ⟨c2, k2, v2, s2, r2, h1, -⟩ := descend_min_node (node c1 l1 k1 v1 s1 r1)
        (Frame.mk R c k v s l :: path) k v (by simp)
      simp only [rbtree_next]
      refine ⟨trivial, ?_, ?_⟩
      · simp [h1]
      · simp only at h
        rw [h]
        simp [remaining, after]

theorem walk_keys_spec (fuel : Nat) (iter : rbtree_iterator K V)
    (h : (remaining iter).length < fuel) :
    walk_keys fuel iter = some ((remaining iter).map Prod.fst) := by
  induction fuel generalizing iter with
  | zero => simp at h
  | succ fuel ih =>
    have hn := remaining_next iter
    obtain ⟨n, path⟩ := iter
    cases n with
    | nil => rfl
    | node c l k v s r =>
      simp only at hn
      rcases hn with ⟨h1, h2⟩ | ⟨h1, -, h3⟩
      · rcases hnx : rbtree_next (rbtree_iterator.mk (node c l k v s r) path) with ⟨b, it2⟩
        rw [hnx] at h1
        simp only at h1
        subst h1
        simp [walk_keys, rbtree_get_key, hnx, h2]
      · rcases hnx : rbtree_next (rbtree_iterator.mk (node c l k v s r) path) with ⟨b, it2⟩
        rw [hnx] at h1 h3
        simp only at h1 h3
        subst h1
        rw [h3] at h ⊢
        simp only [List.length_cons] at h
        simp [walk_keys, rbtree_get_key, hnx, ih it2 (by omega)]

theorem remaining_begin (rb : rbtree K V) : remaining (rbtree_begin rb) = inorder rb.root := by
  have h := remaining_descend_min rb.root []
  unfold rbtree_begin
  cases hroot : rb.root with
  | nil => rfl
  | node c l k v s r =>
    rw [hroot] at h
    simpa [after] using h

theorem int_compare_total : TotalCmp int_compare := by
  constructor
  · intro a b
    simp only [int_compare]
    omega
  · intro a b c
    simp only [int_compare]
    omega

theorem scenario_tree_reachable : Reachable int_compare scenario_tree := by
  unfold scenario_tree
  simp only [List.foldl]
  repeat apply Reachable.insert
  exact Reachable.init

/-! ## The claims about the tree -/

/-- C1: in every tree state reachable from `rbtree_init` by `rbtree_insert`, `rbtree_erase`
and `rbtree_clear` calls, every node's size field equals 1 + size(left) + size(right), an
absent child counting 0, and `rbtree_size` equals the size of the root (0 for an empty
tree). -/
theorem rbtree_size_fields_exact (rcomp : K → K → Int) (rb : rbtree K V)
    (hr : Reachable rcomp rb) :
    SizeOK rb.root ∧ rbtree_size rb = node_size rb.root ∧
      (rb.root = nil → rbtree_size rb = 0) := by
  obtain ⟨h1, h2⟩ := sizes_of_reachable rb hr
  refine ⟨h1, h2, ?_⟩
  intro h
  rw [show rbtree_size rb = rb.count from rfl, h2, h]
  rfl

theorem rbtree_size_fields_exact_witness :
    Reachable int_compare (rbtree_erase scenario_tree 5) ∧
      SizeOK (rbtree_erase scenario_tree 5).root ∧
      rbtree_size (rbtree_erase scenario_tree 5) =
        node_size (rbtree_erase scenario_tree 5).root ∧
      ((rbtree_erase scenario_tree 5).root = nil → rbtree_size (rbtree_erase scenario_tree 5) = 0) :=
  ⟨Reachable.erase _ _ scenario_tree_reachable,
    rbtree_size_fields_exact int_compare (rbtree_erase scenario_tree 5)
      (Reachable.erase _ _ scenario_tree_reachable)⟩

/-- C2: rank/select duality. In every tree state reachable from `rbtree_init` by
`rbtree_insert` and `rbtree_erase` calls (and `rbtree_clear` as well), for every order
`k < rbtree_size`, `rbtree_find_by_order k` returns a cursor on a node, and
`rbtree_order_of_key` applied to that node's key gives exactly `k`. -/
theorem rbtree_rank_select_duality (rcomp : K → K → Int) (hc : TotalCmp rcomp)
    (rb : rbtree K V) (hr : Reachable rcomp rb) (k : Nat) (hk : k < rbtree_size rb) :
    ∃ it key, rbtree_find_by_order rb k = some it ∧ rbtree_get_key it = some key ∧
      rbtree_order_of_key rb key = k := by
  obtain ⟨h1, h2, h3, h4⟩ := treeInv_of_reachable hc rb hr
  have hk2 : k < rb.count := hk
  obtain ⟨it, key, e1, e2, -, e4⟩ :=
    find_by_order_from_rank hc rb.root k [] 0 h1 h3 (by omega)
  refine ⟨it, key, ?_, e2, ?_⟩
  · simp only [rbtree_find_by_order]
    rw [if_neg (by omega)]
    exact e1
  · simp only [rbtree_order_of_key, h4]
    simpa using e4

theorem rbtree_rank_select_duality_witness :
    TotalCmp int_compare ∧ Reachable int_compare scenario_tree ∧ 4 < rbtree_size scenario_tree ∧
      ∃ it key, rbtree_find_by_order scenario_tree 4 = some it ∧ rbtree_get_key it = some key ∧
        rbtree_order_of_key scenario_tree key = 4 :=
  ⟨int_compare_total, scenario_tree_reachable, by decide,
    rbtree_rank_select_duality int_compare int_compare_total scenario_tree
      scenario_tree_reachable 4 (by decide)⟩

/-- C3: in every reachable tree and for every key `x`, a cursor returned by
`rbtree_upper_bound` stands on a stored key that is `<= x` under the compare function and
that no stored key `<= x` exceeds (the largest stored key `<= x`, not the smallest key
`> x`); and the result is past-the-end exactly when no stored key is `<= x`. -/
theorem rbtree_upper_bound_largest_le (rcomp : K → K → Int) (hc : TotalCmp rcomp)
    (rb : rbtree K V) (hr : Reachable rcomp rb) (x : K) :
    (∀ it, rbtree_upper_bound rb x = some it →
      ∃ k, rbtree_get_key it = some k ∧ k ∈ rbtree_keys rb ∧ rcomp k x ≤ 0 ∧
        ∀ k2 ∈ rbtree_keys rb, rcomp k2 x ≤ 0 → rcomp k2 k ≤ 0) ∧
      (rbtree_upper_bound rb x = none ↔ ∀ k2 ∈ rbtree_keys rb, ¬ rcomp k2 x ≤ 0) := by
  obtain ⟨-, -, h3, h4⟩ := treeInv_of_reachable hc rb hr
  have hspec := upper_bound_from_spec hc x rb.root [] none h3
  simp only [rbtree_upper_bound, h4, rbtree_keys]
  rcases hspec with ⟨hno, he⟩ | ⟨it, k, e1, e2, e3, e4, e5⟩
  · rw [he]
    refine ⟨fun it h => (nomatch h), fun _ => ?_, fun _ => rfl⟩
    intro k2 hk2
    obtain ⟨y, hy, rfl⟩ := List.mem_map.1 hk2
    exact hno y hy
  · rw [e1]
    constructor
    · intro it2 h
      cases h
      refine ⟨k, e2, e3, e4, ?_⟩
      intro k2 hk2
      obtain ⟨y, hy, rfl⟩ := List.mem_map.1 hk2
      exact e5 y hy
    · constructor
      · intro h
        cases h
      · intro h
        exact absurd e4 (h k e3)

theorem rbtree_upper_bound_largest_le_witness :
    TotalCmp int_compare ∧ Reachable int_compare scenario_tree ∧
      ((∀ it, rbtree_upper_bound scenario_tree 6 = some it →
        ∃ k, rbtree_get_key it = some k ∧ k ∈ rbtree_keys scenario_tree ∧ int_compare k 6 ≤ 0 ∧
          ∀ k2 ∈ rbtree_keys scenario_tree, int_compare k2 6 ≤ 0 → int_compare k2 k ≤ 0) ∧
        (rbtree_upper_bound scenario_tree 6 = none ↔
          ∀ k2 ∈ rbtree_keys scenario_tree, ¬ int_compare k2 6 ≤ 0)) :=
  ⟨int_compare_total, scenario_tree_reachable,
    rbtree_upper_bound_largest_le int_compare int_compare_total scenario_tree
      scenario_tree_reachable 6⟩

/-- C4: in every reachable tree, the walk that starts at `rbtree_begin` and calls
`rbtree_next` until it returns false comes to an end by itself (any visit bound above
`rbtree_size` is enough), visits the stored keys in strictly increasing order under the
compare function, and the number of nodes visited equals `rbtree_size`. -/
theorem rbtree_walk_strictly_increasing (rcomp : K → K → Int) (hc : TotalCmp rcomp)
    (rb : rbtree K V) (hr : Reachable rcomp rb) (fuel : Nat) (hfuel : rbtree_size rb < fuel) :
    ∃ ks, walk_keys fuel (rbtree_begin rb) = some ks ∧ ks = rbtree_keys rb ∧
      ks.Pairwise (fun a b => rcomp a b < 0) ∧ ks.length = rbtree_size rb := by
  obtain ⟨h1, h2, h3, -⟩ := treeInv_of_reachable hc rb hr
  have hlen : (inorder rb.root).length = rbtree_size rb := by
    rw [← size_eq_length _ h1, ← h2]
    rfl
  refine ⟨rbtree_keys rb, ?_, rfl, ?_, ?_⟩
  · rw [walk_keys_spec fuel (rbtree_begin rb) (by rw [remaining_begin, hlen]; exact hfuel),
      remaining_begin]
    rfl
  · simp only [rbtree_keys, List.pairwise_map]
    exact h3
  · simp only [rbtree_keys, List.length_map]
    exact hlen

theorem rbtree_walk_strictly_increasing_witness :
    TotalCmp int_compare ∧ Reachable int_compare scenario_tree ∧ rbtree_size scenario_tree < 8 ∧
      ∃ ks, walk_keys 8 (rbtree_begin scenario_tree) = some ks ∧ ks = rbtree_keys scenario_tree ∧
        ks.Pairwise (fun a b => int_compare a b < 0) ∧ ks.length = rbtree_size scenario_tree :=
  ⟨int_compare_total, scenario_tree_reachable, by decide,
    rbtree_walk_strictly_increasing int_compare int_compare_total scenario_tree
      scenario_tree_reachable 8 (by decide)⟩

/-- C5: round trip. For every reachable tree, key `k` and value `v`: right after
`rbtree_insert k v`, `rbtree_find k` returns a cursor whose value is `v`; and right after a
following `rbtree_erase k`, `rbtree_find k` reports not-found. -/
theorem rbtree_insert_find_erase_roundtrip (rcomp : K → K → Int) (hc : TotalCmp rcomp)
    (rb : rbtree K V) (hr : Reachable rcomp rb) (k : K) (v : V) :
    (∃ it, rbtree_find (rbtree_insert rb k v) k = some it ∧ rbtree_get_value it = some v) ∧
      rbtree_find (rbtree_erase (rbtree_insert rb k v) k) k = none := by
  obtain ⟨-, -, h3, h4⟩ := treeInv_of_reachable hc rb hr
  obtain ⟨s1, k2, hk2, hmem⟩ := rbtree_insert_sorted hc rb k v h4 h3
  have hcmp1 : (rbtree_insert rb k v).compare = rcomp := (rbtree_insert_compare rb k v).trans h4
  obtain ⟨s2, hno⟩ := rbtree_erase_sorted hc (rbtree_insert rb k v) k hcmp1 s1
  have hcmp2 : (rbtree_erase (rbtree_insert rb k v) k).compare = rcomp :=
    (rbtree_erase_compare _ k).trans hcmp1
  constructor
  · obtain ⟨c, l, s, r, hf⟩ := descend_found hc k (rbtree_insert rb k v).root [] s1 k2 v hmem hk2
    simp only [rbtree_find, hcmp1]
    rcases hd : descend rcomp k (rbtree_insert rb k v).root [] with ⟨path, n⟩
    rw [hd] at hf
    simp only at hf
    subst hf
    exact ⟨_, rfl, rfl⟩
  · have hf := @descend_not_found K V rcomp k (rbtree_erase (rbtree_insert rb k v) k).root []
      hno
    simp only [rbtree_find, hcmp2]
    rcases hd : descend rcomp k (rbtree_erase (rbtree_insert rb k v) k).root [] with ⟨path, n⟩
    rw [hd] at hf
    simp only at hf
    subst hf
    rfl

theorem rbtree_insert_find_erase_roundtrip_witness :
    TotalCmp int_compare ∧ Reachable int_compare scenario_tree ∧
      (∃ it, rbtree_find (rbtree_insert scenario_tree 4 77) 4 = some it ∧
        rbtree_get_value it = some 77) ∧
      rbtree_find (rbtree_erase (rbtree_insert scenario_tree 4 77) 4) 4 = none :=
  ⟨int_compare_total, scenario_tree_reachable,
    rbtree_insert_find_erase_roundtrip int_compare int_compare_total scenario_tree
      scenario_tree_reachable 4 77⟩

end RBTree

namespace DList

variable {α : Type}

/-! ## Heap primitives -/

@[simp] theorem ok_bind {β γ : Type} (x : β) (f : β → Except Fault γ) :
    (Except.ok x >>= f) = f x := rfl

@[simp] theorem error_bind {β γ : Type} (e : Fault) (f : β → Except Fault γ) :
    ((Except.error e : Except Fault β) >>= f) = Except.error e := rfl

theorem load_of_cell {h : Heap α} {a : Nat} {nd : list_node α} (hc : h.cells a = some nd) :
    load h (some a) = Except.ok nd := by
  simp [load, hc]

theorem set_next_of_cell {h : Heap α} {a : Nat} {nd : list_node α} (hc : h.cells a = some nd)
    (v : Option Nat) :
    set_next h (some a) v = Except.ok (store h a (list_node.mk nd.data nd.prev v)) := by
  simp [set_next, hc]

theorem set_prev_of_cell {h : Heap α} {a : Nat} {nd : list_node α} (hc : h.cells a = some nd)
    (v : Option Nat) :
    set_prev h (some a) v = Except.ok (store h a (list_node.mk nd.data v nd.next)) := by
  simp [set_prev, hc]

@[simp] theorem store_cells_same (h : Heap α) (a : Nat) (nd : list_node α) :
    (store h a nd).cells a = some nd := by
  simp [store]

theorem store_cells_other (h : Heap α) (a b : Nat) (nd : list_node α) (hne : b ≠ a) :
    (store h a nd).cells b = h.cells b := by
  simp [store, hne]

@[simp] theorem store_brk (h : Heap α) (a : Nat) (nd : list_node α) :
    (store h a nd).brk = h.brk := rfl

/-! ## Chains of cells -/

@[simp] theorem headOr_nil (q : Option Nat) : headOr q ([] : List (Nat × α)) = q := rfl

@[simp] theorem headOr_cons (q : Option Nat) (c : Nat × α) (cs : List (Nat × α)) :
    headOr q (c :: cs) = some c.1 := rfl

@[simp] theorem lastOr_nil (p : Option Nat) : lastOr p ([] : List (Nat × α)) = p := rfl

@[simp] theorem lastOr_cons (p : Option Nat) (c : Nat × α) (cs : List (Nat × α)) :
    lastOr p (c :: cs) = lastOr (some c.1) cs := rfl

theorem headOr_append (q : Option Nat) (a b : List (Nat × α)) :
    headOr q (a ++ b) = headOr (headOr q b) a := by
  cases a <;> rfl

theorem lastOr_append (p : Option Nat) (a b : List (Nat × α)) :
    lastOr p (a ++ b) = lastOr (lastOr p a) b := by
  induction a generalizing p with
  | nil => rfl
  | cons c a ih => simp [ih]

@[simp] theorem lastOr_snoc (p : Option Nat) (a : List (Nat × α)) (c : Nat × α) :
    lastOr p (a ++ [c]) = some c.1 := by
  simp [lastOr_append]

theorem headOr_eq_none (cs : List (Nat × α)) : headOr none cs = none ↔ cs = [] := by
  cases cs <;> simp

theorem lastOr_ne_nil (p : Option Nat) (c : Nat × α) (cs : List (Nat × α)) :
    ∃ a, lastOr p (c :: cs) = some a ∧ a ∈ addrs (c :: cs) := by
  induction cs generalizing p c with
  | nil => exact ⟨c.1, rfl, by simp [addrs]⟩
  | cons d cs ih =>
    obtain ⟨a, h1, h2⟩ := ih (some c.1) d
    exact ⟨a, h1, by simp only [addrs, List.map_cons, List.mem_cons] at h2 ⊢; exact Or.inr h2⟩

theorem lastOr_eq_none (cs : List (Nat × α)) : lastOr none cs = none ↔ cs = [] := by
  cases cs with
  | nil => simp
  | cons c cs =>
    obtain ⟨a, h1, -⟩ := lastOr_ne_nil none c cs
    simp [h1]

theorem fwd_append (h : Heap α) (a b : List (Nat × α)) (q : Option Nat) :
    Fwd h (a ++ b) q ↔ Fwd h a (headOr q b) ∧ Fwd h b q := by
  induction a with
  | nil => simp [Fwd]
  | cons c a ih =>
    show Fwd h (c :: (a ++ b)) q ↔ _
    simp only [Fwd, ih, headOr_append, and_assoc]

theorem bwd_append (h : Heap α) (p : Option Nat) (a b : List (Nat × α)) :
    Bwd h p (a ++ b) ↔ Bwd h p a ∧ Bwd h (lastOr p a) b := by
  induction a generalizing p with
  | nil => simp [Bwd]
  | cons c a ih =>
    show Bwd h p (c :: (a ++ b)) ↔ _
    simp only [Bwd, ih, lastOr_cons, and_assoc]

/-- Heap `h2` keeps the datum and the `next` pointer of every live node among `cs`. -/
theorem fwd_congr {h h2 : Heap α} {cs : List (Nat × α)} {q : Option Nat}
    (hk : ∀ c ∈ cs, ∀ nd, h.cells c.1 = some nd →
      ∃ nd2, h2.cells c.1 = some nd2 ∧ nd2.data = nd.data ∧ nd2.next = nd.next)
    (hf : Fwd h cs q) : Fwd h2 cs q := by
  induction cs with
  | nil => trivial
  | cons c cs ih =>
    obtain ⟨⟨nd, h1, h2', h3⟩, h4⟩ := hf
    obtain ⟨nd2, g1, g2, g3⟩ := hk c (List.mem_cons_self _ _) nd h1
    exact ⟨⟨nd2, g1, g2.trans h2', g3.trans h3⟩,
      ih (fun d hd => hk d (List.mem_cons_of_mem _ hd)) h4⟩

/-- Heap `h2` keeps the datum and the `prev` pointer of every live node among `cs`. -/
theorem bwd_congr {h h2 : Heap α} {cs : List (Nat × α)} {p : Option Nat}
    (hk : ∀ c ∈ cs, ∀ nd, h.cells c.1 = some nd →
      ∃ nd2, h2.cells c.1 = some nd2 ∧ nd2.data = nd.data ∧ nd2.prev = nd.prev)
    (hf : Bwd h p cs) : Bwd h2 p cs := by
  induction cs generalizing p with
  | nil => trivial
  | cons c cs ih =>
    obtain ⟨⟨nd, h1, h2', h3⟩, h4⟩ := hf
    obtain ⟨nd2, g1, g2, g3⟩ := hk c (List.mem_cons_self _ _) nd h1
    exact ⟨⟨nd2, g1, g2.trans h2', g3.trans h3⟩,
      ih (fun d hd => hk d (List.mem_cons_of_mem _ hd)) h4⟩

theorem fwd_frame {h h2 : Heap α} {cs : List (Nat × α)} {q : Option Nat}
    (hk : ∀ a ∈ addrs cs, h2.cells a = h.cells a) (hf : Fwd h cs q) : Fwd h2 cs q :=
  fwd_congr (fun c hc nd hnd =>
    ⟨nd, by rw [hk c.1 (List.mem_map_of_mem _ hc)]; exact hnd, rfl, rfl⟩) hf

theorem bwd_frame {h h2 : Heap α} {cs : List (Nat × α)} {p : Option Nat}
    (hk : ∀ a ∈ addrs cs, h2.cells a = h.cells a) (hf : Bwd h p cs) : Bwd h2 p cs :=
  bwd_congr (fun c hc nd hnd =>
    ⟨nd, by rw [hk c.1 (List.mem_map_of_mem _ hc)]; exact hnd, rfl, rfl⟩) hf

theorem fwd_cell {h : Heap α} {cs : List (Nat × α)} {q : Option Nat} (hf : Fwd h cs q)
    {c : Nat × α} (hc : c ∈ cs) : ∃ nd, h.cells c.1 = some nd ∧ nd.data = c.2 := by
  induction cs with
  | nil => cases hc
  | cons d cs ih =>
    rcases List.mem_cons.1 hc with rfl | hc
    · obtain ⟨nd, h1, h2, -⟩ := hf.1
      exact ⟨nd, h1, h2⟩
    · exact ih hf.2 hc

end DList

namespace DList

variable {α : Type}

/-! ## Single writes -/

theorem fwd_store_prev {h : Heap α} {a : Nat} {nd : list_node α} (hc : h.cells a = some nd)
    (v : Option Nat) {cs : List (Nat × α)} {q : Option Nat} (hf : Fwd h cs q) :
    Fwd (store h a (list_node.mk nd.data v nd.next)) cs q := by
  refine fwd_congr (fun c _ nd1 h1 => ?_) hf
  by_cases hca : c.1 = a
  · rw [hca] at h1 ⊢
    rw [hc] at h1
    cases h1
    exact ⟨_, store_cells_same _ _ _, rfl, rfl⟩
  · exact ⟨nd1, by rw [store_cells_other _ _ _ _ hca]; exact h1, rfl, rfl⟩

theorem bwd_store_next {h : Heap α} {a : Nat} {nd : list_node α} (hc : h.cells a = some nd)
    (v : Option Nat) {cs : List (Nat × α)} {p : Option Nat} (hf : Bwd h p cs) :
    Bwd (store h a (list_node.mk nd.data nd.prev v)) p cs := by
  refine bwd_congr (fun c _ nd1 h1 => ?_) hf
  by_cases hca : c.1 = a
  · rw [hca] at h1 ⊢
    rw [hc] at h1
    cases h1
    exact ⟨_, store_cells_same _ _ _, rfl, rfl⟩
  · exact ⟨nd1, by rw [store_cells_other _ _ _ _ hca]; exact h1, rfl, rfl⟩

theorem fwd_store_last {h : Heap α} {a : List (Nat × α)} {c : Nat × α} {q : Option Nat}
    {nd : list_node α} (hf : Fwd h (a ++ [c]) q) (hn : c.1 ∉ addrs a)
    (hc : h.cells c.1 = some nd) (v : Option Nat) :
    Fwd (store h c.1 (list_node.mk nd.data nd.prev v)) (a ++ [c]) v := by
  rw [fwd_append] at hf ⊢
  obtain ⟨h1, ⟨nd1, g1, g2, -⟩, -⟩ := hf
  rw [hc] at g1
  cases g1
  refine ⟨fwd_frame (fun b hb => store_cells_other _ _ _ _ ?_) h1,
    ⟨_, store_cells_same _ _ _, g2, rfl⟩, trivial⟩
  rintro rfl
  exact hn hb

theorem bwd_store_first {h : Heap α} {b : List (Nat × α)} {c : Nat × α} {p : Option Nat}
    {nd : list_node α} (hf : Bwd h p (c :: b)) (hn : c.1 ∉ addrs b)
    (hc : h.cells c.1 = some nd) (v : Option Nat) :
    Bwd (store h c.1 (list_node.mk nd.data v nd.next)) v (c :: b) := by
  obtain ⟨⟨nd1, g1, g2, -⟩, h1⟩ := hf
  rw [hc] at g1
  cases g1
  refine ⟨⟨_, store_cells_same _ _ _, g2, rfl⟩,
    bwd_frame (fun a ha => store_cells_other _ _ _ _ ?_) h1⟩
  rintro rfl
  exact hn ha

theorem exists_snoc_of_lastOr {cs : List (Nat × α)} {b : Nat} (h : lastOr none cs = some b) :
    ∃ a c, cs = a ++ [c] ∧ c.1 = b := by
  rcases List.eq_nil_or_concat cs with rfl | ⟨a, c, rfl⟩
  · cases h
  · refine ⟨a, c, by simp, ?_⟩
    simpa using h

theorem exists_cons_of_headOr {cs : List (Nat × α)} {f : Nat} (h : headOr none cs = some f) :
    ∃ c b, cs = c :: b ∧ c.1 = f := by
  cases cs with
  | nil => cases h
  | cons c b => exact ⟨c, b, rfl, by simpa using h⟩

/-! ## `__list_insert_back` and `__list_insert_front` -/

/-- Running `__list_insert_back` on a list whose `next` chain is `out`: the node `n` is
appended, keeping its own `next` pointer; nodes outside `out` and other than `n` are untouched. -/
theorem insert_back_spec {h : Heap α} {l : list_t α} {out : List (Nat × α)} {q0 : Option Nat}
    {n : Nat} {nd : list_node α} (hf : Fwd h out q0) (hfront : l.front = headOr none out)
    (hback : l.back = lastOr none out) (hnd : (addrs out).Nodup) (hn : n ∉ addrs out)
    (hc : h.cells n = some nd) :
    ∃ h2 l2, __list_insert_back h l n = Except.ok (h2, l2) ∧
      Fwd h2 (out ++ [(n, nd.data)]) nd.next ∧
      (∀ p, Bwd h p out → (out = [] → nd.prev = p) → Bwd h2 p (out ++ [(n, nd.data)])) ∧
      l2.front = headOr none (out ++ [(n, nd.data)]) ∧ l2.back = some n ∧
      l2.size = size_inc l.size ∧ l2.list_comp = l.list_comp ∧ h2.brk = h.brk ∧
      (∀ a, a ∉ addrs out → a ≠ n → h2.cells a = h.cells a) ∧
      (∀ a, h.cells a = none → h2.cells a = none) := by
  rcases List.eq_nil_or_concat out with rfl | ⟨a, c, rfl⟩
  · simp only [lastOr_nil, headOr_nil] at hback hfront
    refine ⟨h, list_t.mk (size_inc l.size) (some n) (some n) l.list_comp,
      by simp [__list_insert_back, hback], ?_, ?_, rfl, rfl, rfl, rfl, rfl,
      fun _ _ _ => rfl, fun _ ha => ha⟩
    · exact ⟨⟨nd, hc, rfl, rfl⟩, trivial⟩
    · intro p _ hp
      exact ⟨⟨nd, hc, rfl, hp rfl⟩, trivial⟩
  · have hsn : a.concat c = a ++ [c] := by simp
    rw [hsn] at hf hfront hback hnd hn ⊢
    simp only [lastOr_snoc] at hback
    obtain ⟨ndc, hcc, -⟩ := fwd_cell hf (c := c) (by simp)
    have hne : n ≠ c.1 := by
      rintro rfl
      exact hn (by simp [addrs])
    have hca : c.1 ∉ addrs a := by
      simp only [addrs, List.map_append, List.map_cons, List.map_nil] at hnd
      have := List.nodup_append.1 hnd
      intro hmem
      exact this.2.2 hmem (by simp)
    have hc1 : (store h c.1 (list_node.mk ndc.data ndc.prev (some n))).cells n = some nd := by
      rw [store_cells_other _ _ _ _ hne]; exact hc
    refine ⟨store (store h c.1 (list_node.mk ndc.data ndc.prev (some n))) n
        (list_node.mk nd.data (some c.1) nd.next),
      list_t.mk (size_inc l.size) l.front (some n) l.list_comp,
      ?_, ?_, ?_, ?_, rfl, rfl, rfl, rfl, ?_, ?_⟩
    · simp [__list_insert_back, hback, set_next_of_cell hcc, set_prev_of_cell hc1]
    · rw [fwd_append]
      refine ⟨?_, ⟨_, store_cells_same _ _ _, rfl, rfl⟩, trivial⟩
      exact fwd_store_prev hc1 _ (fwd_store_last hf hca hcc (some n))
    · intro p hb _
      rw [bwd_append]
      refine ⟨?_, ⟨_, store_cells_same _ _ _, rfl, by simp⟩, trivial⟩
      refine bwd_frame (fun b hb2 => ?_) (bwd_store_next hcc (some n) hb)
      rw [store_cells_other]
      rintro rfl
      exact hn hb2
    · simp [hfront, headOr_append]
    · intro b hb1 hb2
      rw [store_cells_other _ _ _ _ hb2, store_cells_other]
      rintro rfl
      exact hb1 (by simp [addrs])
    · intro b hb
      have h1 : b ≠ n := by rintro rfl; rw [hc] at hb; cases hb
      have h2 : b ≠ c.1 := by rintro rfl; rw [hcc] at hb; cases hb
      rw [store_cells_other _ _ _ _ h1, store_cells_other _ _ _ _ h2]
      exact hb

end DList

namespace DList

variable {α : Type}

/-! ## The reference merge -/

@[simp] theorem merge_by_nil_left {β : Type} (lt : β → β → Bool) (ys : List β) :
    merge_by lt [] ys = ys := rfl

@[simp] theorem merge_by_nil_right {β : Type} (lt : β → β → Bool) (xs : List β) :
    merge_by lt xs [] = xs := by
  induction xs with
  | nil => rfl
  | cons x xs ih => simp [merge_by, merge_insert, ih]

theorem merge_by_cons_cons {β : Type} (lt : β → β → Bool) (x y : β) (xs ys : List β) :
    merge_by lt (x :: xs) (y :: ys) =
      if lt x y then x :: merge_by lt xs (y :: ys) else y :: merge_by lt (x :: xs) ys := by
  simp [merge_by, merge_insert]

theorem merge_by_map {β γ : Type} (f : β → γ) (lt : γ → γ → Bool) (xs ys : List β) :
    (merge_by (fun a b => lt (f a) (f b)) xs ys).map f = merge_by lt (xs.map f) (ys.map f) := by
  induction xs generalizing ys with
  | nil => rfl
  | cons x xs ihx =>
    induction ys with
    | nil => simp
    | cons y ys ihy =>
      simp only [List.map_cons, merge_by_cons_cons] at ihy ⊢
      split_ifs
      · simp [ihx]
      · simp [ihy]

theorem merge_by_length {β : Type} (lt : β → β → Bool) (xs ys : List β) :
    (merge_by lt xs ys).length = xs.length + ys.length := by
  induction xs generalizing ys with
  | nil => simp
  | cons x xs ihx =>
    induction ys with
    | nil => simp
    | cons y ys ihy =>
      rw [merge_by_cons_cons]
      split_ifs
      · simp [ihx]; omega
      · simp [ihy]; omega

theorem merge_by_sublist_left {β : Type} (lt : β → β → Bool) (xs ys : List β) :
    List.Sublist xs (merge_by lt xs ys) := by
  induction xs generalizing ys with
  | nil => simp
  | cons x xs ihx =>
    induction ys with
    | nil => simp
    | cons y ys ihy =>
      rw [merge_by_cons_cons]
      split_ifs
      · exact (ihx _).cons₂ x
      · exact ihy.cons y

theorem merge_by_sublist_right {β : Type} (lt : β → β → Bool) (xs ys : List β) :
    List.Sublist ys (merge_by lt xs ys) := by
  induction xs generalizing ys with
  | nil => simp
  | cons x xs ihx =>
    induction ys with
    | nil => simp
    | cons y ys ihy =>
      rw [merge_by_cons_cons]
      split_ifs
      · exact (ihx _).cons x
      · exact ihy.cons₂ y

theorem merge_by_perm {β : Type} (lt : β → β → Bool) (xs ys : List β) :
    List.Perm (merge_by lt xs ys) (xs ++ ys) := by
  induction xs generalizing ys with
  | nil => simp
  | cons x xs ihx =>
    induction ys with
    | nil => simp
    | cons y ys ihy =>
      rw [merge_by_cons_cons]
      split_ifs
      · exact (ihx _).cons x
      · exact (ihy.cons y).trans (List.perm_middle.symm)

theorem merge_by_sorted {comp : α → α → Int} (hc : TotalComp comp) (xs ys : List α)
    (hx : SortedBy comp xs) (hy : SortedBy comp ys) :
    SortedBy comp (merge_by (fun a b => decide (comp a b < 0)) xs ys) := by
  induction xs generalizing ys with
  | nil => simpa using hy
  | cons x xs ihx =>
    induction ys with
    | nil => simpa using hx
    | cons y ys ihy =>
      rw [merge_by_cons_cons]
      simp only [SortedBy, List.pairwise_cons] at hx hy
      split_ifs with hlt
      · simp only [decide_eq_true_eq] at hlt
        simp only [SortedBy, List.pairwise_cons]
        refine ⟨?_, ihx _ hx.2 (by simpa [SortedBy] using hy)⟩
        intro z hz
        rcases List.mem_append.1 ((merge_by_perm _ xs (y :: ys)).subset hz) with hz | hz
        · exact hx.1 z hz
        · rcases List.mem_cons.1 hz with rfl | hz
          · omega
          · exact hc.le_trans _ _ _ (by omega) (hy.1 z hz)
      · simp only [decide_eq_true_eq] at hlt
        have hyx : comp y x ≤ 0 := by
          have := hc.antisymm y x
          have := hc.antisymm x y
          omega
        simp only [SortedBy, List.pairwise_cons]
        refine ⟨?_, ihy hy.2⟩
        intro z hz
        rcases List.mem_append.1 ((merge_by_perm _ (x :: xs) ys).subset hz) with hz | hz
        · rcases List.mem_cons.1 hz with rfl | hz
          · exact hyx
          · exact hc.le_trans _ _ _ hyx (hx.1 z hz)
        · exact hy.1 z hz

end DList

namespace DList

variable {α : Type}

/-! ## `list_merge` -/

theorem size_inc_of_lt {n : Nat} (h : n + 1 < SIZE_MODULUS) : size_inc n = n + 1 := by
  unfold size_inc
  exact Nat.mod_eq_of_lt h

theorem size_dec_of_pos {n : Nat} (h0 : 0 < n) (h : n < SIZE_MODULUS) : size_dec n = n - 1 := by
  unfold size_dec
  have h2 : n + (SIZE_MODULUS - 1) = (n - 1) + SIZE_MODULUS := by omega
  rw [h2, Nat.add_mod_right]
  exact Nat.mod_eq_of_lt (by omega)

theorem nodup_addrs_perm {a b : List (Nat × α)} (hp : List.Perm a b) (h : (addrs a).Nodup) :
    (addrs b).Nodup :=
  (List.Perm.nodup_iff (List.Perm.map Prod.fst hp)).1 h

theorem lastOr_of_ne_nil (p q : Option Nat) {cs : List (Nat × α)} (h : cs ≠ []) :
    lastOr p cs = lastOr q cs := by
  cases cs with
  | nil => exact absurd rfl h
  | cons c cs => rfl

theorem lastOr_suffix (p : Option Nat) {u r : List (Nat × α)} (hs : u <:+ r) (h : u ≠ []) :
    lastOr p u = lastOr p r := by
  obtain ⟨pre, rfl⟩ := hs
  rw [lastOr_append]
  exact lastOr_of_ne_nil _ _ h

theorem iterate_size_dec {k n : Nat} (hk : k ≤ n) (hn : n < SIZE_MODULUS) :
    Nat.iterate size_dec k n = n - k := by
  induction k generalizing n with
  | zero => rfl
  | succ k ih =>
    rw [Function.iterate_succ, Function.comp_apply, size_dec_of_pos (by omega) hn,
      ih (by omega) (by omega)]
    omega

theorem iterate_size_inc {k n : Nat} (hn : n + k < SIZE_MODULUS) :
    Nat.iterate size_inc k n = n + k := by
  induction k generalizing n with
  | zero => rfl
  | succ k ih =>
    rw [Function.iterate_succ, Function.comp_apply, size_inc_of_lt (by omega),
      ih (by omega)]
    omega

theorem iterate_sub_self (f : Nat → Nat) (n x : Nat) : Nat.iterate f (n - n) x = x := by
  rw [Nat.sub_self]
  rfl

theorem iterate_shift (f : Nat → Nat) {u t : Nat} (hle : u ≤ t) (x : Nat) :
    Nat.iterate f (t + 1 - u) x = Nat.iterate f (t - u) (f x) := by
  rw [Nat.sub_add_comm hle, Function.iterate_succ_apply]

/-- The `while` loop of `list_merge`: started with `out` already built and the two `next`
chains `r1`, `r2` still to merge, it returns with a stretch `m` moved to the result and the
chains `t1`, `t2` left over, one of them empty, where `m ++ t1 ++ t2` is the reference merge
of `r1` and `r2`. -/
theorem merge_loop_spec (fuel : Nat) (st : merge_state α) (out r1 r2 : List (Nat × α))
    (q0 : Option Nat)
    (hout : Fwd st.heap out q0) (hfront : st.list.front = headOr none out)
    (hback : st.list.back = lastOr none out)
    (h1 : Fwd st.heap r1 none) (h2 : Fwd st.heap r2 none)
    (hnd : (addrs (out ++ (r1 ++ r2))).Nodup)
    (hi1 : st.iter1 = headOr none r1) (hi2 : st.iter2 = headOr none r2)
    (hfuel : r1.length + r2.length ≤ fuel) :
    ∃ st2 m t1 t2 q2, merge_loop fuel st = Except.ok st2 ∧
      m ++ (t1 ++ t2) =
        merge_by (fun a b => decide (st.list.list_comp a.2 b.2 < 0)) r1 r2 ∧
      (t1 = [] ∨ t2 = []) ∧ (r1 ≠ [] → r2 ≠ [] → m ≠ []) ∧
      (r1 ≠ [] ∨ r2 ≠ [] → t1 ≠ [] ∨ t2 ≠ []) ∧
      Fwd st2.heap (out ++ m) q2 ∧ Fwd st2.heap t1 none ∧ Fwd st2.heap t2 none ∧
      st2.list.front = headOr none (out ++ m) ∧ st2.list.back = lastOr none (out ++ m) ∧
      st2.iter1 = headOr none t1 ∧ st2.iter2 = headOr none t2 ∧
      st2.list.size = Nat.iterate size_inc m.length st.list.size ∧
      st2.size1 = Nat.iterate size_dec (r1.length - t1.length) st.size1 ∧
      st2.size2 = Nat.iterate size_dec (r2.length - t2.length) st.size2 ∧
      st2.list.list_comp = st.list.list_comp ∧ t1 <:+ r1 ∧ t2 <:+ r2 ∧
      st2.heap.brk = st.heap.brk ∧ (∀ a, st.heap.cells a = none → st2.heap.cells a = none) := by
  induction fuel generalizing st out r1 r2 q0 with
  | zero =>
    have e1 : r1 = [] := List.length_eq_zero.1 (by omega)
    have e2 : r2 = [] := List.length_eq_zero.1 (by omega)
    subst e1 e2
    refine ⟨st, [], [], [], q0, ?_, by simp, Or.inl rfl, fun h => absurd rfl h, by simp,
      by simpa using hout, trivial, trivial, by simpa using hfront, by simpa using hback, hi1,
      hi2, rfl, (iterate_sub_self _ _ _).symm,
      (iterate_sub_self _ _ _).symm, rfl, List.suffix_refl _, List.suffix_refl _, rfl,
      fun _ ha => ha⟩
    rw [merge_loop]
    simp [hi1]
  | succ fuel ih =>
    cases r1 with
    | nil =>
      refine ⟨st, [], [], r2, q0, ?_, by simp, Or.inl rfl, fun h => absurd rfl h, by simp,
        by simpa using hout, trivial, h2, by simpa using hfront, by simpa using hback, hi1, hi2,
        rfl, (iterate_sub_self _ _ _).symm,
      (iterate_sub_self _ _ _).symm, rfl, List.suffix_refl _, List.suffix_refl _, rfl,
        fun _ ha => ha⟩
      rw [merge_loop]
      simp [hi1]
    | cons c1 t1 =>
      cases r2 with
      | nil =>
        refine ⟨st, [], c1 :: t1, [], q0, ?_, by simp, Or.inr rfl, fun _ h => absurd rfl h,
          by simp, by simpa using hout, h1, trivial, by simpa using hfront,
          by simpa using hback, hi1, hi2, rfl, (iterate_sub_self _ _ _).symm,
      (iterate_sub_self _ _ _).symm, rfl,
          List.suffix_refl _, List.suffix_refl _, rfl, fun _ ha => ha⟩
        rw [merge_loop]
        simp [hi1, hi2]
      | cons c2 t2 =>
        obtain ⟨a1, d1⟩ := c1
        obtain ⟨a2, d2⟩ := c2
        obtain ⟨⟨n1, hc1, hd1, hn1⟩, h1t⟩ := h1
        obtain ⟨⟨n2, hc2, hd2, hn2⟩, h2t⟩ := h2
        simp only at hc1 hd1 hc2 hd2
        subst hd1 hd2
        simp only [List.length_cons] at hfuel
        have hnd' : (List.map Prod.fst out ++
            (a1 :: (List.map Prod.fst t1 ++ a2 :: List.map Prod.fst t2))).Nodup := by
          simpa [addrs] using hnd
        have hnd0 := List.nodup_append.1 hnd'
        have hnd1 := List.nodup_cons.1 hnd0.2.1
        have hnd2 := List.nodup_append.1 hnd1.2
        have hnd3 := List.nodup_cons.1 hnd2.2.1
        rw [merge_by_cons_cons]
        by_cases hlt : st.list.list_comp n1.data n2.data < 0
        · obtain ⟨hB, lB, e0, e1, -, e3, e4, e5, e6, e7, e8, e9⟩ :=
            insert_back_spec hout hfront hback hnd0.1
              (fun hm => hnd0.2.2 hm (List.mem_cons_self _ _)) hc1
          have hstep : merge_loop (fuel + 1) st =
              merge_loop fuel (merge_state.mk hB lB (size_dec st.size1) st.size2 n1.next
                (some a2)) := by
            rw [merge_loop]
            simp [hi1, hi2, load_of_cell hc1, load_of_cell hc2, hlt, e0]
          have hframe : ∀ a, a ∈ List.map Prod.fst t1 ++ a2 :: List.map Prod.fst t2 →
              hB.cells a = st.heap.cells a := by
            intro a ha
            apply e8
            · intro hm
              exact hnd0.2.2 hm (List.mem_cons_of_mem _ ha)
            · rintro rfl
              exact hnd1.1 ha
          obtain ⟨st2, m, u1, u2, q2, g0, g1, g2, g3, g4, g5, g6, g7, g8, g9, g10, g11, g12,
              g13, g14, g15, g16, g17, g18, g19⟩ :=
            ih (merge_state.mk hB lB (size_dec st.size1) st.size2 n1.next (some a2))
              (out ++ [(a1, n1.data)]) t1 ((a2, n2.data) :: t2) n1.next e1 e3
              (by simp only [lastOr_snoc]; exact e4)
              (fwd_frame (fun a ha => hframe a (List.mem_append_left _ ha)) h1t)
              (fwd_frame (fun a ha => hframe a (List.mem_append_right _ ha))
                (show Fwd st.heap ((a2, n2.data) :: t2) none from ⟨⟨n2, hc2, rfl, hn2⟩, h2t⟩))
              (by simpa [addrs] using hnd')
              hn1 rfl (by simp only [List.length_cons]; omega)
          refine ⟨st2, (a1, n1.data) :: m, u1, u2, q2, hstep.trans g0, ?_, g2,
            fun _ _ => by simp, fun _ => g4 (Or.inr (by simp)),
            by simpa using g5, g6, g7, by simpa using g8, by simpa using g9, g10, g11, ?_, ?_,
            g14, g15.trans e6, g16.trans (List.suffix_cons _ _), g17, g18.trans e7,
            fun a ha => g19 a (e9 a ha)⟩
          · simp only [decide_eq_true hlt, if_true, List.cons_append]
            rw [g1]
            simp only [e6]
          · show st2.list.size = Nat.iterate size_inc (m.length + 1) st.list.size
            rw [Function.iterate_succ_apply, ← e5]
            exact g12
          · show st2.size1 = Nat.iterate size_dec (t1.length + 1 - u1.length) st.size1
            rw [iterate_shift size_dec g16.length_le]
            exact g13
        · obtain ⟨hB, lB, e0, e1, -, e3, e4, e5, e6, e7, e8, e9⟩ :=
            insert_back_spec hout hfront hback hnd0.1
              (fun hm => hnd0.2.2 hm
                (List.mem_cons_of_mem _ (List.mem_append_right _ (List.mem_cons_self _ _)))) hc2
          have hstep : merge_loop (fuel + 1) st =
              merge_loop fuel (merge_state.mk hB lB st.size1 (size_dec st.size2) (some a1)
                n2.next) := by
            rw [merge_loop]
            simp [hi1, hi2, load_of_cell hc1, load_of_cell hc2, hlt, e0]
          have hframe : ∀ a, a ∈ a1 :: List.map Prod.fst t1 ++ List.map Prod.fst t2 →
              hB.cells a = st.heap.cells a := by
            intro a ha
            have ha' : a ∈ a1 :: (List.map Prod.fst t1 ++ a2 :: List.map Prod.fst t2) := by
              simp only [List.cons_append, List.mem_cons, List.mem_append] at ha ⊢
              tauto
            apply e8
            · intro hm
              exact hnd0.2.2 hm ha'
            · rintro rfl
              simp only [List.cons_append, List.mem_cons, List.mem_append] at ha
              rcases ha with rfl | ha | ha
              · exact hnd1.1 (List.mem_append_right _ (List.mem_cons_self _ _))
              · exact hnd2.2.2 ha (List.mem_cons_self _ _)
              · exact hnd3.1 ha
          obtain ⟨st2, m, u1, u2, q2, g0, g1, g2, g3, g4, g5, g6, g7, g8, g9, g10, g11, g12,
              g13, g14, g15, g16, g17, g18, g19⟩ :=
            ih (merge_state.mk hB lB st.size1 (size_dec st.size2) (some a1) n2.next)
              (out ++ [(a2, n2.data)]) ((a1, n1.data) :: t1) t2 n2.next e1 e3
              (by simp only [lastOr_snoc]; exact e4)
              (fwd_frame (fun a ha => hframe a (List.mem_append_left _ ha))
                (show Fwd st.heap ((a1, n1.data) :: t1) none from ⟨⟨n1, hc1, rfl, hn1⟩, h1t⟩))
              (fwd_frame (fun a ha => hframe a (List.mem_append_right _ ha)) h2t)
              (by
                have hp : List.Perm (out ++ ((a1, n1.data) :: t1 ++ (a2, n2.data) :: t2))
                    (out ++ [(a2, n2.data)] ++ ((a1, n1.data) :: t1 ++ t2)) := by
                  rw [List.append_assoc]
                  apply List.Perm.append_left
                  simp only [List.singleton_append]
                  exact List.perm_middle
                exact nodup_addrs_perm hp hnd)
              rfl hn2 (by simp only [List.length_cons]; omega)
          refine ⟨st2, (a2, n2.data) :: m, u1, u2, q2, hstep.trans g0, ?_, g2,
            fun _ _ => by simp, fun _ => g4 (Or.inl (by simp)),
            by simpa using g5, g6, g7, by simpa using g8, by simpa using g9, g10, g11, ?_, g13,
            ?_, g15.trans e6, g16, g17.trans (List.suffix_cons _ _), g18.trans e7,
            fun a ha => g19 a (e9 a ha)⟩
          · simp only [decide_eq_false hlt, List.cons_append]
            rw [g1]
            simp [e6]
          · show st2.list.size = Nat.iterate size_inc (m.length + 1) st.list.size
            rw [Function.iterate_succ_apply, ← e5]
            exact g12
          · show st2.size2 = Nat.iterate size_dec (t2.length + 1 - u2.length) st.size2
            rw [iterate_shift size_dec g17.length_le]
            exact g14

end DList

namespace DList

variable {α : Type}

theorem walk_next_of_fwd {h : Heap α} {cs : List (Nat × α)} (hf : Fwd h cs none) (fuel : Nat)
    (hfuel : cs.length ≤ fuel) : walk_next h fuel (headOr none cs) = Except.ok (datas cs) := by
  induction cs generalizing fuel with
  | nil => cases fuel <;> rfl
  | cons c cs ih =>
    obtain ⟨⟨nd, h1, h2, h3⟩, h4⟩ := hf
    cases fuel with
    | zero => simp at hfuel
    | succ fuel =>
      simp only [List.length_cons] at hfuel
      simp only [headOr_cons, walk_next, load_of_cell h1, h3, ih h4 fuel (by omega), ok_bind]
      simp [datas, h2]

/-- Running `list_merge` on two non-empty chains of `next` links over disjoint nodes: it
returns, and walking `next` links from the front of the result visits the reference merge of
the two chains. The `back` pointer of the result is right when those of the inputs are, and
its `size` is the sum of the lengths when the `size` fields of the inputs are the lengths. -/
theorem list_merge_spec (fuel : Nat) (h : Heap α) (l1 l2 : list_t α) (xs ys : List (Nat × α))
    (hx : Fwd h xs none) (hy : Fwd h ys none)
    (hf1 : l1.front = headOr none xs) (hf2 : l2.front = headOr none ys)
    (hnd : (addrs (xs ++ ys)).Nodup) (hne1 : xs ≠ []) (hne2 : ys ≠ [])
    (hfuel : xs.length + ys.length ≤ fuel) :
    ∃ h2 l, list_merge fuel h l1 l2 = Except.ok (h2, l) ∧
      Fwd h2 (merge_by (fun a b => decide (l1.list_comp a.2 b.2 < 0)) xs ys) none ∧
      l.front = headOr none (merge_by (fun a b => decide (l1.list_comp a.2 b.2 < 0)) xs ys) ∧
      (l1.back = lastOr none xs → l2.back = lastOr none ys →
        l.back = lastOr none (merge_by (fun a b => decide (l1.list_comp a.2 b.2 < 0)) xs ys)) ∧
      (l1.size = xs.length → l2.size = ys.length → xs.length + ys.length < SIZE_MODULUS →
        l.size = xs.length + ys.length) ∧
      l.list_comp = l1.list_comp ∧ h2.brk = h.brk ∧
      (∀ a, h.cells a = none → h2.cells a = none) := by
  obtain ⟨st2, m, t1, t2, q2, g0, g1, g2, g3, g4, g5, g6, g7, g8, g9, g10, g11, g12, g13, g14,
      g15, g16, g17, g18, g19⟩ :=
    merge_loop_spec fuel (merge_state.mk h (list_init l1.list_comp) l1.size l2.size l1.front
      l2.front) [] xs ys none trivial rfl rfl hx hy (by simpa using hnd) hf1 hf2 hfuel
  simp only [List.nil_append] at g5 g8 g9
  dsimp only [list_init] at g1 g12 g13 g14 g15 g18 g19
  have hm : m ≠ [] := g3 hne1 hne2
  have hrem := g4 (Or.inl hne1)
  have hndm : (addrs (m ++ (t1 ++ t2))).Nodup := by
    rw [g1]
    exact nodup_addrs_perm (merge_by_perm _ xs ys).symm hnd
  obtain ⟨m0, c, rfl⟩ : ∃ m0 c, m = m0 ++ [c] := by
    rcases List.eq_nil_or_concat m with rfl | ⟨m0, c, rfl⟩
    · exact absurd rfl hm
    · exact ⟨m0, c, by simp⟩
  obtain ⟨ndc, hcc, -⟩ := fwd_cell g5 (c := c) (by simp)
  have hlen : (m0 ++ [c] ++ (t1 ++ t2)).length = xs.length + ys.length := by
    rw [g1, merge_by_length]
  simp only [lastOr_snoc] at g9
  have hcm0 : c.1 ∉ addrs m0 := by
    simp only [addrs, List.map_append, List.map_cons, List.map_nil] at hndm
    have h1 := (List.nodup_append.1 hndm).1
    have h2 := List.nodup_append.1 h1
    intro hmem
    exact h2.2.2 hmem (by simp)
  have hct : c.1 ∉ addrs (t1 ++ t2) := by
    simp only [addrs, List.map_append, List.map_cons, List.map_nil] at hndm ⊢
    have h1 := (List.nodup_append.1 hndm).2.2
    intro hmem
    exact h1 (by simp) hmem
  have hfin : ∀ v, Fwd (store st2.heap c.1 (list_node.mk ndc.data ndc.prev v)) (m0 ++ [c]) v :=
    fun v => fwd_store_last g5 hcm0 hcc v
  have hfr : ∀ v (t : List (Nat × α)), (∀ a ∈ addrs t, a ∈ addrs (t1 ++ t2)) →
      Fwd st2.heap t none → Fwd (store st2.heap c.1 (list_node.mk ndc.data ndc.prev v)) t none := by
    intro v t ht hft
    refine fwd_frame (fun a ha => store_cells_other _ _ _ _ ?_) hft
    rintro rfl
    exact hct (ht _ ha)
  have hnone : ∀ v a, h.cells a = none →
      (store st2.heap c.1 (list_node.mk ndc.data ndc.prev v)).cells a = none := by
    intro v a ha
    have h1 := g19 a ha
    have h2 : a ≠ c.1 := by rintro rfl; rw [hcc] at h1; cases h1
    rw [store_cells_other _ _ _ _ h2]
    exact h1
  unfold list_merge
  simp only [g0, ok_bind]
  rcases g2 with rfl | rfl
  · -- the first list is exhausted, the rest of the second one is appended
    have ht2 : t2 ≠ [] := by
      rcases hrem with h | h
      · exact absurd rfl h
      · exact h
    obtain ⟨d, t2, rfl⟩ := List.exists_cons_of_ne_nil ht2
    simp only [List.nil_append] at g1 hlen hct hfr
    simp only [headOr_nil, headOr_cons] at g10 g11
    simp only [g10, g11, g9, set_next_of_cell hcc, ok_bind]
    refine ⟨_, _, rfl, ?_, ?_, ?_, ?_, g15, g18, hnone _⟩
    · rw [← g1, fwd_append]
      exact ⟨hfin _, hfr _ _ (fun _ ha => ha) g7⟩
    · rw [← g1]
      simpa [headOr_append] using g8
    · intro _ hb2
      show l2.back = _
      rw [hb2, ← g1, lastOr_append, ← lastOr_suffix none g17 (by simp)]
      exact lastOr_of_ne_nil _ _ (by simp)
    · intro _ hs2 hM
      show (st2.list.size + st2.size2) % SIZE_MODULUS = _
      have hle := g17.length_le
      have hml : (m0 ++ [c]).length + (d :: t2).length = xs.length + ys.length := by
        rw [← List.length_append]
        exact hlen
      have e12 : st2.list.size = (m0 ++ [c]).length := by
        rw [g12, @iterate_size_inc (m0 ++ [c]).length 0 (by omega)]
        omega
      have e14 : st2.size2 = (d :: t2).length := by
        rw [g14, hs2, @iterate_size_dec (ys.length - (d :: t2).length) ys.length
          (Nat.sub_le _ _) (by omega)]
        omega
      rw [e12, e14, hml]
      exact Nat.mod_eq_of_lt hM
  · -- the second list is exhausted, the rest of the first one is appended
    have ht1 : t1 ≠ [] := by
      rcases hrem with h | h
      · exact h
      · exact absurd rfl h
    obtain ⟨d, t1, rfl⟩ := List.exists_cons_of_ne_nil ht1
    simp only [List.append_nil] at g1 hlen hct hfr
    simp only [headOr_nil, headOr_cons] at g10 g11
    simp only [g10, g9, set_next_of_cell hcc, ok_bind]
    refine ⟨_, _, rfl, ?_, ?_, ?_, ?_, g15, g18, hnone _⟩
    · rw [← g1, fwd_append]
      exact ⟨hfin _, hfr _ _ (fun _ ha => ha) g6⟩
    · rw [← g1]
      simpa [headOr_append] using g8
    · intro hb1 _
      show l1.back = _
      rw [hb1, ← g1, lastOr_append, ← lastOr_suffix none g16 (by simp)]
      exact lastOr_of_ne_nil _ _ (by simp)
    · intro hs1 _ hM
      show (st2.list.size + st2.size1) % SIZE_MODULUS = _
      have hle := g16.length_le
      have hml : (m0 ++ [c]).length + (d :: t1).length = xs.length + ys.length := by
        rw [← List.length_append]
        exact hlen
      have e12 : st2.list.size = (m0 ++ [c]).length := by
        rw [g12, @iterate_size_inc (m0 ++ [c]).length 0 (by omega)]
        omega
      have e13 : st2.size1 = (d :: t1).length := by
        rw [g13, hs1, @iterate_size_dec (xs.length - (d :: t1).length) xs.length
          (Nat.sub_le _ _) (by omega)]
        omega
      rw [e12, e13, hml]
      exact Nat.mod_eq_of_lt hM

end DList

namespace DList

variable {α : Type}

/-! ## Node surgery on well-formed lists -/

@[simp] theorem release_cells_same (h : Heap α) (a : Nat) : (release h a).cells a = none := by
  simp [release]

theorem release_cells_other (h : Heap α) (a b : Nat) (hne : b ≠ a) :
    (release h a).cells b = h.cells b := by
  simp [release, hne]

theorem free_node_of_cell {h : Heap α} {a : Nat} {nd : list_node α} (hc : h.cells a = some nd)
    (l : list_t α) :
    __list_free_node h l (some a) =
      Except.ok (release h a, list_t.mk (size_dec l.size) l.front l.back l.list_comp) := by
  simp [__list_free_node, hc]

theorem fwd_release {h : Heap α} {a : Nat} {cs : List (Nat × α)} {q : Option Nat}
    (hn : a ∉ addrs cs) (hf : Fwd h cs q) : Fwd (release h a) cs q :=
  fwd_frame (fun b hb => release_cells_other _ _ _ (by rintro rfl; exact hn hb)) hf

theorem bwd_release {h : Heap α} {a : Nat} {cs : List (Nat × α)} {p : Option Nat}
    (hn : a ∉ addrs cs) (hf : Bwd h p cs) : Bwd (release h a) p cs :=
  bwd_frame (fun b hb => release_cells_other _ _ _ (by rintro rfl; exact hn hb)) hf

theorem fwd_store_other {h : Heap α} {a : Nat} {nd : list_node α} {cs : List (Nat × α)}
    {q : Option Nat} (hn : a ∉ addrs cs) (hf : Fwd h cs q) : Fwd (store h a nd) cs q :=
  fwd_frame (fun b hb => store_cells_other _ _ _ _ (by rintro rfl; exact hn hb)) hf

theorem bwd_store_other {h : Heap α} {a : Nat} {nd : list_node α} {cs : List (Nat × α)}
    {p : Option Nat} (hn : a ∉ addrs cs) (hf : Bwd h p cs) : Bwd (store h a nd) p cs :=
  bwd_frame (fun b hb => store_cells_other _ _ _ _ (by rintro rfl; exact hn hb)) hf

theorem repr_cell {h : Heap α} {l : list_t α} {cs : List (Nat × α)} (hr : Repr h l cs)
    {c : Nat × α} (hc : c ∈ cs) : ∃ nd, h.cells c.1 = some nd ∧ nd.data = c.2 :=
  fwd_cell hr.2.1 hc

theorem heapOK_of_untouched {h h2 : Heap α} {l l2 : list_t α} {S : List Nat}
    (hu : Untouched h l S h2 l2) (hlive : ∀ a ∈ S, a < h.brk) (hok : HeapOK h) : HeapOK h2 := by
  intro a ha
  rw [hu.2.1] at ha
  rw [hu.2.2 a (fun hm => by have := hlive a hm; omega)]
  exact hok a ha

theorem addr_lt_brk {h : Heap α} (hok : HeapOK h) {a : Nat} {nd : list_node α}
    (hc : h.cells a = some nd) : a < h.brk := by
  by_contra hn
  rw [hok a (by omega)] at hc
  cases hc

theorem nodup_cons_addrs {c : Nat × α} {cs : List (Nat × α)} (h : (addrs (c :: cs)).Nodup) :
    c.1 ∉ addrs cs ∧ (addrs cs).Nodup := by
  simpa [addrs] using h

theorem nodup_append_addrs {a b : List (Nat × α)} (h : (addrs (a ++ b)).Nodup) :
    (addrs a).Nodup ∧ (addrs b).Nodup ∧ ∀ x, x ∈ addrs a → x ∉ addrs b := by
  simp only [addrs, List.map_append] at h ⊢
  have := List.nodup_append.1 h
  exact ⟨this.1, this.2.1, fun x hx hy => this.2.2 hx hy⟩

theorem addrs_append (a b : List (Nat × α)) : addrs (a ++ b) = addrs a ++ addrs b := by
  simp [addrs]

@[simp] theorem addrs_cons (c : Nat × α) (cs : List (Nat × α)) :
    addrs (c :: cs) = c.1 :: addrs cs := rfl

@[simp] theorem addrs_nil : addrs ([] : List (Nat × α)) = [] := rfl

/-- Running `__list_insert_front` on a well-formed list: the fresh node `n` becomes the first
node. -/
theorem insert_front_spec {h : Heap α} {l : list_t α} {cs : List (Nat × α)} {n : Nat} {d : α}
    (hr : Repr h l cs) (hn : n ∉ addrs cs)
    (hc : h.cells n = some (list_node.mk d none none)) :
    ∃ h2 l2, __list_insert_front h l n = Except.ok (h2, l2) ∧ Repr h2 l2 ((n, d) :: cs) ∧
      l2.size = size_inc l.size ∧ Untouched h l (n :: addrs cs) h2 l2 := by
  obtain ⟨hnd, hf, hb, hfront, hback⟩ := hr
  cases cs with
  | nil =>
    simp only [headOr_nil, lastOr_nil] at hfront hback
    refine ⟨h, list_t.mk (size_inc l.size) (some n) (some n) l.list_comp,
      by simp [__list_insert_front, hfront], ?_, rfl, rfl, rfl, fun _ _ => rfl⟩
    exact ⟨by simp, ⟨⟨_, hc, rfl, rfl⟩, trivial⟩, ⟨⟨_, hc, rfl, rfl⟩, trivial⟩, rfl, rfl⟩
  | cons c b =>
    simp only [headOr_cons] at hfront
    obtain ⟨hcb, hndb⟩ := nodup_cons_addrs hnd
    obtain ⟨ndc, hcc, hdc⟩ := fwd_cell hf (c := c) (List.mem_cons_self _ _)
    have hne : c.1 ≠ n := by
      rintro rfl
      exact hn (by simp)
    have hc1 : (store h n (list_node.mk d none (some c.1))).cells c.1 = some ndc := by
      rw [store_cells_other _ _ _ _ hne]; exact hcc
    refine ⟨store (store h n (list_node.mk d none (some c.1))) c.1
        (list_node.mk ndc.data (some n) ndc.next),
      list_t.mk (size_inc l.size) (some n) l.back l.list_comp, ?_, ?_, rfl, rfl, rfl, ?_⟩
    · simp [__list_insert_front, hfront, set_next_of_cell hc, set_prev_of_cell hc1]
    · refine ⟨?_, ⟨⟨list_node.mk d none (some c.1), ?_, rfl, rfl⟩, ?_⟩,
        ⟨⟨list_node.mk d none (some c.1), ?_, rfl, rfl⟩, ?_⟩, rfl, hback⟩
      · exact List.nodup_cons.2 ⟨hn, hnd⟩
      · rw [store_cells_other _ _ _ _ hne.symm]; exact store_cells_same _ _ _
      · exact fwd_store_prev hc1 _ (fwd_store_other hn hf)
      · rw [store_cells_other _ _ _ _ hne.symm]; exact store_cells_same _ _ _
      · exact bwd_store_first (bwd_store_other hn hb) hcb hc1 (some n)
    · intro a ha
      simp only [addrs_cons, List.mem_cons, not_or] at ha
      rw [store_cells_other _ _ _ _ ha.2.1, store_cells_other _ _ _ _ ha.1]

/-- Running `__list_insert_back` on a well-formed list: the fresh node `n` becomes the last
node. -/
theorem insert_back_repr {h : Heap α} {l : list_t α} {cs : List (Nat × α)} {n : Nat} {d : α}
    (hr : Repr h l cs) (hn : n ∉ addrs cs)
    (hc : h.cells n = some (list_node.mk d none none)) :
    ∃ h2 l2, __list_insert_back h l n = Except.ok (h2, l2) ∧ Repr h2 l2 (cs ++ [(n, d)]) ∧
      l2.size = size_inc l.size ∧ Untouched h l (n :: addrs cs) h2 l2 := by
  obtain ⟨hnd, hf, hb, hfront, hback⟩ := hr
  obtain ⟨h2, l2, e0, e1, e2, e3, e4, e5, e6, e7, e8, -⟩ :=
    insert_back_spec hf hfront hback hnd hn hc
  refine ⟨h2, l2, e0, ⟨?_, e1, e2 none hb (fun _ => rfl), e3, by simp [e4]⟩, e5, e6, e7, ?_⟩
  · rw [addrs_append, List.nodup_append]
    refine ⟨hnd, by simp, ?_⟩
    intro x hx hy
    simp only [addrs_cons, addrs_nil, List.mem_singleton] at hy
    subst hy
    exact hn hx
  · intro a ha
    simp only [List.mem_cons, not_or] at ha
    exact e8 a ha.2 ha.1

/-- Running `__list_pop_front` on a well-formed non-empty list removes the first node. -/
theorem pop_front_spec {h : Heap α} {l : list_t α} {c : Nat × α} {cs : List (Nat × α)}
    (hr : Repr h l (c :: cs)) :
    ∃ h2 l2, __list_pop_front h l = Except.ok (h2, l2) ∧ Repr h2 l2 cs ∧
      l2.size = size_dec l.size ∧ Untouched h l (addrs (c :: cs)) h2 l2 := by
  obtain ⟨hnd, hf, hb, hfront, hback⟩ := hr
  obtain ⟨hcb, hndb⟩ := nodup_cons_addrs hnd
  obtain ⟨⟨nd, hcc, hdc, hnx⟩, hf2⟩ := hf
  obtain ⟨-, hb2⟩ := hb
  simp only [headOr_cons] at hfront
  cases cs with
  | nil =>
    simp only [headOr_nil] at hnx
    refine ⟨release h c.1, list_t.mk (size_dec l.size) none none l.list_comp, ?_, ?_, rfl, rfl,
      rfl, ?_⟩
    · simp [__list_pop_front, hfront, load_of_cell hcc, hnx, free_node_of_cell hcc]
    · exact ⟨by simp, trivial, trivial, rfl, rfl⟩
    · intro a ha
      exact release_cells_other _ _ _ (by simpa using ha)
  | cons c2 b =>
    simp only [headOr_cons] at hnx
    obtain ⟨hcb2, hndb2⟩ := nodup_cons_addrs hndb
    obtain ⟨nd2, hc2, hd2⟩ := fwd_cell hf2 (c := c2) (List.mem_cons_self _ _)
    have hne : c.1 ≠ c2.1 := by
      rintro he
      exact hcb (by simp [he])
    have hc1 : (store h c2.1 (list_node.mk nd2.data none nd2.next)).cells c.1 = some nd := by
      rw [store_cells_other _ _ _ _ hne]; exact hcc
    refine ⟨release (store h c2.1 (list_node.mk nd2.data none nd2.next)) c.1,
      list_t.mk (size_dec l.size) (some c2.1) l.back l.list_comp, ?_, ?_, rfl, rfl, rfl, ?_⟩
    · simp [__list_pop_front, hfront, load_of_cell hcc, hnx, set_prev_of_cell hc2,
        free_node_of_cell hc1]
    · refine ⟨hndb, fwd_release hcb (fwd_store_prev hc2 _ hf2),
        bwd_release hcb (bwd_store_first hb2 hcb2 hc2 none), rfl, ?_⟩
      simpa using hback
    · intro a ha
      simp only [addrs_cons, List.mem_cons, not_or] at ha
      rw [release_cells_other _ _ _ ha.1, store_cells_other _ _ _ _ ha.2.1]

end DList

namespace DList

variable {α : Type}

theorem repr_split {h : Heap α} {l : list_t α} {a b : List (Nat × α)} {c : Nat × α}
    (hr : Repr h l (a ++ c :: b)) :
    Fwd h a (some c.1) ∧ Fwd h b none ∧ Bwd h none a ∧ Bwd h (some c.1) b ∧
      (∃ nd, h.cells c.1 = some nd ∧ nd.data = c.2 ∧ nd.prev = lastOr none a ∧
        nd.next = headOr none b) ∧
      c.1 ∉ addrs a ∧ c.1 ∉ addrs b ∧ (addrs a).Nodup ∧ (addrs b).Nodup ∧
      ∀ x, x ∈ addrs a → x ∉ addrs b := by
  obtain ⟨hnd, hf, hb, -, -⟩ := hr
  rw [fwd_append] at hf
  rw [bwd_append] at hb
  obtain ⟨hf1, ⟨nd, h1, h2, h3⟩, hf2⟩ := hf
  obtain ⟨hb1, ⟨nd2, g1, -, g3⟩, hb2⟩ := hb
  rw [h1] at g1
  cases g1
  obtain ⟨n1, n2, n3⟩ := nodup_append_addrs hnd
  obtain ⟨n4, n5⟩ := nodup_cons_addrs n2
  exact ⟨hf1, hf2, hb1, hb2, ⟨nd, h1, h2, g3, h3⟩, fun hm => n3 _ hm (by simp), n4, n1, n5,
    fun x hx hy => n3 x hx (by simp [hy])⟩

theorem repr_join {h : Heap α} {l : list_t α} {a b : List (Nat × α)}
    (hf1 : Fwd h a (headOr none b)) (hf2 : Fwd h b none) (hb1 : Bwd h none a)
    (hb2 : Bwd h (lastOr none a) b) (hn1 : (addrs a).Nodup) (hn2 : (addrs b).Nodup)
    (hn3 : ∀ x, x ∈ addrs a → x ∉ addrs b) (hfront : l.front = headOr none (a ++ b))
    (hback : l.back = lastOr none (a ++ b)) : Repr h l (a ++ b) := by
  refine ⟨?_, (fwd_append _ _ _ _).2 ⟨hf1, hf2⟩, (bwd_append _ _ _ _).2 ⟨hb1, hb2⟩, hfront,
    hback⟩
  rw [addrs_append, List.nodup_append]
  exact ⟨hn1, hn2, fun x hx hy => hn3 x hx hy⟩

theorem snoc_split_addrs {a : List (Nat × α)} {c : Nat × α} (h : (addrs (a ++ [c])).Nodup) :
    c.1 ∉ addrs a ∧ (addrs a).Nodup := by
  obtain ⟨n1, -, n3⟩ := nodup_append_addrs h
  exact ⟨fun hm => n3 _ hm (by simp), n1⟩

/-- Running `__list_erase` on a node of a well-formed list unlinks and frees exactly that
node. -/
theorem erase_spec {h : Heap α} {l : list_t α} {a b : List (Nat × α)} {c : Nat × α}
    (hr : Repr h l (a ++ c :: b)) :
    ∃ h2 l2, __list_erase h l c.1 = Except.ok (h2, l2) ∧ Repr h2 l2 (a ++ b) ∧
      l2.size = size_dec l.size ∧ Untouched h l (addrs (a ++ c :: b)) h2 l2 := by
  obtain ⟨hfa, hfb, hba, hbb, ⟨nd, hcc, hdc, hpv, hnx⟩, nca, ncb, nda, ndb, nab⟩ := repr_split hr
  obtain ⟨-, -, -, hfront, hback⟩ := hr
  rcases List.eq_nil_or_concat a with rfl | ⟨a0, pa, rfl⟩
  · cases b with
    | nil =>
      simp only [lastOr_nil, headOr_nil] at hpv hnx
      refine ⟨release h c.1, list_t.mk (size_dec l.size) none none l.list_comp, ?_, ?_, rfl, rfl,
        rfl, ?_⟩
      · simp [__list_erase, load_of_cell hcc, hpv, hnx, free_node_of_cell hcc]
      · exact ⟨by simp, trivial, trivial, rfl, rfl⟩
      · intro x hx
        exact release_cells_other _ _ _ (by simpa using hx)
    | cons nb b0 =>
      simp only [lastOr_nil, headOr_cons] at hpv hnx
      obtain ⟨nnb, ndb0⟩ := nodup_cons_addrs ndb
      obtain ⟨ndn, hcn, -⟩ := fwd_cell hfb (c := nb) (List.mem_cons_self _ _)
      have hne : c.1 ≠ nb.1 := by
        rintro he
        exact ncb (by simp [he])
      have hc1 : (store h nb.1 (list_node.mk ndn.data none ndn.next)).cells c.1 = some nd := by
        rw [store_cells_other _ _ _ _ hne]; exact hcc
      refine ⟨release (store h nb.1 (list_node.mk ndn.data none ndn.next)) c.1,
        list_t.mk (size_dec l.size) (some nb.1) l.back l.list_comp, ?_, ?_, rfl, rfl, rfl, ?_⟩
      · simp [__list_erase, load_of_cell hcc, hpv, hnx, set_prev_of_cell hcn,
          free_node_of_cell hc1]
      · refine ⟨ndb, fwd_release ncb (fwd_store_prev hcn _ hfb),
          bwd_release ncb (bwd_store_first hbb nnb hcn none), rfl, ?_⟩
        simpa using hback
      · intro x hx
        simp only [List.nil_append, addrs_cons, List.mem_cons, not_or] at hx
        rw [release_cells_other _ _ _ hx.1, store_cells_other _ _ _ _ hx.2.1]
  · have hsn : a0.concat pa = a0 ++ [pa] := by simp
    rw [hsn] at hfa hba hpv nca nda nab hfront hback ⊢
    simp only [lastOr_snoc] at hpv
    obtain ⟨npa, nda0⟩ := snoc_split_addrs nda
    obtain ⟨ndp, hcp, -⟩ := fwd_cell hfa (c := pa) (by simp)
    have hpb : pa.1 ∉ addrs b := nab _ (by simp [addrs_append])
    have hpc : c.1 ≠ pa.1 := by
      rintro he
      exact nca (by simp [addrs_append, he])
    cases b with
    | nil =>
      simp only [headOr_nil] at hnx
      have hc1 : (store h pa.1 (list_node.mk ndp.data ndp.prev none)).cells c.1 = some nd := by
        rw [store_cells_other _ _ _ _ hpc]; exact hcc
      refine ⟨release (store h pa.1 (list_node.mk ndp.data ndp.prev none)) c.1,
        list_t.mk (size_dec l.size) l.front (some pa.1) l.list_comp, ?_, ?_, rfl, rfl, rfl, ?_⟩
      · simp [__list_erase, load_of_cell hcc, hpv, hnx, set_next_of_cell hcp,
          free_node_of_cell hc1]
      · rw [List.append_nil]
        refine ⟨nda, fwd_release nca (fwd_store_last hfa npa hcp none),
          bwd_release nca (bwd_store_next hcp _ hba), ?_, by simp⟩
        simpa [headOr_append] using hfront
      · intro x hx
        have e1 : x ≠ c.1 := by rintro rfl; exact hx (by simp [addrs_append])
        have e2 : x ≠ pa.1 := by rintro rfl; exact hx (by simp [addrs_append])
        rw [release_cells_other _ _ _ e1, store_cells_other _ _ _ _ e2]
    | cons nb b0 =>
      simp only [headOr_cons] at hnx
      obtain ⟨nnb, ndb0⟩ := nodup_cons_addrs ndb
      obtain ⟨ndn, hcn, -⟩ := fwd_cell hfb (c := nb) (List.mem_cons_self _ _)
      have hnc : c.1 ≠ nb.1 := by
        rintro he
        exact ncb (by simp [he])
      have hnp : nb.1 ≠ pa.1 := by
        rintro he
        exact hpb (by simp [he])
      have hnba : nb.1 ∉ addrs (a0 ++ [pa]) := fun hm => nab _ hm (by simp)
      have hcn1 : (store h pa.1 (list_node.mk ndp.data ndp.prev (some nb.1))).cells nb.1 =
          some ndn := by
        rw [store_cells_other _ _ _ _ hnp]; exact hcn
      have hc1 : (store (store h pa.1 (list_node.mk ndp.data ndp.prev (some nb.1))) nb.1
          (list_node.mk ndn.data (some pa.1) ndn.next)).cells c.1 = some nd := by
        rw [store_cells_other _ _ _ _ hnc, store_cells_other _ _ _ _ hpc]; exact hcc
      refine ⟨release (store (store h pa.1 (list_node.mk ndp.data ndp.prev (some nb.1))) nb.1
          (list_node.mk ndn.data (some pa.1) ndn.next)) c.1,
        list_t.mk (size_dec l.size) l.front l.back l.list_comp, ?_, ?_, rfl, rfl, rfl, ?_⟩
      · simp [__list_erase, load_of_cell hcc, hpv, hnx, set_next_of_cell hcp,
          set_prev_of_cell hcn1, free_node_of_cell hc1]
      · refine repr_join ?_ ?_ ?_ ?_ nda ndb (fun x hx => nab x hx) ?_ ?_
        · exact fwd_release nca (fwd_store_prev hcn1 _ (fwd_store_last hfa npa hcp (some nb.1)))
        · exact fwd_release ncb (fwd_store_prev hcn1 _ (fwd_store_other hpb hfb))
        · exact bwd_release nca (bwd_store_other hnba (bwd_store_next hcp _ hba))
        · simp only [lastOr_snoc]
          exact bwd_release ncb (bwd_store_first (bwd_store_other hpb hbb) nnb hcn1 (some pa.1))
        · simpa [headOr_append] using hfront
        · simpa [lastOr_append] using hback
      · intro x hx
        have e1 : x ≠ c.1 := by rintro rfl; exact hx (by simp [addrs_append])
        have e2 : x ≠ pa.1 := by rintro rfl; exact hx (by simp [addrs_append])
        have e3 : x ≠ nb.1 := by rintro rfl; exact hx (by simp [addrs_append])
        rw [release_cells_other _ _ _ e1, store_cells_other _ _ _ _ e3,
          store_cells_other _ _ _ _ e2]

/-- Running `__list_pop_back` on a well-formed non-empty list removes the last node. -/
theorem pop_back_spec {h : Heap α} {l : list_t α} {c : Nat × α} {cs : List (Nat × α)}
    (hr : Repr h l (cs ++ [c])) :
    ∃ h2 l2, __list_pop_back h l = Except.ok (h2, l2) ∧ Repr h2 l2 cs ∧
      l2.size = size_dec l.size ∧ Untouched h l (addrs (cs ++ [c])) h2 l2 := by
  obtain ⟨hfa, -, hba, -, ⟨nd, hcc, hdc, hpv, -⟩, nca, -, nda, -, -⟩ := repr_split hr
  obtain ⟨-, -, -, hfront, hback⟩ := hr
  simp only [lastOr_snoc] at hback
  rcases List.eq_nil_or_concat cs with rfl | ⟨a0, pa, rfl⟩
  · simp only [lastOr_nil] at hpv
    refine ⟨release h c.1, list_t.mk (size_dec l.size) none none l.list_comp, ?_, ?_, rfl, rfl,
      rfl, ?_⟩
    · simp [__list_pop_back, hback, load_of_cell hcc, hpv, free_node_of_cell hcc]
    · exact ⟨by simp, trivial, trivial, rfl, rfl⟩
    · intro x hx
      exact release_cells_other _ _ _ (by simpa using hx)
  · have hsn : a0.concat pa = a0 ++ [pa] := by simp
    rw [hsn] at hfa hba hpv nca nda hfront ⊢
    simp only [lastOr_snoc] at hpv
    obtain ⟨npa, nda0⟩ := snoc_split_addrs nda
    obtain ⟨ndp, hcp, -⟩ := fwd_cell hfa (c := pa) (by simp)
    have hpc : c.1 ≠ pa.1 := by
      rintro he
      exact nca (by simp [addrs_append, he])
    have hc1 : (store h pa.1 (list_node.mk ndp.data ndp.prev none)).cells c.1 = some nd := by
      rw [store_cells_other _ _ _ _ hpc]; exact hcc
    refine ⟨release (store h pa.1 (list_node.mk ndp.data ndp.prev none)) c.1,
      list_t.mk (size_dec l.size) l.front (some pa.1) l.list_comp, ?_, ?_, rfl, rfl, rfl, ?_⟩
    · simp [__list_pop_back, hback, load_of_cell hcc, hpv, set_next_of_cell hcp,
        free_node_of_cell hc1]
    · refine ⟨nda, fwd_release nca (fwd_store_last hfa npa hcp none),
        bwd_release nca (bwd_store_next hcp _ hba), ?_, by simp⟩
      simpa [headOr_append] using hfront
    · intro x hx
      have e1 : x ≠ c.1 := by rintro rfl; exact hx (by simp [addrs_append])
      have e2 : x ≠ pa.1 := by rintro rfl; exact hx (by simp [addrs_append])
      rw [release_cells_other _ _ _ e1, store_cells_other _ _ _ _ e2]

end DList

namespace DList

variable {α : Type}

/-- Running `__list_insert_before` on a node `c` of a well-formed list links the node `n`
right before it. -/
theorem insert_before_spec {h : Heap α} {l : list_t α} {a b : List (Nat × α)} {c : Nat × α}
    {n : Nat} {nn : list_node α} (hr : Repr h l (a ++ c :: b)) (hn : n ∉ addrs (a ++ c :: b))
    (hcn : h.cells n = some nn) :
    ∃ h2 l2, __list_insert_before h l c.1 n = Except.ok (h2, l2) ∧
      Repr h2 l2 (a ++ (n, nn.data) :: c :: b) ∧ l2.size = size_inc l.size ∧
      Untouched h l (n :: addrs (a ++ c :: b)) h2 l2 := by
  obtain ⟨hfa, hfb, hba, hbb, ⟨nd, hcc, hdc, hpv, hnx⟩, nca, ncb, nda, ndb, nab⟩ := repr_split hr
  obtain ⟨-, -, -, hfront, hback⟩ := hr
  have hna : n ∉ addrs a := fun hm => hn (by simp [addrs_append, hm])
  have hnb : n ∉ addrs b := fun hm => hn (by simp [addrs_append, hm])
  have hnc : c.1 ≠ n := by rintro rfl; exact hn (by simp [addrs_append])
  have hfcb : Fwd h (c :: b) none := ⟨⟨nd, hcc, hdc, hnx⟩, hfb⟩
  have hbcb : Bwd h (lastOr none a) (c :: b) := ⟨⟨nd, hcc, hdc, hpv⟩, hbb⟩
  have hncb : n ∉ addrs (c :: b) := fun hm => hn (by simp [addrs_append] at hm ⊢; tauto)
  have hnd2 : (addrs ((n, nn.data) :: c :: b)).Nodup := by
    simp only [addrs_cons, List.nodup_cons, List.mem_cons, not_or]
    exact ⟨⟨fun e => hnc e.symm, hnb⟩, ncb, ndb⟩
  have hdis : ∀ x, x ∈ addrs a → x ∉ addrs ((n, nn.data) :: c :: b) := by
    intro x hx hy
    simp only [addrs_cons, List.mem_cons] at hy
    rcases hy with rfl | rfl | hy
    · exact hna hx
    · exact nca hx
    · exact nab x hx hy
  rcases List.eq_nil_or_concat a with rfl | ⟨a0, pa, rfl⟩
  · simp only [lastOr_nil] at hpv hbcb
    have hc1 : (store h n (list_node.mk nn.data none nn.next)).cells c.1 = some nd := by
      rw [store_cells_other _ _ _ _ hnc]; exact hcc
    have hn3 : (store (store h n (list_node.mk nn.data none nn.next)) c.1
        (list_node.mk nd.data (some n) nd.next)).cells n =
        some (list_node.mk nn.data none nn.next) := by
      rw [store_cells_other _ _ _ _ hnc.symm]; exact store_cells_same _ _ _
    refine ⟨store (store (store h n (list_node.mk nn.data none nn.next)) c.1
        (list_node.mk nd.data (some n) nd.next)) n (list_node.mk nn.data none (some c.1)),
      list_t.mk (size_inc l.size) (some n) l.back l.list_comp, ?_, ?_, rfl, rfl, rfl, ?_⟩
    · simp [__list_insert_before, load_of_cell hcc, hpv, set_prev_of_cell hcn,
        set_prev_of_cell hc1, set_next_of_cell hn3, load_of_cell (store_cells_same _ _ _)]
    · refine ⟨hnd2, ⟨⟨_, store_cells_same _ _ _, rfl, rfl⟩, ?_⟩,
        ⟨⟨_, store_cells_same _ _ _, rfl, rfl⟩, ?_⟩, rfl, ?_⟩
      · exact fwd_store_other hncb (fwd_store_prev hc1 _ (fwd_store_other hncb hfcb))
      · exact bwd_store_other hncb (bwd_store_first (bwd_store_other hncb hbcb) ncb hc1 (some n))
      · simpa using hback
    · intro x hx
      have e1 : x ≠ n := by rintro rfl; exact hx (by simp)
      have e2 : x ≠ c.1 := by rintro rfl; exact hx (by simp)
      rw [store_cells_other _ _ _ _ e1, store_cells_other _ _ _ _ e2,
        store_cells_other _ _ _ _ e1]
  · have hsn : a0.concat pa = a0 ++ [pa] := by simp
    rw [hsn] at hfa hba hpv nca nda nab hfront hback hna hbcb hdis ⊢
    simp only [lastOr_snoc] at hpv hbcb
    obtain ⟨npa, nda0⟩ := snoc_split_addrs nda
    obtain ⟨ndp, hcp, -⟩ := fwd_cell hfa (c := pa) (by simp)
    have hpn : pa.1 ≠ n := by rintro rfl; exact hna (by simp [addrs_append])
    have hpc : c.1 ≠ pa.1 := by rintro he; exact nca (by simp [addrs_append, he])
    have hpcb : pa.1 ∉ addrs (c :: b) := by
      intro hm
      simp only [addrs_cons, List.mem_cons] at hm
      rcases hm with he | hm
      · exact hpc he.symm
      · exact nab _ (by simp [addrs_append]) hm
    have hcp1 : (store h n (list_node.mk nn.data (some pa.1) nn.next)).cells pa.1 = some ndp := by
      rw [store_cells_other _ _ _ _ hpn]; exact hcp
    have hc2 : (store (store h n (list_node.mk nn.data (some pa.1) nn.next)) pa.1
        (list_node.mk ndp.data ndp.prev (some n))).cells c.1 = some nd := by
      rw [store_cells_other _ _ _ _ hpc, store_cells_other _ _ _ _ hnc]; exact hcc
    have hn3 : (store (store (store h n (list_node.mk nn.data (some pa.1) nn.next)) pa.1
        (list_node.mk ndp.data ndp.prev (some n))) c.1
        (list_node.mk nd.data (some n) nd.next)).cells n =
        some (list_node.mk nn.data (some pa.1) nn.next) := by
      rw [store_cells_other _ _ _ _ hnc.symm, store_cells_other _ _ _ _ hpn.symm]
      exact store_cells_same _ _ _
    refine ⟨store (store (store (store h n (list_node.mk nn.data (some pa.1) nn.next)) pa.1
        (list_node.mk ndp.data ndp.prev (some n))) c.1
        (list_node.mk nd.data (some n) nd.next)) n (list_node.mk nn.data (some pa.1) (some c.1)),
      list_t.mk (size_inc l.size) l.front l.back l.list_comp, ?_, ?_, rfl, rfl, rfl, ?_⟩
    · simp [__list_insert_before, load_of_cell hcc, hpv, set_prev_of_cell hcn,
        set_next_of_cell hcp1, set_prev_of_cell hc2, set_next_of_cell hn3,
        load_of_cell (store_cells_same _ _ _)]
    · refine repr_join ?_ ⟨⟨_, store_cells_same _ _ _, rfl, rfl⟩, ?_⟩ ?_
        ⟨⟨_, store_cells_same _ _ _, rfl, by simp⟩, ?_⟩ nda hnd2 hdis ?_ ?_
      · exact fwd_store_other hna (fwd_store_other nca
          (fwd_store_last (fwd_store_other hna hfa) npa hcp1 (some n)))
      · exact fwd_store_other hncb (fwd_store_prev hc2 _ (fwd_store_other hpcb
          (fwd_store_other hncb hfcb)))
      · exact bwd_store_other hna (bwd_store_other nca
          (bwd_store_next hcp1 _ (bwd_store_other hna hba)))
      · exact bwd_store_other hncb (bwd_store_first (bwd_store_other hpcb
          (bwd_store_other hncb hbcb)) ncb hc2 (some n))
      · simpa [headOr_append] using hfront
      · simpa [lastOr_append] using hback
    · intro x hx
      have e1 : x ≠ n := by rintro rfl; exact hx (by simp)
      have e2 : x ≠ c.1 := by rintro rfl; exact hx (by simp [addrs_append])
      have e3 : x ≠ pa.1 := by rintro rfl; exact hx (by simp [addrs_append])
      rw [store_cells_other _ _ _ _ e1, store_cells_other _ _ _ _ e2,
        store_cells_other _ _ _ _ e3, store_cells_other _ _ _ _ e1]

end DList

namespace DList

variable {α : Type}

/-! ## Loops over a well-formed list -/

/-- The loop of `__list_find` started at the head of the `next` chain `r`: either it returns
the first node whose datum compares equal to `d` (NULL when there is none), or the step bound
was smaller than the chain is long. -/
theorem find_loop_spec (comp : α → α → Int) (d : α) (h : Heap α) (r : List (Nat × α))
    (hf : Fwd h r none) (fuel : Nat) :
    (∃ res, find_loop comp d h fuel (headOr none r) = Except.ok res ∧
        ((res = none ∧ ∀ x ∈ r, comp x.2 d ≠ 0) ∨
          ∃ a c b, r = a ++ c :: b ∧ res = some c.1 ∧ comp c.2 d = 0 ∧
            ∀ x ∈ a, comp x.2 d ≠ 0)) ∨
      (find_loop comp d h fuel (headOr none r) = Except.error Fault.out_of_fuel ∧
        fuel < r.length) := by
  induction r generalizing fuel with
  | nil =>
    left
    refine ⟨none, ?_, Or.inl ⟨rfl, by simp⟩⟩
    cases fuel <;> rfl
  | cons c r ih =>
    obtain ⟨⟨nd, h1, h2, h3⟩, h4⟩ := hf
    cases fuel with
    | zero => exact Or.inr ⟨rfl, by simp⟩
    | succ fuel =>
      simp only [headOr_cons, find_loop, load_of_cell h1, ok_bind, h2, h3]
      by_cases hz : comp c.2 d = 0
      · left
        simp only [hz, if_true]
        exact ⟨_, rfl, Or.inr ⟨[], c, r, rfl, rfl, hz, by simp⟩⟩
      · simp only [hz, if_false]
        rcases ih h4 fuel with ⟨res, e1, e2⟩ | ⟨e1, e2⟩
        · left
          refine ⟨res, e1, ?_⟩
          rcases e2 with ⟨rfl, hall⟩ | ⟨a, c2, b, rfl, rfl, hz2, hall⟩
          · left
            refine ⟨rfl, ?_⟩
            intro x hx
            rcases List.mem_cons.1 hx with rfl | hx
            · exact hz
            · exact hall x hx
          · right
            refine ⟨c :: a, c2, b, rfl, rfl, hz2, ?_⟩
            intro x hx
            rcases List.mem_cons.1 hx with rfl | hx
            · exact hz
            · exact hall x hx
        · right
          exact ⟨e1, by simp only [List.length_cons]; omega⟩

/-- The loop of `__list_insert` started at the head of the suffix `r` of a well-formed list
`pre ++ r`: the fresh node `n` is linked before the first node of `r` whose datum is strictly
greater than `d`, at the back when there is none. -/
theorem insert_loop_spec {h : Heap α} {l : list_t α} {n : Nat} {d : α}
    (hcn : h.cells n = some (list_node.mk d none none)) (r pre : List (Nat × α))
    (hr : Repr h l (pre ++ r)) (hn : n ∉ addrs (pre ++ r))
    (hpre : ∀ x ∈ pre, ¬ l.list_comp d x.2 < 0) (fuel : Nat) :
    (∃ h2 l2, insert_loop l n d fuel h (headOr none r) = Except.ok (h2, l2) ∧
        ∃ a b, pre ++ r = a ++ b ∧ (∀ x ∈ a, ¬ l.list_comp d x.2 < 0) ∧
          (∀ c ∈ b.head?, l.list_comp d c.2 < 0) ∧ Repr h2 l2 (a ++ (n, d) :: b) ∧
          l2.size = size_inc l.size ∧ Untouched h l (n :: addrs (pre ++ r)) h2 l2) ∨
      (insert_loop l n d fuel h (headOr none r) = Except.error Fault.out_of_fuel ∧
        fuel < r.length) := by
  induction r generalizing pre fuel with
  | nil =>
    left
    rw [List.append_nil] at hr hn
    obtain ⟨h2, l2, e0, e1, e2, e3⟩ := insert_back_repr hr hn hcn
    refine ⟨h2, l2, ?_, pre, [], by simp, hpre, by simp, e1, e2, by simpa using e3⟩
    cases fuel <;> exact e0
  | cons c r ih =>
    cases fuel with
    | zero => exact Or.inr ⟨rfl, by simp⟩
    | succ fuel =>
      obtain ⟨-, -, -, -, ⟨nd, hcc, hdc, -, hnx⟩, -⟩ := repr_split hr
      simp only [headOr_cons, insert_loop, load_of_cell hcc, ok_bind, hdc, hnx]
      by_cases hlt : l.list_comp d c.2 < 0
      · left
        simp only [hlt, if_true]
        obtain ⟨h2, l2, e0, e1, e2, e3⟩ := insert_before_spec hr hn hcn
        exact ⟨h2, l2, e0, pre, c :: r, rfl, hpre, by simpa using hlt, e1, e2, e3⟩
      · simp only [hlt, if_false]
        have hsplit : pre ++ c :: r = (pre ++ [c]) ++ r := by simp
        rw [hsplit] at hr hn
        rcases ih (pre ++ [c]) hr hn (by
            intro x hx
            rcases List.mem_append.1 hx with hx | hx
            · exact hpre x hx
            · simp only [List.mem_singleton] at hx
              subst hx
              exact hlt) fuel with ⟨h2, l2, e0, a, b, e1, e2, e3, e4, e5, e6⟩ | ⟨e1, e2⟩
        · left
          exact ⟨h2, l2, e0, a, b, by rw [hsplit]; exact e1, e2, e3, e4, e5,
            by rw [hsplit]; exact e6⟩
        · right
          exact ⟨e1, by simp only [List.length_cons]; omega⟩

/-- The loop of `list_reverse` with `done` already relinked and the `next` chain `r` still to
go: each node of `r` is put in front of the list in turn. -/
theorem reverse_loop_spec (r : List (Nat × α)) {h : Heap α} {l : list_t α}
    (done : List (Nat × α)) (hr : Repr h l done) (hf : Fwd h r none)
    (hnd : (addrs (done ++ r)).Nodup) (fuel : Nat) :
    (∃ h2 l2, reverse_loop fuel h l (headOr none r) = Except.ok (h2, l2) ∧
        Repr h2 l2 (r.reverse ++ done) ∧ l2.size = Nat.iterate size_inc r.length l.size ∧
        Untouched h l (addrs (done ++ r)) h2 l2) ∨
      (reverse_loop fuel h l (headOr none r) = Except.error Fault.out_of_fuel ∧
        fuel < r.length) := by
  induction r generalizing h l done fuel with
  | nil =>
    left
    refine ⟨h, l, ?_, by simpa using hr, rfl, rfl, rfl, fun _ _ => rfl⟩
    cases fuel <;> rfl
  | cons c r ih =>
    cases fuel with
    | zero => exact Or.inr ⟨rfl, by simp⟩
    | succ fuel =>
      obtain ⟨⟨nd, hcc, hdc, hnx⟩, hfr⟩ := hf
      obtain ⟨n1, n2, n3⟩ := nodup_append_addrs hnd
      obtain ⟨ncr, ndr⟩ := nodup_cons_addrs n2
      have hcd : c.1 ∉ addrs done := fun hm => n3 _ hm (by simp)
      have hc1 : (store h c.1 (list_node.mk nd.data nd.prev none)).cells c.1 =
          some (list_node.mk nd.data nd.prev none) := store_cells_same _ _ _
      have hc2 : (store (store h c.1 (list_node.mk nd.data nd.prev none)) c.1
          (list_node.mk nd.data none none)).cells c.1 = some (list_node.mk c.2 none none) := by
        rw [store_cells_same, hdc]
      have hr2 : Repr (store (store h c.1 (list_node.mk nd.data nd.prev none)) c.1
          (list_node.mk nd.data none none)) l done :=
        ⟨hr.1, fwd_store_other hcd (fwd_store_other hcd hr.2.1),
          bwd_store_other hcd (bwd_store_other hcd hr.2.2.1), hr.2.2.2.1, hr.2.2.2.2⟩
      obtain ⟨h3, l3, e0, e1, e2, e3, e4, e5⟩ := insert_front_spec hr2 hcd hc2
      have hstep : reverse_loop (fuel + 1) h l (headOr none (c :: r)) =
          reverse_loop fuel h3 l3 (headOr none r) := by
        simp only [headOr_cons, reverse_loop, load_of_cell hcc, ok_bind, set_next_of_cell hcc,
          set_prev_of_cell hc1, e0, hnx]
      have hfr3 : Fwd h3 r none := by
        refine fwd_frame (fun a ha => ?_) hfr
        have e6 : a ≠ c.1 := by rintro rfl; exact ncr ha
        rw [e5 a (by
          simp only [List.mem_cons, not_or]
          exact ⟨e6, fun hm => n3 a hm (by simp [ha])⟩),
          store_cells_other _ _ _ _ e6, store_cells_other _ _ _ _ e6]
      have hnd3 : (addrs ((c.1, c.2) :: done ++ r)).Nodup := by
        refine nodup_addrs_perm ?_ hnd
        simp only [List.cons_append]
        exact List.perm_middle
      rcases ih ((c.1, c.2) :: done) e1 hfr3 hnd3 fuel with ⟨h4, l4, g0, g1, g2, g3, g4, g5⟩ |
        ⟨g1, g2⟩
      · left
        refine ⟨h4, l4, hstep.trans g0, ?_, ?_, g3.trans e3, g4.trans e4, ?_⟩
        · simpa using g1
        · rw [g2, e2, List.length_cons, Function.iterate_succ, Function.comp_apply]
        · intro a ha
          have e6 : a ≠ c.1 := by rintro rfl; exact ha (by simp [addrs_append])
          rw [g5 a (by
            intro hm
            apply ha
            simp only [List.cons_append, addrs_cons, addrs_append, List.mem_cons,
              List.mem_append] at hm ⊢
            tauto),
            e5 a (by
              simp only [List.mem_cons, not_or]
              exact ⟨e6, fun hm => ha (by simp [addrs_append, hm])⟩),
            store_cells_other _ _ _ _ e6, store_cells_other _ _ _ _ e6]
      · right
        exact ⟨hstep.trans g1, by simp only [List.length_cons]; omega⟩

end DList

namespace DList

variable {α : Type}

theorem unique_from_length_le {β : Type} (eq : β → β → Bool) (x : β) (ys : List β) :
    (unique_from eq x ys).length ≤ ys.length := by
  induction ys generalizing x with
  | nil => simp [unique_from]
  | cons y ys ih =>
    simp only [unique_from]
    split_ifs
    · exact Nat.le_succ_of_le (ih x)
    · simpa using ih y

/-- The loop of `list_unique` standing at the node `x` of a well-formed list, with `b` the
nodes after it: every node of `b` whose datum compares equal to the last node kept is
unlinked and freed. -/
theorem unique_loop_spec (b : List (Nat × α)) {h : Heap α} {l : list_t α}
    (a : List (Nat × α)) (x : Nat × α) (hr : Repr h l (a ++ x :: b)) (fuel : Nat) :
    (∃ h2 l2, unique_loop fuel h l (some x.1) = Except.ok (h2, l2) ∧
        Repr h2 l2
          (a ++ x :: unique_from (fun u v => decide (l.list_comp u.2 v.2 = 0)) x b) ∧
        l2.size = Nat.iterate size_dec
          (b.length - (unique_from (fun u v => decide (l.list_comp u.2 v.2 = 0)) x b).length)
          l.size ∧
        Untouched h l (addrs (a ++ x :: b)) h2 l2) ∨
      (unique_loop fuel h l (some x.1) = Except.error Fault.out_of_fuel ∧ fuel < b.length) := by
  induction b generalizing h l a x fuel with
  | nil =>
    left
    obtain ⟨-, -, -, -, ⟨nd, hcc, -, -, hnx⟩, -⟩ := repr_split hr
    simp only [headOr_nil] at hnx
    refine ⟨h, l, ?_, by simpa [unique_from] using hr, rfl, rfl, rfl, fun _ _ => rfl⟩
    rw [unique_loop]
    simp [load_of_cell hcc, hnx]
  | cons y b ih =>
    obtain ⟨-, hfb, -, -, ⟨nd, hcc, hdx, -, hnx⟩, -⟩ := repr_split hr
    obtain ⟨⟨ndy, hcy, hdy, -⟩, -⟩ := hfb
    simp only [headOr_cons] at hnx
    cases fuel with
    | zero =>
      right
      refine ⟨?_, by simp⟩
      rw [unique_loop]
      simp [load_of_cell hcc, hnx]
    | succ fuel =>
      have hsplit : a ++ x :: y :: b = (a ++ [x]) ++ y :: b := by simp
      by_cases heq : l.list_comp x.2 y.2 = 0
      · rw [hsplit] at hr
        obtain ⟨h2, l2, e0, e1, e2, e3, e4, e5⟩ := erase_spec hr
        have hstep : unique_loop (fuel + 1) h l (some x.1) =
            unique_loop fuel h2 l2 (some x.1) := by
          rw [unique_loop]
          simp [load_of_cell hcc, hnx, load_of_cell hcy, hdx, hdy, heq, e0]
        have e1' : Repr h2 l2 (a ++ x :: b) := by simpa using e1
        rcases ih a x e1' fuel with ⟨h3, l3, g0, g1, g2, g3, g4, g5⟩ | ⟨g1, g2⟩
        · left
          refine ⟨h3, l3, hstep.trans g0, ?_, ?_, g3.trans e3, g4.trans e4, ?_⟩
          · simpa [unique_from, heq, e3] using g1
          · rw [g2, e2, e3]
            simp only [unique_from, heq, decide_True, if_true, List.length_cons]
            have hle := unique_from_length_le
              (fun u v : Nat × α => decide (l.list_comp u.2 v.2 = 0)) x b
            have hk : b.length + 1 -
                (unique_from (fun u v : Nat × α => decide (l.list_comp u.2 v.2 = 0)) x b).length =
                (b.length -
                  (unique_from (fun u v : Nat × α => decide (l.list_comp u.2 v.2 = 0)) x
                    b).length) + 1 := by omega
            rw [hk, Function.iterate_succ, Function.comp_apply]
          · intro z hz
            rw [g5 z (by
              intro hm
              apply hz
              simp only [addrs_append, addrs_cons, List.mem_append, List.mem_cons] at hm ⊢
              tauto),
              e5 z (by rw [← hsplit]; exact hz)]
        · right
          exact ⟨hstep.trans g1, by simp only [List.length_cons]; omega⟩
      · have hstep : unique_loop (fuel + 1) h l (some x.1) =
            unique_loop fuel h l (some y.1) := by
          rw [unique_loop]
          simp [load_of_cell hcc, hnx, load_of_cell hcy, hdx, hdy, heq]
        rw [hsplit] at hr
        rcases ih (a ++ [x]) y hr fuel with ⟨h3, l3, g0, g1, g2, g3, g4, g5⟩ | ⟨g1, g2⟩
        · left
          refine ⟨h3, l3, hstep.trans g0, ?_, ?_, g3, g4, ?_⟩
          · simpa [unique_from, heq] using g1
          · rw [g2]
            simp [unique_from, heq]
          · rw [hsplit]; exact g5
        · right
          exact ⟨hstep.trans g1, by simp only [List.length_cons]; omega⟩

/-- Running `list_clear` on a well-formed list frees every node. -/
theorem list_clear_spec (cs : List (Nat × α)) {h : Heap α} {l : list_t α} (hr : Repr h l cs)
    (fuel : Nat) :
    (∃ h2 l2, list_clear fuel h l = Except.ok (h2, l2) ∧ Repr h2 l2 [] ∧
        l2.size = Nat.iterate size_dec cs.length l.size ∧ Untouched h l (addrs cs) h2 l2) ∨
      (list_clear fuel h l = Except.error Fault.out_of_fuel ∧ fuel < cs.length) := by
  induction cs generalizing h l fuel with
  | nil =>
    left
    refine ⟨h, l, ?_, hr, rfl, rfl, rfl, fun _ _ => rfl⟩
    have hfront : l.front = none := hr.2.2.2.1
    cases fuel <;> simp [list_clear, hfront]
  | cons c cs ih =>
    have hfront : l.front = some c.1 := hr.2.2.2.1
    cases fuel with
    | zero =>
      right
      refine ⟨?_, by simp⟩
      simp [list_clear, hfront]
    | succ fuel =>
      obtain ⟨h2, l2, e0, e1, e2, e3, e4, e5⟩ := pop_front_spec hr
      have hstep : list_clear (fuel + 1) h l = list_clear fuel h2 l2 := by
        simp [list_clear, hfront, list_pop_front, e0]
      rcases ih e1 fuel with ⟨h3, l3, g0, g1, g2, g3, g4, g5⟩ | ⟨g1, g2⟩
      · left
        refine ⟨h3, l3, hstep.trans g0, g1, ?_, g3.trans e3, g4.trans e4, ?_⟩
        · rw [g2, e2, List.length_cons, Function.iterate_succ, Function.comp_apply]
        · intro z hz
          rw [g5 z (fun hm => hz (by simp [hm])), e5 z hz]
      · right
        exact ⟨hstep.trans g1, by simp only [List.length_cons]; omega⟩

/-- A cursor obtained by `n` calls of `list_next` from a cursor on the head of a `next` chain
stands on the `n`-th node of the chain, or on NULL past its end. -/
theorem iter_advance_spec {h : Heap α} (n : Nat) (r : List (Nat × α)) (hf : Fwd h r none)
    (pos : list_iterator)
    (hadv : iter_advance h n (list_iterator.mk (headOr none r)) = Except.ok pos) :
    pos.node = headOr none (r.drop n) := by
  induction n generalizing r with
  | zero =>
    simp only [iter_advance] at hadv
    cases hadv
    rfl
  | succ n ih =>
    cases r with
    | nil =>
      simp only [iter_advance, headOr_nil, list_next, ok_bind] at hadv
      simpa using ih [] trivial hadv
    | cons c r =>
      obtain ⟨⟨nd, h1, -, h3⟩, h4⟩ := hf
      simp only [iter_advance, headOr_cons, list_next, load_of_cell h1, ok_bind, h3] at hadv
      simpa using ih r h4 hadv

/-- Allocation by `__alloc_node` hands out a fresh zeroed node and leaves every list as it
is. -/
theorem alloc_node_spec {h : Heap α} {l : list_t α} {cs : List (Nat × α)} (hok : HeapOK h)
    (hr : Repr h l cs) (d : α) :
    HeapOK (__alloc_node h d).1 ∧ Repr (__alloc_node h d).1 l cs ∧
      (__alloc_node h d).2 = h.brk ∧ h.brk ∉ addrs cs ∧
      (__alloc_node h d).1.cells h.brk = some (list_node.mk d none none) ∧
      (∀ a ∈ addrs cs, a < (__alloc_node h d).1.brk) := by
  have hlive : ∀ a ∈ addrs cs, a < h.brk := by
    intro a ha
    obtain ⟨c, hc, rfl⟩ := List.mem_map.1 ha
    obtain ⟨nd, hnd, -⟩ := repr_cell hr hc
    exact addr_lt_brk hok hnd
  have hfresh : h.brk ∉ addrs cs := fun hm => Nat.lt_irrefl _ (hlive _ hm)
  have hframe : ∀ a ∈ addrs cs, (__alloc_node h d).1.cells a = h.cells a := by
    intro a ha
    have : a ≠ h.brk := by rintro rfl; exact hfresh ha
    simp [__alloc_node, this]
  refine ⟨?_, ⟨hr.1, fwd_frame hframe hr.2.1, bwd_frame hframe hr.2.2.1, hr.2.2.2.1,
    hr.2.2.2.2⟩, rfl, hfresh, by simp [__alloc_node], ?_⟩
  · intro a ha
    have h1 : h.brk + 1 ≤ a := ha
    have h2 : a ≠ h.brk := by omega
    simp only [__alloc_node, h2, if_false]
    exact hok a (by omega)
  · intro a ha
    have := hlive a ha
    show a < h.brk + 1
    omega

end DList

namespace DList

variable {α : Type}

/-! ## Reachable lists are well formed -/

theorem live_of_repr {h : Heap α} {l : list_t α} {cs : List (Nat × α)} (hok : HeapOK h)
    (hr : Repr h l cs) : ∀ a ∈ addrs cs, a < h.brk := by
  intro a ha
  obtain ⟨c, hc, rfl⟩ := List.mem_map.1 ha
  obtain ⟨nd, hnd, -⟩ := repr_cell hr hc
  exact addr_lt_brk hok hnd

theorem heapOK_step {h h2 : Heap α} {l l2 : list_t α} {cs : List (Nat × α)} (hok : HeapOK h)
    (hr : Repr h l cs) (hu : Untouched h l (addrs cs) h2 l2) : HeapOK h2 :=
  heapOK_of_untouched hu (live_of_repr hok hr) hok

theorem heapOK_step_alloc {h h2 : Heap α} {l l2 : list_t α} {cs : List (Nat × α)} (d : α)
    (hok : HeapOK h) (hr : Repr h l cs)
    (hu : Untouched (__alloc_node h d).1 l (h.brk :: addrs cs) h2 l2) : HeapOK h2 := by
  obtain ⟨a1, -, -, -, a5, a6⟩ := alloc_node_spec hok hr d
  refine heapOK_of_untouched hu ?_ a1
  intro a ha
  rcases List.mem_cons.1 ha with rfl | ha
  · exact addr_lt_brk a1 a5
  · exact a6 a ha

theorem repr_nil_of_front {h : Heap α} {l : list_t α} {cs : List (Nat × α)} (hr : Repr h l cs)
    (hf : l.front = none) : cs = [] :=
  (headOr_eq_none cs).1 (hr.2.2.2.1 ▸ hf)

theorem repr_ends {h : Heap α} {l : list_t α} {cs : List (Nat × α)} (hr : Repr h l cs) :
    (l.front = none ↔ l.back = none) ∧
      (∀ f nd, l.front = some f → h.cells f = some nd → nd.prev = none) ∧
      (∀ b nd, l.back = some b → h.cells b = some nd → nd.next = none) := by
  obtain ⟨-, hf, hb, hfront, hback⟩ := hr
  refine ⟨?_, ?_, ?_⟩
  · rw [hfront, hback, headOr_eq_none, lastOr_eq_none]
  · intro f nd hf1 hc
    cases cs with
    | nil => rw [hfront] at hf1; cases hf1
    | cons c cs =>
      rw [hfront] at hf1
      simp only [headOr_cons, Option.some.injEq] at hf1
      subst hf1
      obtain ⟨⟨nd2, g1, -, g3⟩, -⟩ := hb
      rw [hc] at g1
      cases g1
      exact g3
  · intro b nd hb1 hc
    rcases List.eq_nil_or_concat cs with rfl | ⟨a, c, rfl⟩
    · rw [hback] at hb1; cases hb1
    · have hsn : a.concat c = a ++ [c] := by simp
      rw [hsn] at hf hback
      rw [hback] at hb1
      simp only [lastOr_snoc, Option.some.injEq] at hb1
      subst hb1
      rw [fwd_append] at hf
      obtain ⟨-, ⟨nd2, g1, -, g3⟩, -⟩ := hf
      rw [hc] at g1
      cases g1
      exact g3

theorem repr_next_prev {h : Heap α} {l : list_t α} {cs : List (Nat × α)} (hr : Repr h l cs)
    (c : Nat × α) (hc : c ∈ cs) (nd : list_node α) (m : Nat) (hcell : h.cells c.1 = some nd)
    (hnx : nd.next = some m) : ∃ md, h.cells m = some md ∧ md.prev = some c.1 := by
  obtain ⟨a, b, rfl⟩ := List.append_of_mem hc
  obtain ⟨-, -, -, -, ⟨nd2, g1, -, -, g4⟩, -⟩ := repr_split hr
  rw [hcell] at g1
  cases g1
  rw [hnx] at g4
  obtain ⟨mc, b2, rfl, hm⟩ := exists_cons_of_headOr g4.symm
  have hsplit : a ++ c :: mc :: b2 = (a ++ [c]) ++ mc :: b2 := by simp
  rw [hsplit] at hr
  obtain ⟨-, -, -, -, ⟨nd3, k1, -, k3, -⟩, -⟩ := repr_split hr
  rw [hm] at k1
  exact ⟨nd3, k1, by simpa using k3⟩

/-- Every reachable state is a well-formed list over some sequence of distinct nodes. -/
theorem reach_repr {lcomp : α → α → Int} {h : Heap α} {l : list_t α} (hreach : Reach lcomp h l) :
    ∃ cs, HeapOK h ∧ Repr h l cs := by
  induction hreach with
  | init h hok => exact ⟨[], hok, by simp, trivial, trivial, rfl, rfl⟩
  | push_front h h2 l l2 d _ hop ih =>
    obtain ⟨cs, hok, hr⟩ := ih
    obtain ⟨a1, a2, a3, a4, a5, -⟩ := alloc_node_spec hok hr d
    obtain ⟨h3, l3, e0, e1, -, e3⟩ := insert_front_spec a2 a4 a5
    simp only [list_push_front, a3] at hop
    rw [e0] at hop
    cases hop
    exact ⟨_, heapOK_step_alloc d hok hr e3, e1⟩
  | push_back h h2 l l2 d _ hop ih =>
    obtain ⟨cs, hok, hr⟩ := ih
    obtain ⟨a1, a2, a3, a4, a5, -⟩ := alloc_node_spec hok hr d
    obtain ⟨h3, l3, e0, e1, -, e3⟩ := insert_back_repr a2 a4 a5
    simp only [list_push_back, a3] at hop
    rw [e0] at hop
    cases hop
    exact ⟨_, heapOK_step_alloc d hok hr e3, e1⟩
  | pop_front h h2 l l2 _ hop ih =>
    obtain ⟨cs, hok, hr⟩ := ih
    cases cs with
    | nil =>
      have hf : l.front = none := hr.2.2.2.1
      simp only [list_pop_front, __list_pop_front, hf] at hop
      cases hop
      exact ⟨[], hok, hr⟩
    | cons c cs =>
      obtain ⟨h3, l3, e0, e1, -, e3⟩ := pop_front_spec hr
      simp only [list_pop_front] at hop
      rw [e0] at hop
      cases hop
      exact ⟨cs, heapOK_step hok hr e3, e1⟩
  | pop_back h h2 l l2 _ hop ih =>
    obtain ⟨cs, hok, hr⟩ := ih
    rcases List.eq_nil_or_concat cs with rfl | ⟨a, c, rfl⟩
    · have hb : l.back = none := hr.2.2.2.2
      simp only [list_pop_back, __list_pop_back, hb] at hop
      cases hop
      exact ⟨[], hok, hr⟩
    · have hsn : a.concat c = a ++ [c] := by simp
      rw [hsn] at hr
      obtain ⟨h3, l3, e0, e1, -, e3⟩ := pop_back_spec hr
      simp only [list_pop_back] at hop
      rw [e0] at hop
      cases hop
      exact ⟨a, heapOK_step hok hr e3, e1⟩
  | insert_before_null h h2 l l2 d _ hop ih =>
    simp only [list_insert_before] at hop
    cases hop
    exact ih
  | insert_before h h2 l l2 n pos d _ hadv hop ih =>
    obtain ⟨cs, hok, hr⟩ := ih
    have hpos := iter_advance_spec n cs hr.2.1 pos (by
      rw [← hr.2.2.2.1]
      exact hadv)
    cases hdrop : cs.drop n with
    | nil =>
      rw [hdrop] at hpos
      simp only [headOr_nil] at hpos
      simp only [list_insert_before, hpos] at hop
      cases hop
      exact ⟨cs, hok, hr⟩
    | cons c b =>
      rw [hdrop] at hpos
      simp only [headOr_cons] at hpos
      have hcs : cs = cs.take n ++ c :: b := by
        rw [← hdrop, List.take_append_drop]
      rw [hcs] at hr
      obtain ⟨a1, a2, a3, a4, a5, -⟩ := alloc_node_spec hok hr d
      obtain ⟨h3, l3, e0, e1, -, e3⟩ := insert_before_spec a2 a4 a5
      simp only [list_insert_before, hpos, a3] at hop
      rw [e0] at hop
      cases hop
      exact ⟨_, heapOK_step_alloc d hok hr e3, e1⟩
  | insert fuel h h2 l l2 d _ hop ih =>
    obtain ⟨cs, hok, hr⟩ := ih
    obtain ⟨a1, a2, a3, a4, a5, -⟩ := alloc_node_spec hok hr d
    simp only [list_insert, __list_insert, a3, load_of_cell a5, ok_bind, a2.2.2.2.1] at hop
    rcases insert_loop_spec a5 cs [] (by simpa using a2) (by simpa using a4) (by simp) fuel with
      ⟨h3, l3, e0, a, b, -, -, -, e4, -, e6⟩ | ⟨e0, -⟩
    · rw [e0] at hop
      cases hop
      exact ⟨_, heapOK_step_alloc d hok hr (by simpa using e6), e4⟩
    · rw [e0] at hop
      cases hop
  | erase fuel h h2 l l2 d _ hop ih =>
    obtain ⟨cs, hok, hr⟩ := ih
    simp only [list_erase, __list_find, hr.2.2.2.1] at hop
    rcases find_loop_spec l.list_comp d h cs hr.2.1 fuel with ⟨res, e0, e1⟩ | ⟨e0, -⟩
    · rw [e0] at hop
      rcases e1 with ⟨rfl, -⟩ | ⟨a, c, b, rfl, rfl, -, -⟩
      · simp only [ok_bind] at hop
        cases hop
        exact ⟨cs, hok, hr⟩
      · obtain ⟨h3, l3, g0, g1, -, g3⟩ := erase_spec hr
        simp only [ok_bind] at hop
        rw [g0] at hop
        cases hop
        exact ⟨_, heapOK_step hok hr g3, g1⟩
    · rw [e0] at hop
      cases hop
  | reverse fuel h h2 l l2 _ hop ih =>
    obtain ⟨cs, hok, hr⟩ := ih
    simp only [list_reverse, hr.2.2.2.1] at hop
    have hr0 : Repr h (list_t.mk l.size none none l.list_comp) [] :=
      ⟨by simp, trivial, trivial, rfl, rfl⟩
    rcases reverse_loop_spec cs [] hr0 hr.2.1 (by simpa using hr.1) fuel with
      ⟨h3, l3, e0, e1, -, e3⟩ | ⟨e0, -⟩
    · rw [e0] at hop
      cases hop
      refine ⟨_, ?_, e1⟩
      refine heapOK_of_untouched e3 ?_ hok
      simpa using live_of_repr hok hr
    · rw [e0] at hop
      cases hop
  | unique fuel h h2 l l2 _ hop ih =>
    obtain ⟨cs, hok, hr⟩ := ih
    cases cs with
    | nil =>
      have hf : l.front = none := hr.2.2.2.1
      simp only [list_unique, hf] at hop
      rw [unique_loop] at hop
      cases hop
      exact ⟨[], hok, hr⟩
    | cons x b =>
      have hf : l.front = some x.1 := hr.2.2.2.1
      simp only [list_unique, hf] at hop
      rcases unique_loop_spec b [] x (by simpa using hr) fuel with
        ⟨h3, l3, e0, e1, -, e3⟩ | ⟨e0, -⟩
      · rw [e0] at hop
        cases hop
        exact ⟨_, heapOK_step hok hr (by simpa using e3), e1⟩
      · rw [e0] at hop
        cases hop
  | clear fuel h h2 l l2 _ hop ih =>
    obtain ⟨cs, hok, hr⟩ := ih
    rcases list_clear_spec cs hr fuel with ⟨h3, l3, e0, e1, -, e3⟩ | ⟨e0, -⟩
    · rw [e0] at hop
      cases hop
      exact ⟨[], heapOK_step hok hr e3, e1⟩
    · rw [e0] at hop
      cases hop

end DList

namespace DList

variable {α : Type}

/-! ## The claims about the list -/

theorem int_comp_total : TotalComp int_comp := by
  constructor
  · intro a b
    simp only [int_comp]
    omega
  · intro a b c
    simp only [int_comp]
    omega

theorem sample_repr1 : Repr sample_heap sample_list1 [(0, 1), (1, 5)] :=
  ⟨by decide, ⟨⟨_, rfl, rfl, rfl⟩, ⟨_, rfl, rfl, rfl⟩, trivial⟩,
    ⟨⟨_, rfl, rfl, rfl⟩, ⟨_, rfl, rfl, rfl⟩, trivial⟩, rfl, rfl⟩

theorem sample_repr2 : Repr sample_heap sample_list2 [(2, 2), (3, 3)] :=
  ⟨by decide, ⟨⟨_, rfl, rfl, rfl⟩, ⟨_, rfl, rfl, rfl⟩, trivial⟩,
    ⟨⟨_, rfl, rfl, rfl⟩, ⟨_, rfl, rfl, rfl⟩, trivial⟩, rfl, rfl⟩

/-- C6 (the code departs from the claim): merging the non-empty lists `[1]` and `[2]`
returns a list whose walk along `next` links from the front visits 1, 2, but whose walk along
`prev` links from the back visits 2 only: the node holding 2 is the `next` of the node holding
1, yet its `prev` pointer is NULL. -/
theorem list_merge_breaks_prev_links :
    (merge_one_two >>= fun r => walk_next r.1 4 r.2.front) = Except.ok [1, 2] ∧
      (merge_one_two >>= fun r => walk_prev r.1 4 r.2.back) = Except.ok [2] ∧
      (merge_one_two >>= fun r => load r.1 r.2.back) =
        Except.ok (list_node.mk 2 none none) := by
  refine ⟨rfl, rfl, rfl⟩

/-- C7: every list reachable from `list_init` by `list_push_front`, `list_push_back`,
`list_pop_front`, `list_pop_back`, `list_insert_before`, `list_insert`, `list_erase`,
`list_reverse`, `list_unique` and `list_clear` is a well-formed doubly linked list over a
sequence `cs` of distinct live nodes: `front` and `back` are both NULL or both non-NULL,
`front->prev` and `back->next` are NULL, every node `n` with a `next` satisfies
`n->next->prev == n`, and walking `next` links from `front` visits exactly `cs`, ends at NULL,
and `back` is the last node visited. -/
theorem list_reachable_well_formed (lcomp : α → α → Int) (h : Heap α) (l : list_t α)
    (hreach : Reach lcomp h l) :
    ∃ cs, Repr h l cs ∧ (l.front = none ↔ l.back = none) ∧
      (∀ f nd, l.front = some f → h.cells f = some nd → nd.prev = none) ∧
      (∀ b nd, l.back = some b → h.cells b = some nd → nd.next = none) ∧
      (∀ c ∈ cs, ∀ nd m, h.cells c.1 = some nd → nd.next = some m →
        ∃ md, h.cells m = some md ∧ md.prev = some c.1) ∧
      (∀ fuel, cs.length ≤ fuel → walk_next h fuel l.front = Except.ok (datas cs)) ∧
      l.back = lastOr none cs := by
  obtain ⟨cs, -, hr⟩ := reach_repr hreach
  obtain ⟨e1, e2, e3⟩ := repr_ends hr
  refine ⟨cs, hr, e1, e2, e3, fun c hc nd m => repr_next_prev hr c hc nd m, ?_, hr.2.2.2.2⟩
  intro fuel hfuel
  rw [hr.2.2.2.1]
  exact walk_next_of_fwd hr.2.1 fuel hfuel

/-- C8 (the code departs from the claim): after building `[1, 2, 3]` with `list_push_back`
and calling `list_reverse`, walking `next` links from the front visits three nodes but
`list_size` is 6; and after building `[1]`, reversing it and popping its only node, no node
is left but `list_empty` is false. -/
theorem list_reverse_doubles_size :
    (reverse_one_two_three >>= fun r => walk_next r.1 4 r.2.front) = Except.ok [3, 2, 1] ∧
      (reverse_one_two_three >>= fun r => Except.ok (list_size r.2)) =
        (Except.ok 6 : Except Fault Nat) ∧
      (reverse_then_pop >>= fun r => walk_next r.1 4 r.2.front) = Except.ok [] ∧
      (reverse_then_pop >>= fun r => Except.ok (list_empty r.2)) =
        (Except.ok false : Except Fault Bool) := by
  refine ⟨rfl, rfl, rfl, rfl⟩

/-- C9 (the code departs from the claim): merging an empty list with the list `[1]`
dereferences a NULL pointer (`list->back` of the still empty result), whereas merging two
empty lists returns an empty list. -/
theorem list_merge_empty_null_deref :
    merge_empty_one = Except.error Fault.null_deref ∧
      list_merge 2 Heap.empty (list_init int_comp) (list_init int_comp) =
        Except.ok (Heap.empty, list_init int_comp) := by
  exact ⟨rfl, rfl⟩

/-- The call of `list_merge` dereferences NULL whenever exactly the first list is empty. -/
theorem list_merge_left_empty_faults (fuel : Nat) (h : Heap α) (l1 l2 : list_t α) (a : Nat)
    (h1 : l1.front = none) (h2 : l2.front = some a) :
    list_merge fuel h l1 l2 = Except.error Fault.null_deref := by
  cases fuel <;> simp [list_merge, merge_loop, h1, h2, list_init, set_next]

/-- The call of `list_merge` dereferences NULL whenever exactly the second list is empty. -/
theorem list_merge_right_empty_faults (fuel : Nat) (h : Heap α) (l1 l2 : list_t α) (a : Nat)
    (h1 : l1.front = some a) (h2 : l2.front = none) :
    list_merge fuel h l1 l2 = Except.error Fault.null_deref := by
  cases fuel <;> simp [list_merge, merge_loop, h1, h2, list_init, set_next]

/-- C10 (counterexample): the list `[1]` built by `list_push_back` and reversed by
`list_reverse` (a well-formed one-node list whose size field is 2) and the list `[2]` built by
`list_push_back` (size field 1) are non-empty and sorted; `list_merge` returns a list whose
walk along `next` links visits 1, 2 and whose size is 2, which is not the sum 3 of the two
input sizes. -/
theorem list_merge_size_not_sum_of_input_sizes :
    ∃ h l1 l2 h2 l, reversed_one_and_two = Except.ok (h, l1, l2) ∧
      Repr h l1 [(0, 1)] ∧ Repr h l2 [(1, 2)] ∧
      walk_next h 1 l1.front = Except.ok [1] ∧ walk_next h 1 l2.front = Except.ok [2] ∧
      list_size l1 = 2 ∧ list_size l2 = 1 ∧
      list_merge 2 h l1 l2 = Except.ok (h2, l) ∧
      walk_next h2 2 l.front = Except.ok [1, 2] ∧ list_size l = 2 ∧
      list_size l ≠ list_size l1 + list_size l2 :=
  ⟨_, _, _, _, _, rfl,
    ⟨by decide, ⟨⟨_, rfl, rfl, rfl⟩, trivial⟩, ⟨⟨_, rfl, rfl, rfl⟩, trivial⟩, rfl, rfl⟩,
    ⟨by decide, ⟨⟨_, rfl, rfl, rfl⟩, trivial⟩, ⟨⟨_, rfl, rfl, rfl⟩, trivial⟩, rfl, rfl⟩,
    rfl, rfl, rfl, rfl, rfl, rfl, rfl, by decide⟩

/-- C10 (amended): for two non-empty chains of `next` links over distinct nodes, reached from
the fronts of two lists (neither the `prev` links nor the `back` pointers are asked for, so a
result of `list_merge` qualifies as an input), each sorted ascending under the shared
comparison handler, `list_merge` returns (any step bound of at least the two lengths is
enough), and the walk along `next` links from the front of the result is the interleaving
`merge_by` of the two input sequences, which keeps each input's order and puts the element of
the second list first on ties; it is sorted ascending, and it runs over the distinct nodes
`zc` of the two inputs. When the `size` field of each input is its number of nodes, and the
sum fits `size_t`, the size of the result is the sum of the two input sizes. -/
theorem list_merge_sorted_interleaving (comp : α → α → Int) (hc : TotalComp comp)
    (h : Heap α) (l1 l2 : list_t α) (xs ys : List (Nat × α))
    (hx : Fwd h xs none) (hy : Fwd h ys none)
    (hf1 : l1.front = headOr none xs) (hf2 : l2.front = headOr none ys)
    (hnd : (addrs (xs ++ ys)).Nodup)
    (hne1 : xs ≠ []) (hne2 : ys ≠ []) (hc1 : l1.list_comp = comp)
    (hsx : SortedBy comp (datas xs)) (hsy : SortedBy comp (datas ys))
    (fuel : Nat) (hfuel : xs.length + ys.length ≤ fuel) :
    ∃ h2 l zs, list_merge fuel h l1 l2 = Except.ok (h2, l) ∧
      walk_next h2 fuel l.front = Except.ok zs ∧
      zs = merge_by (fun a b => decide (comp a b < 0)) (datas xs) (datas ys) ∧
      SortedBy comp zs ∧ List.Sublist (datas xs) zs ∧ List.Sublist (datas ys) zs ∧
      List.Perm zs (datas xs ++ datas ys) ∧
      (∃ zc, datas zc = zs ∧ List.Perm zc (xs ++ ys) ∧ (addrs zc).Nodup ∧ Fwd h2 zc none ∧
        l.front = headOr none zc) ∧
      (list_size l1 = xs.length → list_size l2 = ys.length →
        xs.length + ys.length < SIZE_MODULUS → list_size l = list_size l1 + list_size l2) := by
  obtain ⟨h2, l, e0, e1, e2, -, e4, -⟩ :=
    list_merge_spec fuel h l1 l2 xs ys hx hy hf1 hf2 hnd hne1 hne2 hfuel
  rw [hc1] at e1 e2
  have hdat : datas (merge_by (fun a b : Nat × α => decide (comp a.2 b.2 < 0)) xs ys) =
      merge_by (fun a b => decide (comp a b < 0)) (datas xs) (datas ys) :=
    merge_by_map Prod.snd (fun a b => decide (comp a b < 0)) xs ys
  refine ⟨h2, l, _, e0, ?_, rfl, merge_by_sorted hc _ _ hsx hsy, merge_by_sublist_left _ _ _,
    merge_by_sublist_right _ _ _, merge_by_perm _ _ _,
    ⟨_, hdat, merge_by_perm _ xs ys,
      nodup_addrs_perm (merge_by_perm _ xs ys).symm hnd, e1, e2⟩, ?_⟩
  · rw [e2, ← hdat]
    apply walk_next_of_fwd e1
    rw [merge_by_length]
    exact hfuel
  · intro hs1 hs2 hM
    show l.size = l1.size + l2.size
    rw [e4 hs1 hs2 hM]
    show _ = list_size l1 + list_size l2
    rw [hs1, hs2]

theorem list_merge_sorted_interleaving_witness :
    TotalComp int_comp ∧ Fwd sample_heap [(0, 1), (1, 5)] none ∧
      Fwd sample_heap [(2, 2), (3, 3)] none ∧
      ∃ h2 l zs, list_merge 4 sample_heap sample_list1 sample_list2 = Except.ok (h2, l) ∧
        walk_next h2 4 l.front = Except.ok zs ∧
        zs = merge_by (fun a b => decide (int_comp a b < 0)) (datas [(0, 1), (1, 5)])
          (datas [(2, 2), (3, 3)]) ∧
        SortedBy int_comp zs ∧ List.Sublist (datas [(0, 1), (1, 5)]) zs ∧
        List.Sublist (datas [(2, 2), (3, 3)]) zs ∧
        List.Perm zs (datas [(0, 1), (1, 5)] ++ datas [(2, 2), (3, 3)]) ∧
        (∃ zc, datas zc = zs ∧ List.Perm zc ([(0, 1), (1, 5)] ++ [(2, 2), (3, 3)]) ∧
          (addrs zc).Nodup ∧ Fwd h2 zc none ∧ l.front = headOr none zc) ∧
        list_size l = list_size sample_list1 + list_size sample_list2 := by
  obtain ⟨h2, l, zs, e0, e1, e2, e3, e4, e5, e6, e7, e8⟩ :=
    list_merge_sorted_interleaving int_comp int_comp_total sample_heap sample_list1 sample_list2
      [(0, 1), (1, 5)] [(2, 2), (3, 3)] sample_repr1.2.1 sample_repr2.2.1 rfl rfl (by decide)
      (by simp) (by simp) rfl (by simp [SortedBy, datas, int_comp])
      (by simp [SortedBy, datas, int_comp]) 4 (by simp)
  exact ⟨int_comp_total, sample_repr1.2.1, sample_repr2.2.1, h2, l, zs, e0, e1, e2, e3, e4, e5,
    e6, e7, e8 rfl rfl (by simp [SIZE_MODULUS])⟩

theorem one_node_reach : Reach int_comp one_node_heap one_node_list :=
  Reach.push_back Heap.empty one_node_heap (list_init int_comp) one_node_list 7
    (Reach.init Heap.empty (fun _ _ => rfl)) rfl

theorem mutator_run_reach : ∃ h l, mutator_run = Except.ok (h, l) ∧ Reach int_comp h l ∧
    walk_next h 4 l.front = Except.ok [2, 5, 3, 9] ∧
    walk_prev h 4 l.back = Except.ok [9, 3, 5, 2] :=
  ⟨_, _, rfl,
    Reach.push_front _ _ _ _ 2
      (Reach.push_back _ _ _ _ 9
        (Reach.pop_back _ _ _ _
          (Reach.pop_front _ _ _ _
            (Reach.erase 5 _ _ _ _ 7
              (Reach.push_back _ _ _ _ 3
                (Reach.insert 3 _ _ _ _ 6
                  (Reach.insert_before _ _ _ _ 1 _ 5
                    (Reach.reverse 2 _ _ _ _
                      (Reach.push_front _ _ _ _ 3
                        (Reach.push_back Heap.empty _ (list_init int_comp) _ 7
                          (Reach.init Heap.empty (fun _ _ => rfl)) rfl)
                        rfl)
                      rfl)
                    rfl rfl)
                  rfl)
                rfl)
              rfl)
            rfl)
          rfl)
        rfl)
      rfl, rfl, rfl⟩

theorem list_reachable_well_formed_witness :
    ∃ h l, mutator_run = Except.ok (h, l) ∧ Reach int_comp h l ∧
      walk_next h 4 l.front = Except.ok [2, 5, 3, 9] ∧
      walk_prev h 4 l.back = Except.ok [9, 3, 5, 2] ∧
      ∃ cs, Repr h l cs ∧
        (l.front = none ↔ l.back = none) ∧
        (∀ f nd, l.front = some f → h.cells f = some nd → nd.prev = none) ∧
        (∀ b nd, l.back = some b → h.cells b = some nd → nd.next = none) ∧
        (∀ c ∈ cs, ∀ nd m, h.cells c.1 = some nd → nd.next = some m →
          ∃ md, h.cells m = some md ∧ md.prev = some c.1) ∧
        (∀ fuel, cs.length ≤ fuel → walk_next h fuel l.front = Except.ok (datas cs)) ∧
        l.back = lastOr none cs := by
  obtain ⟨h, l, e0, hreach, e1, e2⟩ := mutator_run_reach
  exact ⟨h, l, e0, hreach, e1, e2, list_reachable_well_formed int_comp h l hreach⟩

end DList

namespace DList

variable {α : Type}

theorem unique_from_map {β γ : Type} (f : β → γ) (eq : γ → γ → Bool) (x : β) (ys : List β) :
    (unique_from (fun u v => eq (f u) (f v)) x ys).map f = unique_from eq (f x) (ys.map f) := by
  induction ys generalizing x with
  | nil => rfl
  | cons y ys ih =>
    simp only [unique_from, List.map_cons]
    split_ifs
    · exact ih x
    · simp [ih y]

theorem unique_from_sublist {β : Type} (eq : β → β → Bool) (x : β) (ys : List β) :
    List.Sublist (unique_from eq x ys) ys := by
  induction ys generalizing x with
  | nil => exact List.Sublist.slnil
  | cons y ys ih =>
    simp only [unique_from]
    split_ifs
    · exact List.Sublist.cons y (ih x)
    · exact List.Sublist.cons₂ y (ih y)

theorem unique_from_chain {β : Type} (eq : β → β → Bool) (x : β) (ys : List β) :
    List.Chain (fun u v => eq u v = false) x (unique_from eq x ys) := by
  induction ys generalizing x with
  | nil => exact List.Chain.nil
  | cons y ys ih =>
    simp only [unique_from]
    split_ifs with hxy
    · exact ih x
    · exact List.Chain.cons (by simpa using hxy) (ih y)

theorem sorted_insert {comp : α → α → Int} (hc : TotalComp comp) (d : α) (a b : List α)
    (hs : SortedBy comp (a ++ b)) (ha : ∀ x ∈ a, ¬ comp d x < 0)
    (hb : ∀ c ∈ b.head?, comp d c < 0) :
    (∀ y ∈ b, comp d y < 0) ∧ SortedBy comp (a ++ d :: b) := by
  obtain ⟨h1, h2, h3⟩ := List.pairwise_append.1 hs
  have hall : ∀ y ∈ b, comp d y < 0 := by
    cases b with
    | nil => intro y hy; cases hy
    | cons c b =>
      have hdc : comp d c < 0 := hb c rfl
      intro y hy
      rcases List.mem_cons.1 hy with rfl | hy
      · exact hdc
      · by_contra hn
        have h4 : comp c y ≤ 0 := (List.pairwise_cons.1 h2).1 y hy
        have h5 : comp y d ≤ 0 := by
          have := (hc.antisymm d y).not.1 hn
          omega
        have h6 : comp c d ≤ 0 := hc.le_trans c y d h4 h5
        have h7 : 0 < comp c d := (hc.antisymm d c).1 hdc
        omega
  refine ⟨hall, List.pairwise_append.2 ⟨h1, List.pairwise_cons.2 ⟨?_, h2⟩, ?_⟩⟩
  · intro y hy
    exact le_of_lt (hall y hy)
  · intro x hx y hy
    rcases List.mem_cons.1 hy with rfl | hy
    · have := (hc.antisymm y x).not.1 (ha x hx)
      omega
    · exact h3 x hx y hy

end DList

namespace DList

variable {α : Type}

theorem sample_heapOK : HeapOK sample_heap := by
  intro a ha
  obtain ⟨k, rfl⟩ : ∃ k, a = k + 4 := ⟨a - 4, by have : sample_heap.brk = 4 := rfl; omega⟩
  rfl

theorem dup_repr : Repr dup_heap dup_list [(0, 1), (1, 1), (2, 2)] :=
  ⟨by decide, ⟨⟨_, rfl, rfl, rfl⟩, ⟨_, rfl, rfl, rfl⟩, ⟨_, rfl, rfl, rfl⟩, trivial⟩,
    ⟨⟨_, rfl, rfl, rfl⟩, ⟨_, rfl, rfl, rfl⟩, ⟨_, rfl, rfl, rfl⟩, trivial⟩, rfl, rfl⟩

theorem datas_append (a b : List (Nat × α)) : datas (a ++ b) = datas a ++ datas b := by
  simp [datas]

theorem datas_cons (c : Nat × α) (b : List (Nat × α)) : datas (c :: b) = c.2 :: datas b := rfl

/-- C11: for a well-formed list over allocated nodes that is sorted ascending under its
comparison handler (a total preorder), `list_insert` of a datum `d` returns (any step bound of
at least the length is enough) a well-formed list whose walk along `next` links from the front
is the old sequence `a ++ b` with `d` put between `a` and `b`, where no element of `a` is
strictly greater than `d` and every element of `b`, the one right after `d` included, is
strictly greater than `d`, so that `d` comes after all elements equal to it and at the back
when no element is strictly greater; the new sequence is sorted ascending, and the size is the
old size plus 1 (the old size plus 1 fitting `size_t`). -/
theorem list_insert_sorted_position (comp : α → α → Int) (hc : TotalComp comp)
    (h : Heap α) (l : list_t α) (cs : List (Nat × α)) (d : α)
    (hok : HeapOK h) (hr : Repr h l cs) (hcomp : l.list_comp = comp)
    (hs : SortedBy comp (datas cs)) (hM : list_size l + 1 < SIZE_MODULUS)
    (fuel : Nat) (hfuel : cs.length ≤ fuel) :
    ∃ h2 l2 a b, list_insert fuel h l d = Except.ok (h2, l2) ∧
      cs = a ++ b ∧ Repr h2 l2 (a ++ (h.brk, d) :: b) ∧
      walk_next h2 (fuel + 1) l2.front = Except.ok (datas a ++ d :: datas b) ∧
      (∀ x ∈ datas a, ¬ comp d x < 0) ∧ (∀ y ∈ datas b, comp d y < 0) ∧
      SortedBy comp (datas a ++ d :: datas b) ∧
      list_size l2 = list_size l + 1 := by
  subst hcomp
  obtain ⟨-, a2, a3, a4, a5, -⟩ := alloc_node_spec hok hr d
  have hfront : l.front = headOr none cs := hr.2.2.2.1
  rcases insert_loop_spec a5 cs [] (by simpa using a2) (by simpa using a4) (by simp) fuel with
    ⟨h3, l3, e0, a, b, e1, e2, e3, e4, e5, -⟩ | ⟨-, e1⟩
  · have hcs : cs = a ++ b := by simpa using e1
    have ha : ∀ x ∈ datas a, ¬ l.list_comp d x < 0 := by
      intro x hx
      obtain ⟨c, hc1, rfl⟩ := List.mem_map.1 hx
      exact e2 c hc1
    have hb : ∀ c ∈ (datas b).head?, l.list_comp d c < 0 := by
      cases b with
      | nil => intro c hc1; cases hc1
      | cons c0 b =>
        intro c hc1
        cases hc1
        exact e3 c0 rfl
    have hs2 : SortedBy l.list_comp (datas a ++ datas b) := by
      rw [← datas_append, ← hcs]
      exact hs
    obtain ⟨s1, s2⟩ := sorted_insert hc d (datas a) (datas b) hs2 ha hb
    refine ⟨h3, l3, a, b, ?_, hcs, e4, ?_, ha, s1, s2, ?_⟩
    · simp only [list_insert, __list_insert, a3, load_of_cell a5, ok_bind, hfront]
      exact e0
    · have hw := walk_next_of_fwd e4.2.1 (fuel + 1) (by
        rw [hcs] at hfuel
        simp only [List.length_append, List.length_cons] at hfuel ⊢
        omega)
      rw [← e4.2.2.2.1, datas_append, datas_cons] at hw
      exact hw
    · show l3.size = l.size + 1
      rw [e5]
      exact size_inc_of_lt hM
  · omega

theorem list_insert_sorted_position_witness :
    TotalComp int_comp ∧ HeapOK sample_heap ∧ Repr sample_heap sample_list1 [(0, 1), (1, 5)] ∧
      ∃ h2 l2 a b, list_insert 2 sample_heap sample_list1 3 = Except.ok (h2, l2) ∧
        [(0, 1), (1, 5)] = a ++ b ∧ Repr h2 l2 (a ++ (sample_heap.brk, 3) :: b) ∧
        walk_next h2 (2 + 1) l2.front = Except.ok (datas a ++ 3 :: datas b) ∧
        (∀ x ∈ datas a, ¬ int_comp 3 x < 0) ∧ (∀ y ∈ datas b, int_comp 3 y < 0) ∧
        SortedBy int_comp (datas a ++ 3 :: datas b) ∧
        list_size l2 = list_size sample_list1 + 1 :=
  ⟨int_comp_total, sample_heapOK, sample_repr1,
    list_insert_sorted_position int_comp int_comp_total sample_heap sample_list1
      [(0, 1), (1, 5)] 3 sample_heapOK sample_repr1 rfl (by simp [SortedBy, datas, int_comp])
      (by simp [SIZE_MODULUS, list_size, sample_list1]) 2 (by simp)⟩

end DList

namespace DList

variable {α : Type}

theorem eraseP_first {β : Type} (p : β → Bool) (a b : List β) (c : β) (hc : p c = true)
    (ha : ∀ x ∈ a, p x = false) : (a ++ c :: b).eraseP p = a ++ b := by
  induction a with
  | nil => simp [List.eraseP, hc]
  | cons x a ih =>
    have hx : p x = false := ha x (List.mem_cons_self x a)
    show (x :: (a ++ c :: b)).eraseP p = x :: (a ++ b)
    rw [List.eraseP_cons, hx, ih fun y hy => ha y (List.mem_cons_of_mem x hy)]
    rfl

theorem eraseP_none {β : Type} (p : β → Bool) (a : List β) (ha : ∀ x ∈ a, p x = false) :
    a.eraseP p = a := by
  induction a with
  | nil => rfl
  | cons x a ih =>
    have hx : p x = false := ha x (List.mem_cons_self x a)
    rw [List.eraseP_cons, hx, ih fun y hy => ha y (List.mem_cons_of_mem x hy)]
    rfl

/-- C12: for a well-formed list whose size field counts at least its nodes and fits `size_t`
(in particular when it is exact), `list_erase` of a datum `d` returns (any step bound of at
least the length is enough) and the walk along `next` links from the front of the result is
the old sequence without its first element comparing equal to `d`. Either the old sequence is
`a ++ c :: b` with `c` comparing equal to `d` and no element of `a` doing so, the result is the
well-formed list over `a ++ b`, and the size went down by 1; or no element compares equal to
`d` and neither the nodes nor the handle (front, back, size) changed. -/
theorem list_erase_first_equal (h : Heap α) (l : list_t α) (cs : List (Nat × α)) (d : α)
    (hr : Repr h l cs) (hs : cs.length ≤ list_size l) (hM : list_size l < SIZE_MODULUS)
    (fuel : Nat) (hfuel : cs.length ≤ fuel) :
    ∃ h2 l2, list_erase fuel h l d = Except.ok (h2, l2) ∧
      walk_next h2 fuel l2.front =
        Except.ok ((datas cs).eraseP fun x => decide (l.list_comp x d = 0)) ∧
      ((∃ a c b, cs = a ++ c :: b ∧ l.list_comp c.2 d = 0 ∧
          (∀ x ∈ a, l.list_comp x.2 d ≠ 0) ∧ Repr h2 l2 (a ++ b) ∧
          walk_next h2 fuel l2.front = Except.ok (datas a ++ datas b) ∧
          list_size l2 + 1 = list_size l) ∨
        ((∀ x ∈ cs, l.list_comp x.2 d ≠ 0) ∧ h2 = h ∧ l2 = l)) := by
  rcases find_loop_spec l.list_comp d h cs hr.2.1 fuel with ⟨res, e0, e1⟩ | ⟨-, e1⟩
  · rcases e1 with ⟨rfl, e2⟩ | ⟨a, c, b, rfl, rfl, e2, e3⟩
    · refine ⟨h, l, ?_, ?_, Or.inr ⟨e2, rfl, rfl⟩⟩
      · simp only [list_erase, __list_find, hr.2.2.2.1, e0, ok_bind]
      · rw [eraseP_none, hr.2.2.2.1]
        · exact walk_next_of_fwd hr.2.1 fuel hfuel
        · intro x hx
          obtain ⟨c, hc1, rfl⟩ := List.mem_map.1 hx
          simpa using e2 c hc1
    · obtain ⟨h3, l3, g0, g1, g2, -⟩ := erase_spec hr
      have hw : walk_next h3 fuel l3.front = Except.ok (datas a ++ datas b) := by
        rw [g1.2.2.2.1, ← datas_append]
        apply walk_next_of_fwd g1.2.1
        simp only [List.length_append, List.length_cons] at hfuel ⊢
        omega
      refine ⟨h3, l3, ?_, ?_, Or.inl ⟨a, c, b, rfl, e2, e3, g1, hw, ?_⟩⟩
      · simp only [list_erase, __list_find, hr.2.2.2.1, e0, ok_bind]
        exact g0
      · rw [hw, datas_append, datas_cons, eraseP_first]
        · simpa using e2
        · intro x hx
          obtain ⟨c1, hc1, rfl⟩ := List.mem_map.1 hx
          simpa using e3 c1 hc1
      · show l3.size + 1 = l.size
        have h1 : 0 < l.size := by
          have : (a ++ c :: b).length ≤ l.size := hs
          simp only [List.length_append, List.length_cons] at this
          omega
        rw [g2, size_dec_of_pos h1 hM]
        omega
  · omega

theorem list_erase_first_equal_witness :
    Repr sample_heap sample_list1 [(0, 1), (1, 5)] ∧
      ∃ h2 l2, list_erase 2 sample_heap sample_list1 5 = Except.ok (h2, l2) ∧
        walk_next h2 2 l2.front =
          Except.ok ((datas [(0, 1), (1, 5)]).eraseP fun x =>
            decide (sample_list1.list_comp x 5 = 0)) ∧
        ((∃ a c b, [(0, 1), (1, 5)] = a ++ c :: b ∧ sample_list1.list_comp c.2 5 = 0 ∧
            (∀ x ∈ a, sample_list1.list_comp x.2 5 ≠ 0) ∧ Repr h2 l2 (a ++ b) ∧
            walk_next h2 2 l2.front = Except.ok (datas a ++ datas b) ∧
            list_size l2 + 1 = list_size sample_list1) ∨
          ((∀ x ∈ [(0, 1), (1, 5)], sample_list1.list_comp x.2 5 ≠ 0) ∧ h2 = sample_heap ∧
            l2 = sample_list1)) :=
  ⟨sample_repr1,
    list_erase_first_equal sample_heap sample_list1 [(0, 1), (1, 5)] 5 sample_repr1
      (by simp [list_size, sample_list1]) (by simp [SIZE_MODULUS, list_size, sample_list1]) 2
      (by simp)⟩

/-- C13: for a well-formed list whose size field counts at least its nodes and fits `size_t`
(in particular when it is exact), `list_unique` returns (any step bound of at least the length
is enough) a well-formed list over a subsequence `ks` of the old nodes, in their old order,
whose data are `unique_by` of the old data: the first element of every run of neighbours
comparing equal to it is kept and the rest of the run is dropped. No two adjacent elements of
the result compare equal, and the size went down by the number of nodes removed. -/
theorem list_unique_keeps_first_of_runs (h : Heap α) (l : list_t α) (cs : List (Nat × α))
    (hr : Repr h l cs) (hs : cs.length ≤ list_size l) (hM : list_size l < SIZE_MODULUS)
    (fuel : Nat) (hfuel : cs.length ≤ fuel) :
    ∃ h2 l2 ks, list_unique fuel h l = Except.ok (h2, l2) ∧ Repr h2 l2 ks ∧
      l2.list_comp = l.list_comp ∧
      walk_next h2 fuel l2.front = Except.ok (datas ks) ∧
      datas ks = unique_by (fun u v => decide (l.list_comp u v = 0)) (datas cs) ∧
      List.Chain' (fun u v => l.list_comp u v ≠ 0) (datas ks) ∧
      List.Sublist ks cs ∧
      list_size l2 + (cs.length - ks.length) = list_size l := by
  cases cs with
  | nil =>
    have hf : l.front = none := hr.2.2.2.1
    refine ⟨h, l, [], ?_, hr, rfl, ?_, rfl, List.chain'_nil, List.Sublist.slnil, rfl⟩
    · simp only [list_unique, hf]
      rw [unique_loop]
    · rw [hf]
      cases fuel <;> rfl
  | cons x b =>
    have hf : l.front = some x.1 := hr.2.2.2.1
    rcases unique_loop_spec b [] x (by simpa using hr) fuel with
      ⟨h3, l3, e0, e1, e2, e3⟩ | ⟨-, e1⟩
    · have hsub := unique_from_sublist (fun u v : Nat × α => decide (l.list_comp u.2 v.2 = 0)) x b
      have hlen := hsub.length_le
      have hdat : datas (unique_from (fun u v : Nat × α => decide (l.list_comp u.2 v.2 = 0)) x b) =
          unique_from (fun u v => decide (l.list_comp u v = 0)) x.2 (datas b) :=
        unique_from_map Prod.snd (fun u v => decide (l.list_comp u v = 0)) x b
      have e1b : Repr h3 l3
          (x :: unique_from (fun u v : Nat × α => decide (l.list_comp u.2 v.2 = 0)) x b) := by
        simpa using e1
      refine ⟨h3, l3, _, ?_, e1b, e3.1, ?_, ?_, ?_, List.Sublist.cons₂ x hsub, ?_⟩
      · simp only [list_unique, hf]
        exact e0
      · rw [e1b.2.2.2.1]
        apply walk_next_of_fwd e1b.2.1
        simp only [List.length_cons] at hfuel ⊢
        omega
      · rw [datas_cons, datas_cons, hdat]
        rfl
      · rw [datas_cons, hdat]
        refine List.Chain.imp ?_ (unique_from_chain _ x.2 (datas b))
        intro u v huv
        simpa using huv
      · show l3.size + _ = l.size
        have hs2 : (x :: b).length ≤ l.size := hs
        have hM2 : l.size < SIZE_MODULUS := hM
        simp only [List.length_cons] at hs2 ⊢
        rw [e2, iterate_size_dec (by omega) hM2]
        omega
    · simp only [List.length_cons] at hfuel
      omega

theorem list_unique_keeps_first_of_runs_witness :
    Repr dup_heap dup_list [(0, 1), (1, 1), (2, 2)] ∧
      ∃ h2 l2 ks, list_unique 3 dup_heap dup_list = Except.ok (h2, l2) ∧ Repr h2 l2 ks ∧
        l2.list_comp = dup_list.list_comp ∧
        walk_next h2 3 l2.front = Except.ok (datas ks) ∧
        datas ks = unique_by (fun u v => decide (dup_list.list_comp u v = 0))
          (datas [(0, 1), (1, 1), (2, 2)]) ∧
        List.Chain' (fun u v => dup_list.list_comp u v ≠ 0) (datas ks) ∧
        List.Sublist ks [(0, 1), (1, 1), (2, 2)] ∧
        list_size l2 + ([(0, 1), (1, 1), (2, 2)].length - ks.length) = list_size dup_list :=
  ⟨dup_repr,
    list_unique_keeps_first_of_runs dup_heap dup_list [(0, 1), (1, 1), (2, 2)] dup_repr
      (by simp [list_size, dup_list]) (by simp [SIZE_MODULUS, list_size, dup_list]) 3
      (by simp)⟩

end DList

